import Mathlib

/-!
# Jumpy3: bitboard engine for a 16-square linear board game

A shallow embedding of `src/tournament_code.cpp` (class `Jumpy3`) and proofs of
properties of its board codec, evaluator and move generator.

Conventions of the embedding
* a `uint16_t` is a natural number below `65536`; a cast `static_cast<uint16_t>(e)`
  is `e % 65536`, and `static_cast<uint16_t>(~x)` for a 16-bit `x` is `65535 - x`;
* an `int` is an `Int`; the loops of the source are bounded by the 16 squares of the
  board and are written as structural recursions with a counter that is shown to
  suffice;
* the private counters of the class are the fields of the structure `Jumpy3`, threaded
  through the member functions that touch them.
-/

/-- The mutable members of class `Jumpy3` (the clock `start_time` is not a value of the
embedding). -/
structure Jumpy3 where
  positions_evaluated : Int
  time_limit_reached : Bool
  time_limit_seconds : Int
  max_depth_reached : Int
deriving DecidableEq

namespace Jumpy3

/-- Source `struct Board`: one 16-bit set per piece type, bit `i` standing for square `i`. -/
structure Board where
  white_pawns : Nat
  white_king : Nat
  black_pawns : Nat
  black_king : Nat
deriving DecidableEq

/-! ## The source functions -/

/-- The `while` loop of `findLowestSetBit`, started at `pos`; the first argument bounds
the number of iterations (16 suffice from `pos = 0`). -/
def findLowestSetBitLoop (bitboard : Nat) : Nat → Nat → Int
  | 0, _ => -1
  | fuel + 1, pos =>
    if bitboard &&& (1 <<< pos) = 0 then
      if pos + 1 ≥ 16 then -1 else findLowestSetBitLoop bitboard fuel (pos + 1)
    else (pos : Int)

/-- Source `int findLowestSetBit(uint16_t bitboard)`. -/
def findLowestSetBit (bitboard : Nat) : Int :=
  if bitboard = 0 then -1 else findLowestSetBitLoop bitboard 16 0

/-- One iteration of the loop of `stringToBoard`: the `switch` on `board_str[i]`. -/
def stringToBoardStep (board : Board) (i : Nat) (c : Char) : Board :=
  let bit := (1 <<< i) % 65536
  if c = 'w' then { board with white_pawns := board.white_pawns ||| bit }
  else if c = 'W' then { board with white_king := board.white_king ||| bit }
  else if c = 'b' then { board with black_pawns := board.black_pawns ||| bit }
  else if c = 'B' then { board with black_king := board.black_king ||| bit }
  else board

/-- The loop of `stringToBoard` over the remaining characters, `i` being the index of the
first of them. -/
def stringToBoardLoop : List Char → Nat → Board → Board
  | [], _, board => board
  | c :: cs, i, board => stringToBoardLoop cs (i + 1) (stringToBoardStep board i c)

/-- Source `Board stringToBoard(const string& board_str)`; the characters of the five-symbol
alphabet are single bytes, so the index of a character is its position. -/
def stringToBoard (board_str : String) : Board :=
  stringToBoardLoop board_str.data 0 ⟨0, 0, 0, 0⟩

/-- One iteration of the loop of `boardToString`: `result[i]` is overwritten by the first
piece type that has bit `i`, and left alone when there is none. -/
def boardToStringStep (board : Board) (result : List Char) (i : Nat) : List Char :=
  let bit := (1 <<< i) % 65536
  if board.white_pawns &&& bit ≠ 0 then result.set i 'w'
  else if board.white_king &&& bit ≠ 0 then result.set i 'W'
  else if board.black_pawns &&& bit ≠ 0 then result.set i 'b'
  else if board.black_king &&& bit ≠ 0 then result.set i 'B'
  else result

/-- Source `string boardToString(const Board& board)`. -/
def boardToString (board : Board) : String :=
  String.mk ((List.range 16).foldl (boardToStringStep board) (List.replicate 16 'x'))

/-- Source `bool isEmpty(const Board& board, int pos)`. -/
def isEmpty (board : Board) (pos : Nat) : Bool :=
  let bit := (1 <<< pos) % 65536
  (board.white_pawns &&& bit == 0) && (board.white_king &&& bit == 0) &&
    (board.black_pawns &&& bit == 0) && (board.black_king &&& bit == 0)

/-- Source `bool isWhiteWin(const Board& board)`: "White has won (W is not on the board)". -/
def isWhiteWin (board : Board) : Bool := board.white_king == 0

/-- Source `bool isBlackWin(const Board& board)`: "Black has won (B is not on the board)". -/
def isBlackWin (board : Board) : Bool := board.black_king == 0

/-- Source `int findKing(uint16_t king_bitboard)`. -/
def findKing (king_bitboard : Nat) : Int := findLowestSetBit king_bitboard

/-- Source `int estimatePosition(const Board& board)`: the returned score, and the object with
`positions_evaluated` incremented. -/
def estimatePosition (self : Jumpy3) (board : Board) : Int × Jumpy3 :=
  let self1 := { self with positions_evaluated := self.positions_evaluated + 1 }
  if isWhiteWin board then (100, self1)
  else if isBlackWin board then (-100, self1)
  else
    let white_king_index := findKing board.white_king
    let black_king_index := findKing board.black_king
    (white_king_index + black_king_index - 15, self1)

/-- The loop `while (emptyPos < 16 && !isEmpty(board, emptyPos)) emptyPos++` of
`processWhitePieceMoves`; the first argument bounds the number of iterations. -/
def findEmptyPosLoop (board : Board) : Nat → Nat → Nat
  | 0, emptyPos => emptyPos
  | fuel + 1, emptyPos =>
    if emptyPos < 16 && !isEmpty board emptyPos then findEmptyPosLoop board fuel (emptyPos + 1)
    else emptyPos

/-- The loop `while (rightmost_empty >= 0 && !isEmpty(jump_board, rightmost_empty))
rightmost_empty--` of `processWhitePieceMoves`, started at the given index. -/
def rightmostEmptyLoop (jump_board : Board) : Nat → Int
  | 0 => if !isEmpty jump_board 0 then -1 else 0
  | k + 1 => if !isEmpty jump_board (k + 1) then rightmostEmptyLoop jump_board k else ((k + 1 : Nat) : Int)

/-- Source `void processWhitePieceMoves(const Board& board, int pos, bool isKing,
vector<Board>& moves)`: the vector after the call. -/
def processWhitePieceMoves (board : Board) (pos : Nat) (isKing : Bool) (moves : List Board) :
    List Board :=
  let pos_bit := (1 <<< pos) % 65536
  let new_board : Board :=
    if isKing then { board with white_king := board.white_king &&& (65535 - pos_bit) }
    else { board with white_pawns := board.white_pawns &&& (65535 - pos_bit) }
  if pos = 15 then moves ++ [new_board]
  else if isEmpty board (pos + 1) then
    let new_pos_bit := (1 <<< (pos + 1)) % 65536
    let forward_board : Board :=
      if isKing then { new_board with white_king := new_board.white_king ||| new_pos_bit }
      else { new_board with white_pawns := new_board.white_pawns ||| new_pos_bit }
    moves ++ [forward_board]
  else
    let emptyPos := findEmptyPosLoop board 16 (pos + 1)
    if emptyPos ≥ 16 then moves ++ [new_board]
    else
      let empty_pos_bit := (1 <<< emptyPos) % 65536
      let jump_board : Board :=
        if isKing then { new_board with white_king := new_board.white_king ||| empty_pos_bit }
        else { new_board with white_pawns := new_board.white_pawns ||| empty_pos_bit }
      let middle_pos_bit := (1 <<< (pos + 1)) % 65536
      let is_black_pawn : Bool := board.black_pawns &&& middle_pos_bit != 0
      let is_black_king : Bool := board.black_king &&& middle_pos_bit != 0
      let rightmost_empty := rightmostEmptyLoop jump_board 15
      let rightmost_bit := (1 <<< rightmost_empty.toNat) % 65536
      let jump_board1 : Board :=
        if (emptyPos : Int) - (pos : Int) = 2 then
          if is_black_pawn || is_black_king then
            if rightmost_empty ≥ 0 then
              if is_black_pawn then
                { jump_board with
                  black_pawns := (jump_board.black_pawns &&& (65535 - middle_pos_bit)) ||| rightmost_bit }
              else
                { jump_board with
                  black_king := (jump_board.black_king &&& (65535 - middle_pos_bit)) ||| rightmost_bit }
            else jump_board
          else jump_board
        else jump_board
      moves ++ [jump_board1]

/-- The loop `while (pawns)` of `generateWhiteMoves`; the first argument bounds the number
of iterations (every iteration clears one of the at most 16 bits of `pawns`). -/
def whitePawnsLoop (board : Board) : Nat → Nat → List Board → List Board
  | 0, _, moves => moves
  | fuel + 1, pawns, moves =>
    if pawns ≠ 0 then
      let pawnPos := findLowestSetBit pawns
      let moves1 := processWhitePieceMoves board pawnPos.toNat false moves
      whitePawnsLoop board fuel (pawns &&& ((pawns - 1) % 65536)) moves1
    else moves

/-- Source `vector<Board> generateWhiteMoves(const Board& board)`. -/
def generateWhiteMoves (board : Board) : List Board :=
  let moves : List Board := []
  let moves1 :=
    if board.white_king ≠ 0 then
      let kingPos := findKing board.white_king
      processWhitePieceMoves board kingPos.toNat true moves
    else moves
  whitePawnsLoop board 16 board.white_pawns moves1

/-- One iteration of the loop of `flipBoard`. -/
def flipBoardStep (board : Board) (flipped : Board) (i : Nat) : Board :=
  let bit := (1 <<< i) % 65536
  let flipped_bit := (1 <<< (15 - i)) % 65536
  let f1 : Board :=
    if board.white_pawns &&& bit ≠ 0 then { flipped with black_pawns := flipped.black_pawns ||| flipped_bit }
    else flipped
  let f2 : Board :=
    if board.white_king &&& bit ≠ 0 then { f1 with black_king := f1.black_king ||| flipped_bit } else f1
  let f3 : Board :=
    if board.black_pawns &&& bit ≠ 0 then { f2 with white_pawns := f2.white_pawns ||| flipped_bit } else f2
  if board.black_king &&& bit ≠ 0 then { f3 with white_king := f3.white_king ||| flipped_bit } else f3

/-- Source `Board flipBoard(const Board& board)`. -/
def flipBoard (board : Board) : Board :=
  (List.range 16).foldl (flipBoardStep board) ⟨0, 0, 0, 0⟩

/-- Source `vector<Board> generateBlackMoves(const Board& board)`. -/
def generateBlackMoves (board : Board) : List Board :=
  let flipped_board := flipBoard board
  let white_moves := generateWhiteMoves flipped_board
  white_moves.map flipBoard

/-! ## Notions used to state the properties -/

/-- Every field of the board is a 16-bit value, as its type `uint16_t` demands. -/
def Board.wf (b : Board) : Prop :=
  b.white_pawns < 65536 ∧ b.white_king < 65536 ∧ b.black_pawns < 65536 ∧ b.black_king < 65536

instance (b : Board) : Decidable b.wf := by unfold Board.wf; infer_instance

/-- The four piece sets are pairwise disjoint. -/
def Board.disjoint (b : Board) : Prop :=
  b.white_pawns &&& b.white_king = 0 ∧ b.white_pawns &&& b.black_pawns = 0 ∧
  b.white_pawns &&& b.black_king = 0 ∧ b.white_king &&& b.black_pawns = 0 ∧
  b.white_king &&& b.black_king = 0 ∧ b.black_pawns &&& b.black_king = 0

instance (b : Board) : Decidable b.disjoint := by unfold Board.disjoint; infer_instance

/-- The squares of a 16-bit set, in ascending order. -/
def squaresOf (x : Nat) : List Nat := (List.range 16).filter (fun i => x.testBit i)

/-- Number of set bits of a 16-bit set. -/
def popcount16 (x : Nat) : Nat := (squaresOf x).length

/-- Total number of pieces on the board. -/
def pieceCount (b : Board) : Nat :=
  popcount16 b.white_pawns + popcount16 b.white_king + popcount16 b.black_pawns +
    popcount16 b.black_king

/-- The board that `processWhitePieceMoves` appends for the piece on `pos`. -/
def pushedBoard (board : Board) (pos : Nat) (isKing : Bool) : Board :=
  (processWhitePieceMoves board pos isKing []).headD board

/-- Some piece stands on square `i`. -/
def occupied (b : Board) (i : Nat) : Bool :=
  b.white_pawns.testBit i || b.white_king.testBit i || b.black_pawns.testBit i ||
    b.black_king.testBit i

/-- The White set a piece belongs to: the king set or the regular-piece set. -/
def Board.whiteSet (b : Board) (isKing : Bool) : Nat :=
  if isKing then b.white_king else b.white_pawns

/-- The Black set a piece belongs to: the king set or the regular-piece set. -/
def Board.blackSet (b : Board) (isKing : Bool) : Nat :=
  if isKing then b.black_king else b.black_pawns

/-- Square `k` is the lowest square of the set `x`. -/
def IsLowestSq (x k : Nat) : Prop :=
  x.testBit k = true ∧ ∀ j, j < k → x.testBit j = false

instance (x k : Nat) : Decidable (IsLowestSq x k) := by unfold IsLowestSq; infer_instance

/-- The four piece sets of a board. -/
inductive PieceSet where
  | wp | wk | bp | bk
deriving DecidableEq

/-- The field of the board that holds the given piece set. -/
def Board.field (b : Board) : PieceSet → Nat
  | .wp => b.white_pawns
  | .wk => b.white_king
  | .bp => b.black_pawns
  | .bk => b.black_king

/-- The character that stands for a piece of the given set. -/
def PieceSet.char : PieceSet → Char
  | .wp => 'w'
  | .wk => 'W'
  | .bp => 'b'
  | .bk => 'B'

/-- The character of square `i`: the first piece set, in the order of the tests of
`boardToString`, that has bit `i`, and `x` when there is none. -/
def squareChar (b : Board) (i : Nat) : Char :=
  if b.white_pawns.testBit i then 'w'
  else if b.white_king.testBit i then 'W'
  else if b.black_pawns.testBit i then 'b'
  else if b.black_king.testBit i then 'B'
  else 'x'

/-- The board with bit `p` cleared in the White set of the mover. -/
def removeWhite (b : Board) (p : Nat) (isKing : Bool) : Board :=
  if isKing then { b with white_king := b.white_king &&& (65535 - 2 ^ p) }
  else { b with white_pawns := b.white_pawns &&& (65535 - 2 ^ p) }

/-- The board with bit `e` set in the White set of the mover. -/
def placeWhite (b : Board) (e : Nat) (isKing : Bool) : Board :=
  if isKing then { b with white_king := b.white_king ||| 2 ^ e }
  else { b with white_pawns := b.white_pawns ||| 2 ^ e }

/-- The board with the Black piece of square `m` put on square `r`, within its set. -/
def relocateBlack (b : Board) (m r : Nat) (isKing : Bool) : Board :=
  if isKing then { b with black_king := (b.black_king &&& (65535 - 2 ^ m)) ||| 2 ^ r }
  else { b with black_pawns := (b.black_pawns &&& (65535 - 2 ^ m)) ||| 2 ^ r }

/-- Square `j` is empty once the White piece of square `p` has left `p` and stands on
`p + 2` (on a board on which nothing else stands on `p`). -/
def emptyAfterJump (b : Board) (p j : Nat) : Bool :=
  decide (j = p) || (!occupied b j && !decide (j = p + 2))

/-- The set of the other colour with the same piece type. -/
def PieceSet.mirror : PieceSet → PieceSet
  | .wp => .bp
  | .wk => .bk
  | .bp => .wp
  | .bk => .wk

/-- The board that `generateBlackMoves` returns for the Black piece on square `i` of the
given board: the piece stands on square `15 - i` of the flipped board. -/
def blackMoveOf (b : Board) (i : Nat) (isKing : Bool) : Board :=
  flipBoard (pushedBoard (flipBoard b) (15 - i) isKing)

/-- The White set of regular pieces or of kings. -/
def PieceSet.white (isKing : Bool) : PieceSet := if isKing then .wk else .wp

/-- The Black set of regular pieces or of kings. -/
def PieceSet.black (isKing : Bool) : PieceSet := if isKing then .bk else .bp

/-- The board with square `p` cleared in the set `f`. -/
def Board.clearSq (b : Board) (f : PieceSet) (p : Nat) : Board :=
  match f with
  | .wp => { b with white_pawns := b.white_pawns &&& (65535 - 2 ^ p) }
  | .wk => { b with white_king := b.white_king &&& (65535 - 2 ^ p) }
  | .bp => { b with black_pawns := b.black_pawns &&& (65535 - 2 ^ p) }
  | .bk => { b with black_king := b.black_king &&& (65535 - 2 ^ p) }

/-- The board with square `e` added to the set `f`. -/
def Board.setSq (b : Board) (f : PieceSet) (e : Nat) : Board :=
  match f with
  | .wp => { b with white_pawns := b.white_pawns ||| 2 ^ e }
  | .wk => { b with white_king := b.white_king ||| 2 ^ e }
  | .bp => { b with black_pawns := b.black_pawns ||| 2 ^ e }
  | .bk => { b with black_king := b.black_king ||| 2 ^ e }

/-- The rule of a Black move stated on the unflipped board, after the words of the
specification: the Black piece on `p` goes to the greatest empty square `e` below `p`, or
leaves the board when there is none; when `e = p - 2` and a White piece stands on `p - 1`,
that White piece is put, within its set, on the lowest square that is empty once the mover
has left `p` and stands on `p - 2`. -/
def mirroredBlackMove (b : Board) (p : Nat) (isKing : Bool) : Board :=
  let left := b.clearSq (PieceSet.black isKing) p
  match ((List.range p).reverse).find? (fun j => !occupied b j) with
  | none => left
  | some e =>
    let moved := left.setSq (PieceSet.black isKing) e
    if e + 2 = p ∧ (b.white_pawns.testBit (p - 1) = true ∨ b.white_king.testBit (p - 1) = true) then
      let whiteKing := b.white_king.testBit (p - 1)
      match (List.range 16).find? (fun j => !occupied moved j) with
      | some r => (moved.clearSq (PieceSet.white whiteKing) (p - 1)).setSq (PieceSet.white whiteKing) r
      | none => moved
    else moved

/-- What the search does, in order of occurrence: a call of `checkTimeLimit` with its answer,
the start of an invocation of `minimax`, the generation of a move list, a call of
`estimatePosition`. The record is not part of the source; it is kept to state properties
of the order of these steps. -/
inductive Event where
  | check (answer : Bool)
  | minimax
  | generate
  | evaluate
deriving DecidableEq

/-- The state of a run of the search: the object, the number of calls of `checkTimeLimit`
made so far, and the record of the steps taken so far. -/
structure Run where
  self : Jumpy3
  clock : Nat
  trace : List Event
deriving DecidableEq

/-- The value of `numeric_limits<int>::min()`. -/
def intMin : Int := -2147483648

/-- The value of `numeric_limits<int>::max()`. -/
def intMax : Int := 2147483647

/-- Source `bool checkTimeLimit()`. The clock is not a value of the embedding: the time
governor is an oracle, `expired n` being the outcome of the comparison
`elapsed >= time_limit_seconds` at call number `n` of the run. -/
def checkTimeLimit (expired : Nat → Bool) (r : Run) : Bool × Run :=
  if expired r.clock then
    (true, { self := { r.self with time_limit_reached := true }, clock := r.clock + 1,
             trace := r.trace ++ [Event.check true] })
  else
    (false, { self := r.self, clock := r.clock + 1, trace := r.trace ++ [Event.check false] })

/-- A call of `estimatePosition` within a run. -/
def Run.estimatePosition (r : Run) (board : Board) : Int × Run :=
  let res := Jumpy3.estimatePosition r.self board
  (res.1, { self := res.2, clock := r.clock, trace := r.trace ++ [Event.evaluate] })

/-- The loop `for (const auto& move : moves)` of the maximizing branch of `minimax`;
`child` is the recursive call `minimax(move, depth - 1, false, current_depth + 1)`. -/
def maxLoop (child : Run → Board → Int × Run) : List Board → Int → Run → Int × Run
  | [], best_value, r => (best_value, r)
  | move :: rest, best_value, r =>
    if r.self.time_limit_reached then (best_value, r)
    else
      let res := child r move
      maxLoop child rest (max best_value res.1) res.2

/-- The loop `for (const auto& move : moves)` of the minimizing branch of `minimax`;
`child` is the recursive call `minimax(move, depth - 1, true, current_depth + 1)`. -/
def minLoop (child : Run → Board → Int × Run) : List Board → Int → Run → Int × Run
  | [], best_value, r => (best_value, r)
  | move :: rest, best_value, r =>
    if r.self.time_limit_reached then (best_value, r)
    else
      let res := child r move
      minLoop child rest (min best_value res.1) res.2

/-- Source `int minimax(const Board& board, int depth, bool is_maximizing,
int current_depth)`, for `depth ≥ 0`: the returned value and the run after the call. -/
def minimax (expired : Nat → Bool) :
    Nat → Run → Board → Bool → Int → Int × Run
  | depth, r, board, is_maximizing, current_depth =>
    let r0 : Run := { self := r.self, clock := r.clock, trace := r.trace ++ [Event.minimax] }
    let chk := checkTimeLimit expired r0
    if chk.1 then chk.2.estimatePosition board
    else
      let r1 : Run :=
        { self := { chk.2.self with
                    max_depth_reached := max chk.2.self.max_depth_reached current_depth },
          clock := chk.2.clock, trace := chk.2.trace }
      match depth with
      | 0 => r1.estimatePosition board
      | d + 1 =>
        if isWhiteWin board || isBlackWin board then r1.estimatePosition board
        else if is_maximizing then
          let moves := generateWhiteMoves board
          let r2 : Run := { self := r1.self, clock := r1.clock, trace := r1.trace ++ [Event.generate] }
          maxLoop (fun r3 move => minimax expired d r3 move false (current_depth + 1)) moves
            intMin r2
        else
          let moves := generateBlackMoves board
          let r2 : Run := { self := r1.self, clock := r1.clock, trace := r1.trace ++ [Event.generate] }
          minLoop (fun r3 move => minimax expired d r3 move true (current_depth + 1)) moves
            intMax r2

/-- The loop `for (const auto& move : possible_moves)` of `findBestMoveWithTimeLimit` at
the given `depth`: the pair `(current_best_move, current_best_value)`, the flag
`depth_completed` and the run after the loop. -/
def rootLoop (expired : Nat → Bool) (depth : Nat) :
    List Board → Board × Int → Run → (Board × Int) × Bool × Run
  | [], current_best, r => (current_best, true, r)
  | move :: rest, current_best, r =>
    let chk := checkTimeLimit expired r
    if chk.1 then (current_best, false, chk.2)
    else
      let res := minimax expired (depth - 1) chk.2 move false 1
      let current_best1 := if res.1 > current_best.2 then (move, res.1) else current_best
      rootLoop expired depth rest current_best1 res.2

/-- The loop `for (int depth = 1; !time_limit_reached; depth++)` of
`findBestMoveWithTimeLimit`, started at `depth` with the pair `(best_move, best_value)`.
The first argument bounds the number of iterations: `none` means that the loop has not
been left within that many iterations. -/
def deepeningLoop (expired : Nat → Bool) (board : Board) :
    Nat → Nat → Board × Int → Run → Option ((Board × Int) × Run)
  | 0, _, _, _ => none
  | fuel + 1, depth, best, r =>
    if r.self.time_limit_reached then some (best, r)
    else
      let possible_moves := generateWhiteMoves board
      let r1 : Run := { self := r.self, clock := r.clock, trace := r.trace ++ [Event.generate] }
      let pass := rootLoop expired depth possible_moves (board, intMin) r1
      if pass.2.1 then deepeningLoop expired board fuel (depth + 1) pass.1 pass.2.2
      else some (best, pass.2.2)

/-- The run at the start of `findBestMoveWithTimeLimit`, after the "Reset state" block: the
flag and the counters are cleared and no check has been made yet. -/
def Run.start (self : Jumpy3) : Run :=
  { self := { positions_evaluated := 0, time_limit_reached := false,
              time_limit_seconds := self.time_limit_seconds, max_depth_reached := 0 },
    clock := 0, trace := [] }

/-- Source `pair<Board, int> findBestMoveWithTimeLimit(const Board& board)`: the returned
pair and the run at the return, when the depth loop is left within `fuel` iterations. -/
def findBestMoveWithTimeLimit (expired : Nat → Bool) (fuel : Nat) (self : Jumpy3)
    (board : Board) : Option ((Board × Int) × Run) :=
  deepeningLoop expired board fuel 1 (board, intMin) (Run.start self)

/-- The score of a board: the value returned by `estimatePosition`. -/
def staticScore (board : Board) : Int := (Jumpy3.estimatePosition ⟨0, false, 0, 0⟩ board).1

/-- The value of plain minimax to the given depth, with no time governor: the static score
at depth 0 and on boards with a king missing, else the greatest (White to move) or least
(Black to move) value of the boards of the mover, starting from the sentinel. -/
def minimaxValue : Nat → Board → Bool → Int
  | 0, board, _ => staticScore board
  | d + 1, board, is_maximizing =>
    if isWhiteWin board || isBlackWin board then staticScore board
    else if is_maximizing then
      (generateWhiteMoves board).foldl (fun best move => max best (minimaxValue d move false)) intMin
    else
      (generateBlackMoves board).foldl (fun best move => min best (minimaxValue d move true)) intMax

/-- The time governor is monotone: once a check reports expiry, every later check does. -/
def MonotoneGovernor (expired : Nat → Bool) : Prop :=
  ∀ n m, n ≤ m → expired n = true → expired m = true

/-- The governor that trips at check number `t` and at every later check. -/
def tripsAt (t : Nat) : Nat → Bool := fun n => decide (t ≤ n)

/-- The run after a call of `checkTimeLimit` at the top of `minimax` that reports expiry. -/
def Run.tripped (r : Run) : Run :=
  { self := { r.self with time_limit_reached := true }, clock := r.clock + 1,
    trace := r.trace ++ [Event.minimax] ++ [Event.check true] }

/-- The run after the top of `minimax` when the check reports no expiry: the check is
counted and `max_depth_reached` is updated. -/
def Run.entered (r : Run) (current_depth : Int) : Run :=
  { self := { r.self with max_depth_reached := max r.self.max_depth_reached current_depth },
    clock := r.clock + 1, trace := r.trace ++ [Event.minimax] ++ [Event.check false] }

/-- The run after the generation of a move list. -/
def Run.generated (r : Run) : Run :=
  { self := r.self, clock := r.clock, trace := r.trace ++ [Event.generate] }

/-- The flag `time_limit_reached` is set only after a check that reported expiry. -/
def Run.consistent (expired : Nat → Bool) (r : Run) : Prop :=
  r.self.time_limit_reached = true → ∃ n, n < r.clock ∧ expired n = true

/-- No check of the record reports expiry, and the record does not stop right after the
start of an invocation of `minimax`. -/
def Quiet (t : List Event) : Prop :=
  Event.check true ∉ t ∧ t.getLast? ≠ some Event.minimax

/-- The values that a static evaluation of a disjoint board can take. -/
def InScoreRange (v : Int) : Prop := v = 100 ∨ v = -100 ∨ (-14 ≤ v ∧ v ≤ 14)

/-- The update `if (value > current_best_value)` of `findBestMoveWithTimeLimit`, folded over
the root moves with the values `v`. -/
def selectBest (v : Board → Int) (moves : List Board) (start : Board × Int) : Board × Int :=
  moves.foldl (fun c move => if v move > c.2 then (move, v move) else c) start

/-- The flag `time_limit_reached` is set as soon as a check has reported expiry. -/
def Run.alert (expired : Nat → Bool) (r : Run) : Prop :=
  ∀ n, n < r.clock → expired n = true → r.self.time_limit_reached = true

/-- The record `t` of a part of the search that was stopped by the governor: a quiet part,
followed by one of the given endings. -/
def StoppedWith (tails : List (List Event)) (t : List Event) : Prop :=
  ∃ t0 s, Quiet t0 ∧ s ∈ tails ∧ t = t0 ++ s

/-- The run `r2` continues the run `r1`, and the steps added are quiet with the flag
`time_limit_reached` still down, or they are a stopped record with the flag set. -/
def Outcome (tails : List (List Event)) (r1 r2 : Run) : Prop :=
  ∃ t, r2.trace = r1.trace ++ t ∧
    ((r2.self.time_limit_reached = false ∧ Quiet t) ∨
     (r2.self.time_limit_reached = true ∧ StoppedWith tails t))

/-- The ending of the record of an invocation of `minimax` in which a check reported expiry:
the start of the detecting invocation, its check, and the static evaluation it returns. -/
def minimaxTails : List (List Event) :=
  [[Event.minimax, Event.check true, Event.evaluate]]

/-- The endings of the record of a pass over the root moves that was stopped: a check of the
root loop reported expiry, or a check inside `minimax` did, in the invocation for the last
root move or for an earlier one (the root loop then makes one more check). -/
def rootTails : List (List Event) :=
  [[Event.check true],
   [Event.minimax, Event.check true, Event.evaluate],
   [Event.minimax, Event.check true, Event.evaluate, Event.check true]]

/-- The characters of the board alphabet. -/
def validChar (c : Char) : Bool :=
  c = 'w' || c = 'W' || c = 'b' || c = 'B' || c = 'x'

/-! ## Bits of 16-bit sets -/

theorem bit16_eq {i : Nat} (h : i < 16) : (1 <<< i) % 65536 = 2 ^ i := by
  rw [Nat.one_shiftLeft]
  apply Nat.mod_eq_of_lt
  calc 2 ^ i < 2 ^ 16 := Nat.pow_lt_pow_right (by decide) h
    _ = 65536 := by norm_num

theorem bit16_ge {i : Nat} (h : 16 ≤ i) : (1 <<< i) % 65536 = 0 := by
  rw [Nat.one_shiftLeft]
  have : (65536 : Nat) = 2 ^ 16 := by norm_num
  rw [this]
  exact Nat.mod_eq_zero_of_dvd (Nat.pow_dvd_pow 2 h)

theorem and_two_pow_eq_zero (x i : Nat) : x &&& 2 ^ i = 0 ↔ x.testBit i = false := by
  constructor
  · intro h
    have := congrArg (fun y => y.testBit i) h
    simpa [Nat.testBit_two_pow_self] using this
  · intro h
    apply Nat.eq_of_testBit_eq
    intro j
    by_cases hj : i = j
    · subst hj; simp [h]
    · simp [Nat.testBit_two_pow_of_ne hj]

theorem testBit_high {x : Nat} (hx : x < 65536) {j : Nat} (hj : 16 ≤ j) : x.testBit j = false := by
  apply Nat.testBit_lt_two_pow
  calc x < 2 ^ 16 := by simpa using hx
    _ ≤ 2 ^ j := Nat.pow_le_pow_right (by decide) hj

theorem testBit_setSq (x i j : Nat) : (x ||| 2 ^ i).testBit j = (x.testBit j || decide (j = i)) := by
  rw [Nat.testBit_or, Nat.testBit_two_pow]
  by_cases h : i = j
  · subst h; simp
  · have h2 : ¬ j = i := fun e => h e.symm
    simp [h, h2]

theorem testBit_clearSq {x : Nat} (hx : x < 65536) {i : Nat} (hi : i < 16) (j : Nat) :
    (x &&& (65535 - 2 ^ i)).testBit j = (x.testBit j && !decide (j = i)) := by
  have h1 : (2 : Nat) ^ i < 2 ^ 16 := Nat.pow_lt_pow_right (by decide) hi
  have h2 : 65535 - 2 ^ i = 2 ^ 16 - (2 ^ i + 1) := by omega
  rw [Nat.testBit_and, h2, Nat.testBit_two_pow_sub_succ h1, Nat.testBit_two_pow]
  by_cases hj : j < 16
  · by_cases h : i = j
    · subst h; simp
    · have h3 : ¬ j = i := fun e => h e.symm
      simp [h, h3, hj]
  · rw [testBit_high hx (by omega)]; simp

theorem setSq_lt {x : Nat} (hx : x < 65536) {i : Nat} (hi : i < 16) : x ||| 2 ^ i < 65536 := by
  have h1 : (2 : Nat) ^ i < 2 ^ 16 := Nat.pow_lt_pow_right (by decide) hi
  have : x < 2 ^ 16 := by simpa using hx
  simpa using Nat.or_lt_two_pow this h1

theorem clearSq_lt {x : Nat} (hx : x < 65536) (y : Nat) : x &&& y < 65536 :=
  lt_of_le_of_lt Nat.and_le_left hx

theorem and_two_pow_beq_zero (x i : Nat) : (x &&& 2 ^ i == 0) = !x.testBit i := by
  cases h : x.testBit i
  · simp [(and_two_pow_eq_zero x i).2 h]
  · have : ¬ (x &&& 2 ^ i = 0) := fun e => by
      rw [(and_two_pow_eq_zero x i).1 e] at h; cases h
    simp [this]

theorem isEmpty_eq (b : Board) {i : Nat} (hi : i < 16) : isEmpty b i = !occupied b i := by
  simp only [isEmpty, occupied, bit16_eq hi, and_two_pow_beq_zero]
  cases b.white_pawns.testBit i <;> cases b.white_king.testBit i <;>
    cases b.black_pawns.testBit i <;> cases b.black_king.testBit i <;> rfl

/-! ## The scan for the lowest set bit -/

theorem findLowestSetBitLoop_eq (x k : Nat) (hk : k < 16) (hlow : IsLowestSq x k) :
    ∀ fuel pos, pos ≤ k → 16 ≤ fuel + pos → findLowestSetBitLoop x fuel pos = (k : Int) := by
  intro fuel
  induction fuel with
  | zero => intro pos h1 h2; omega
  | succ n ih =>
    intro pos h1 h2
    rw [findLowestSetBitLoop, Nat.one_shiftLeft]
    by_cases hpk : pos = k
    · subst hpk
      have : ¬ (x &&& 2 ^ pos = 0) := by
        rw [and_two_pow_eq_zero]; simp [hlow.1]
      simp [this]
    · have hlt : pos < k := by omega
      have : x &&& 2 ^ pos = 0 := (and_two_pow_eq_zero x pos).2 (hlow.2 pos hlt)
      have h16 : ¬ (pos + 1 ≥ 16) := by omega
      simp only [this, if_true, h16, if_false]
      exact ih (pos + 1) (by omega) (by omega)

theorem exists_lowestSq {x : Nat} (hx : x < 65536) (h0 : x ≠ 0) : ∃ k, k < 16 ∧ IsLowestSq x k := by
  have hex : ∃ i, x.testBit i = true := Nat.ne_zero_implies_bit_true h0
  refine ⟨Nat.find hex, ?_, Nat.find_spec hex, ?_⟩
  · by_contra hge
    have := testBit_high hx (Nat.le_of_not_lt hge)
    rw [Nat.find_spec hex] at this
    cases this
  · intro j hj
    have := Nat.find_min hex hj
    simpa using this

theorem isLowestSq_unique {x k k2 : Nat} (h1 : IsLowestSq x k) (h2 : IsLowestSq x k2) : k = k2 := by
  rcases Nat.lt_trichotomy k k2 with h | h | h
  · have := h2.2 k h; rw [h1.1] at this; cases this
  · exact h
  · have := h1.2 k2 h; rw [h2.1] at this; cases this

theorem findLowestSetBit_eq {x k : Nat} (hk : k < 16) (hlow : IsLowestSq x k) :
    findLowestSetBit x = (k : Int) := by
  have h0 : x ≠ 0 := by
    intro e; have := hlow.1; rw [e] at this; simp at this
  simp only [findLowestSetBit, h0, if_false]
  exact findLowestSetBitLoop_eq x k hk hlow 16 0 (Nat.zero_le _) (by omega)

/-! ## The board codec -/

theorem and_two_pow_ne_zero (x i : Nat) : x &&& 2 ^ i ≠ 0 ↔ x.testBit i = true := by
  rw [Ne, and_two_pow_eq_zero]; simp

theorem Board.ext_field {a b : Board} (h : ∀ k, a.field k = b.field k) : a = b := by
  cases a; cases b
  have h1 := h .wp; have h2 := h .wk; have h3 := h .bp; have h4 := h .bk
  simp only [Board.field] at h1 h2 h3 h4
  simp [h1, h2, h3, h4]

theorem stringToBoardStep_field (b : Board) (i : Nat) (c : Char) (k : PieceSet) :
    (stringToBoardStep b i c).field k =
      if c = k.char then b.field k ||| ((1 <<< i) % 65536) else b.field k := by
  unfold stringToBoardStep
  cases k <;> simp only [Board.field, PieceSet.char] <;> split_ifs <;> simp_all

theorem testBit_or_bit16 (x i j : Nat) :
    (x ||| ((1 <<< i) % 65536)).testBit j = (x.testBit j || (decide (j = i) && decide (i < 16))) := by
  by_cases h : i < 16
  · rw [bit16_eq h, testBit_setSq]; simp [h]
  · rw [bit16_ge (by omega)]; simp [h]

theorem stringToBoardLoop_testBit (k : PieceSet) :
    ∀ (cs : List Char) (i0 : Nat) (b : Board) (j : Nat),
      ((stringToBoardLoop cs i0 b).field k).testBit j =
        ((b.field k).testBit j ||
          (decide (i0 ≤ j) && decide (j < 16) && decide (cs[j - i0]? = some k.char))) := by
  intro cs
  induction cs with
  | nil => intro i0 b j; simp [stringToBoardLoop]
  | cons c cs ih =>
    intro i0 b j
    rw [stringToBoardLoop, ih, stringToBoardStep_field]
    have hstep : (if c = k.char then b.field k ||| ((1 <<< i0) % 65536) else b.field k).testBit j
        = ((b.field k).testBit j || (decide (c = k.char) && decide (j = i0) && decide (i0 < 16))) := by
      split_ifs with hc
      · rw [testBit_or_bit16]; simp [hc]
      · simp [hc]
    rw [hstep]
    rcases Nat.lt_trichotomy j i0 with h | h | h
    · have h1 : ¬ i0 ≤ j := by omega
      have h2 : ¬ i0 + 1 ≤ j := by omega
      have h3 : ¬ j = i0 := by omega
      simp [h1, h2, h3]
    · subst h
      have h2 : ¬ j + 1 ≤ j := by omega
      by_cases h16 : j < 16 <;> by_cases hc : c = k.char <;> simp [h2, h16, hc]
    · have h1 : i0 ≤ j := by omega
      have h2 : i0 + 1 ≤ j := by omega
      have h3 : ¬ j = i0 := by omega
      have h4 : j - i0 = (j - (i0 + 1)) + 1 := by omega
      have h5 : (c :: cs)[j - i0]? = cs[j - (i0 + 1)]? := by
        rw [h4, List.getElem?_cons_succ]
      rw [h5]
      simp [h1, h2, h3]

theorem stringToBoard_testBit (s : String) (k : PieceSet) (j : Nat) :
    ((stringToBoard s).field k).testBit j =
      (decide (j < 16) && decide (s.data[j]? = some k.char)) := by
  unfold stringToBoard
  rw [stringToBoardLoop_testBit]
  cases k <;> simp [Board.field]

theorem set_self {α : Type} : ∀ (l : List α) {i : Nat} (h : i < l.length), l.set i l[i] = l := by
  intro l
  induction l with
  | nil => intro i h; simp at h
  | cons a l ih =>
    intro i h
    cases i with
    | zero => simp
    | succ i => simp only [List.set_cons_succ, List.getElem_cons_succ]; rw [ih]

theorem boardToStringStep_eq (b : Board) (r : List Char) {i : Nat} (hi : i < 16)
    (hlen : i < r.length) (hx : r[i] = 'x') :
    boardToStringStep b r i = r.set i (squareChar b i) := by
  unfold boardToStringStep squareChar
  simp only [bit16_eq hi, and_two_pow_ne_zero]
  split_ifs <;> first | rfl | (rw [← hx]; exact (set_self r hlen).symm)

theorem boardToString_fold (b : Board) :
    ∀ n, n ≤ 16 →
      (List.range n).foldl (boardToStringStep b) (List.replicate 16 'x') =
        (List.range n).map (squareChar b) ++ List.replicate (16 - n) 'x' := by
  intro n
  induction n with
  | zero => intro _; simp
  | succ n ih =>
    intro hn
    rw [List.range_succ, List.foldl_append, ih (by omega)]
    simp only [List.foldl_cons, List.foldl_nil, List.map_append, List.map_cons, List.map_nil]
    have hrep : List.replicate (16 - n) 'x' = 'x' :: List.replicate (16 - (n + 1)) 'x' := by
      have : 16 - n = (16 - (n + 1)) + 1 := by omega
      rw [this, List.replicate_succ]
    rw [hrep]
    have hlen : ((List.range n).map (squareChar b)).length = n := by simp
    rw [boardToStringStep_eq b _ (by omega) (by simp)]
    · rw [List.set_append_right _ _ (by simp)]
      simp
    · rw [List.getElem_append_right (by simp)]
      simp

theorem boardToString_data (b : Board) :
    (boardToString b).data = (List.range 16).map (squareChar b) := by
  unfold boardToString
  rw [boardToString_fold b 16 (le_refl _)]
  simp

theorem testBit_of_and_eq_zero {x y : Nat} (h : x &&& y = 0) (j : Nat) :
    (x.testBit j && y.testBit j) = false := by
  rw [← Nat.testBit_and, h]; simp

theorem and_eq_zero_of_testBit {x y : Nat} (h : ∀ j, (x.testBit j && y.testBit j) = false) :
    x &&& y = 0 := by
  apply Nat.eq_of_testBit_eq
  intro j
  rw [Nat.testBit_and, h]; simp

/-- At most one of the four sets of a disjoint board has a given bit. -/
theorem disjoint_bits {b : Board} (hd : b.disjoint) (j : Nat) :
    (b.white_pawns.testBit j && b.white_king.testBit j) = false ∧
    (b.white_pawns.testBit j && b.black_pawns.testBit j) = false ∧
    (b.white_pawns.testBit j && b.black_king.testBit j) = false ∧
    (b.white_king.testBit j && b.black_pawns.testBit j) = false ∧
    (b.white_king.testBit j && b.black_king.testBit j) = false ∧
    (b.black_pawns.testBit j && b.black_king.testBit j) = false := by
  obtain ⟨h1, h2, h3, h4, h5, h6⟩ := hd
  exact ⟨testBit_of_and_eq_zero h1 j, testBit_of_and_eq_zero h2 j, testBit_of_and_eq_zero h3 j,
    testBit_of_and_eq_zero h4 j, testBit_of_and_eq_zero h5 j, testBit_of_and_eq_zero h6 j⟩

theorem disjoint_of_bits {b : Board}
    (h : ∀ j, (b.white_pawns.testBit j && b.white_king.testBit j) = false ∧
    (b.white_pawns.testBit j && b.black_pawns.testBit j) = false ∧
    (b.white_pawns.testBit j && b.black_king.testBit j) = false ∧
    (b.white_king.testBit j && b.black_pawns.testBit j) = false ∧
    (b.white_king.testBit j && b.black_king.testBit j) = false ∧
    (b.black_pawns.testBit j && b.black_king.testBit j) = false) : b.disjoint :=
  ⟨and_eq_zero_of_testBit fun j => (h j).1, and_eq_zero_of_testBit fun j => (h j).2.1,
    and_eq_zero_of_testBit fun j => (h j).2.2.1, and_eq_zero_of_testBit fun j => (h j).2.2.2.1,
    and_eq_zero_of_testBit fun j => (h j).2.2.2.2.1, and_eq_zero_of_testBit fun j => (h j).2.2.2.2.2⟩

theorem validChar_cases {c : Char} (h : validChar c = true) :
    c = 'w' ∨ c = 'W' ∨ c = 'b' ∨ c = 'B' ∨ c = 'x' := by
  simpa [validChar, or_assoc] using h

/-- C1. Round trip of the codec on strings: for every string `s` of exactly 16 characters,
each one of `w`, `W`, `b`, `B`, `x`, `boardToString (stringToBoard s) = s`. -/
theorem boardToString_stringToBoard (s : String) (hlen : s.length = 16)
    (hchars : ∀ c ∈ s.data, validChar c = true) :
    boardToString (stringToBoard s) = s := by
  have hdata : (boardToString (stringToBoard s)).data = s.data := by
    rw [boardToString_data]
    have hl : s.data.length = 16 := hlen
    apply List.ext_getElem
    · simp [hl]
    · intro i h1 h2
      have hi : i < 16 := by simpa using h1
      have hget : s.data[i]? = some s.data[i] := List.getElem?_eq_getElem h2
      have hwp := stringToBoard_testBit s .wp i
      have hwk := stringToBoard_testBit s .wk i
      have hbp := stringToBoard_testBit s .bp i
      have hbk := stringToBoard_testBit s .bk i
      simp only [Board.field, PieceSet.char, hget, hi, decide_True, Bool.true_and,
        Option.some.injEq] at hwp hwk hbp hbk
      simp only [List.getElem_map, List.getElem_range, squareChar, hwp, hwk, hbp, hbk]
      rcases validChar_cases (hchars _ (List.getElem_mem h2)) with h | h | h | h | h <;>
        rw [h] <;> rfl
  exact String.ext hdata

/-- Instance of C1 on the opening position of the specification. -/
theorem boardToString_stringToBoard_witness :
    "wwwwwwwwbbbbbbbx".length = 16 ∧
      boardToString (stringToBoard "wwwwwwwwbbbbbbbx") = "wwwwwwwwbbbbbbbx" :=
  ⟨by decide, boardToString_stringToBoard "wwwwwwwwbbbbbbbx" (by decide) (by decide)⟩

theorem field_lt {b : Board} (hw : b.wf) (k : PieceSet) : b.field k < 65536 := by
  obtain ⟨h1, h2, h3, h4⟩ := hw
  cases k <;> assumption

theorem squareChar_eq_char {b : Board} (hd : b.disjoint) (k : PieceSet) (j : Nat) :
    decide (squareChar b j = k.char) = (b.field k).testBit j := by
  obtain ⟨h1, h2, h3, h4, h5, h6⟩ := disjoint_bits hd j
  unfold squareChar
  cases k <;> simp only [Board.field, PieceSet.char] <;>
    cases hwp : b.white_pawns.testBit j <;> cases hwk : b.white_king.testBit j <;>
    cases hbp : b.black_pawns.testBit j <;> cases hbk : b.black_king.testBit j <;>
    simp_all

/-- C2. Round trip of the codec on boards: for every board whose four 16-bit sets are
pairwise disjoint, `stringToBoard (boardToString b) = b`, that is, the four fields are
recovered. -/
theorem stringToBoard_boardToString (b : Board) (hw : b.wf) (hd : b.disjoint) :
    stringToBoard (boardToString b) = b := by
  apply Board.ext_field
  intro k
  apply Nat.eq_of_testBit_eq
  intro j
  rw [stringToBoard_testBit, boardToString_data]
  by_cases hj : j < 16
  · have : ((List.range 16).map (squareChar b))[j]? = some (squareChar b j) := by
      rw [List.getElem?_eq_getElem (by simpa using hj)]
      simp
    rw [this]
    simp only [hj, decide_True, Bool.true_and, Option.some.injEq]
    exact squareChar_eq_char hd k j
  · rw [testBit_high (field_lt hw k) (by omega)]
    simp [hj]

/-! ## The evaluator -/

/-- Instance of C2 on a board with pieces of all four kinds. -/
theorem stringToBoard_boardToString_witness :
    (⟨9, 2, 4, 32768⟩ : Board).wf ∧ (⟨9, 2, 4, 32768⟩ : Board).disjoint ∧
      stringToBoard (boardToString ⟨9, 2, 4, 32768⟩) = ⟨9, 2, 4, 32768⟩ :=
  ⟨by decide, by decide, stringToBoard_boardToString ⟨9, 2, 4, 32768⟩ (by decide) (by decide)⟩

theorem findKing_eq {x : Nat} (hx : x < 65536) (h0 : x ≠ 0) :
    ∃ k, k < 16 ∧ IsLowestSq x k ∧ findKing x = (k : Int) := by
  obtain ⟨k, hk, hlow⟩ := exists_lowestSq hx h0
  exact ⟨k, hk, hlow, findLowestSetBit_eq hk hlow⟩

/-- C3, as the code has it: on a board on which exactly one of the two king sets is empty,
`estimatePosition` returns 100 when the white-king set is the empty one and -100 when the
black-king set is the empty one (`isWhiteWin` is "W is not on the board"); in particular
the score of `Wxxxxxxxxxxxxxxb` is -100. -/
theorem estimatePosition_terminal (self : Jumpy3) (b : Board) :
    (b.white_king = 0 → b.black_king ≠ 0 → (estimatePosition self b).1 = 100) ∧
    (b.black_king = 0 → b.white_king ≠ 0 → (estimatePosition self b).1 = -100) ∧
    (estimatePosition self (stringToBoard "Wxxxxxxxxxxxxxxb")).1 = -100 := by
  refine ⟨?_, ?_, ?_⟩
  · intro h1 _
    simp [estimatePosition, isWhiteWin, h1]
  · intro h1 h2
    simp [estimatePosition, isWhiteWin, isBlackWin, h1, h2]
  · have hk : (stringToBoard "Wxxxxxxxxxxxxxxb").white_king = 1 := by decide
    have hb : (stringToBoard "Wxxxxxxxxxxxxxxb").black_king = 0 := by decide
    simp [estimatePosition, isWhiteWin, isBlackWin, hk, hb]

/-- Instances of the amended C3: a lone black king scores 100, a lone white king -100. -/
theorem estimatePosition_terminal_witness :
    (estimatePosition ⟨0, false, 15, 0⟩ ⟨0, 0, 0, 32768⟩).1 = 100 ∧
      (estimatePosition ⟨0, false, 15, 0⟩ ⟨0, 1, 0, 0⟩).1 = -100 :=
  ⟨(estimatePosition_terminal ⟨0, false, 15, 0⟩ ⟨0, 0, 0, 32768⟩).1 rfl (by decide),
    (estimatePosition_terminal ⟨0, false, 15, 0⟩ ⟨0, 1, 0, 0⟩).2.1 rfl (by decide)⟩

/-- C3 as stated fails: on `Wxxxxxxxxxxxxxxb` the black-king set is empty and the white-king
set is not, and `estimatePosition` returns -100, not 100. -/
theorem estimatePosition_terminal_counterexample :
    (stringToBoard "Wxxxxxxxxxxxxxxb").black_king = 0 ∧
    (stringToBoard "Wxxxxxxxxxxxxxxb").white_king ≠ 0 ∧
    (estimatePosition ⟨0, false, 15, 0⟩ (stringToBoard "Wxxxxxxxxxxxxxxb")).1 = -100 ∧
    (estimatePosition ⟨0, false, 15, 0⟩ (stringToBoard "Wxxxxxxxxxxxxxxb")).1 ≠ 100 := by
  decide

/-- C4. On a board with both king sets non-empty `estimatePosition` returns the index of
the lowest set bit of `white_king` plus the index of the lowest set bit of `black_king`
minus 15; on a disjoint board this value lies between -14 and 14. -/
theorem estimatePosition_heuristic (self : Jumpy3) (b : Board) (hw : b.wf)
    (h1 : b.white_king ≠ 0) (h2 : b.black_king ≠ 0) :
    (∃ i j : Nat, i < 16 ∧ j < 16 ∧ IsLowestSq b.white_king i ∧ IsLowestSq b.black_king j ∧
      (estimatePosition self b).1 = (i : Int) + (j : Int) - 15) ∧
    (b.disjoint → -14 ≤ (estimatePosition self b).1 ∧ (estimatePosition self b).1 ≤ 14) := by
  obtain ⟨i, hi, hli, hfi⟩ := findKing_eq hw.2.1 h1
  obtain ⟨j, hj, hlj, hfj⟩ := findKing_eq hw.2.2.2 h2
  have hval : (estimatePosition self b).1 = (i : Int) + (j : Int) - 15 := by
    simp [estimatePosition, isWhiteWin, isBlackWin, h1, h2, hfi, hfj]
  refine ⟨⟨i, j, hi, hj, hli, hlj, hval⟩, ?_⟩
  intro hd
  have hne : i ≠ j := by
    intro e
    subst e
    have := (disjoint_bits hd i).2.2.2.2.1
    rw [hli.1, hlj.1] at this
    cases this
  rw [hval]
  omega

/-! ## The scans of `processWhitePieceMoves` -/

/-- Instance of C4: with the white king on square 3 and the black king on square 15 the
score is `3 + 15 - 15`, within the bounds. -/
theorem estimatePosition_heuristic_witness :
    (⟨1, 8, 0, 32768⟩ : Board).wf ∧ (⟨1, 8, 0, 32768⟩ : Board).white_king ≠ 0 ∧
    (⟨1, 8, 0, 32768⟩ : Board).black_king ≠ 0 ∧
    (∃ i j : Nat, i < 16 ∧ j < 16 ∧ IsLowestSq 8 i ∧ IsLowestSq 32768 j ∧
      (estimatePosition ⟨0, false, 15, 0⟩ ⟨1, 8, 0, 32768⟩).1 = (i : Int) + (j : Int) - 15) ∧
    (-14 ≤ (estimatePosition ⟨0, false, 15, 0⟩ ⟨1, 8, 0, 32768⟩).1 ∧
      (estimatePosition ⟨0, false, 15, 0⟩ ⟨1, 8, 0, 32768⟩).1 ≤ 14) :=
  ⟨by decide, by decide, by decide,
    (estimatePosition_heuristic ⟨0, false, 15, 0⟩ ⟨1, 8, 0, 32768⟩ (by decide) (by decide)
      (by decide)).1,
    (estimatePosition_heuristic ⟨0, false, 15, 0⟩ ⟨1, 8, 0, 32768⟩ (by decide) (by decide)
      (by decide)).2 (by decide)⟩

theorem findEmptyPosLoop_spec (b : Board) :
    ∀ fuel start, 16 ≤ fuel + start → start ≤ 16 →
      start ≤ findEmptyPosLoop b fuel start ∧ findEmptyPosLoop b fuel start ≤ 16 ∧
      (∀ j, start ≤ j → j < findEmptyPosLoop b fuel start → isEmpty b j = false) ∧
      (findEmptyPosLoop b fuel start < 16 → isEmpty b (findEmptyPosLoop b fuel start) = true) := by
  intro fuel
  induction fuel with
  | zero =>
    intro start h1 h2
    have : start = 16 := by omega
    subst this
    simp only [findEmptyPosLoop]
    exact ⟨le_refl _, le_refl _, fun j h3 h4 => by omega, fun h => by omega⟩
  | succ n ih =>
    intro start h1 h2
    rw [findEmptyPosLoop]
    by_cases hc : (decide (start < 16) && !isEmpty b start) = true
    · rw [if_pos hc]
      simp only [Bool.and_eq_true, decide_eq_true_eq, Bool.not_eq_true'] at hc
      obtain ⟨g1, g2, g3, g4⟩ := ih (start + 1) (by omega) (by omega)
      refine ⟨by omega, g2, ?_, g4⟩
      intro j hj1 hj2
      by_cases hj : j = start
      · rw [hj]; exact hc.2
      · exact g3 j (by omega) hj2
    · rw [if_neg hc]
      simp only [Bool.and_eq_true, decide_eq_true_eq, Bool.not_eq_true', not_and,
        Bool.not_eq_false] at hc
      refine ⟨le_refl _, h2, ?_, ?_⟩
      · intro j hj1 hj2; omega
      · intro h; exact hc h

/-- The forward scan returns the least empty square above `p`, when there is one. -/
theorem findEmptyPosLoop_eq (b : Board) {p e : Nat} (hpe : p < e) (he : e < 16)
    (hempty : isEmpty b e = true) (hocc : ∀ j, p < j → j < e → isEmpty b j = false) :
    findEmptyPosLoop b 16 (p + 1) = e := by
  obtain ⟨g1, g2, g3, g4⟩ := findEmptyPosLoop_spec b 16 (p + 1) (by omega) (by omega)
  rcases Nat.lt_trichotomy (findEmptyPosLoop b 16 (p + 1)) e with h | h | h
  · have h1 := g4 (by omega)
    have h2 := hocc _ (by omega) h
    rw [h1] at h2; cases h2
  · exact h
  · have h1 := g3 e (by omega) h
    rw [hempty] at h1; cases h1

/-- The forward scan runs off the board when no square above `p` is empty. -/
theorem findEmptyPosLoop_none (b : Board) {p : Nat} (hp : p < 16)
    (hocc : ∀ j, p < j → j < 16 → isEmpty b j = false) :
    findEmptyPosLoop b 16 (p + 1) = 16 := by
  obtain ⟨g1, g2, g3, g4⟩ := findEmptyPosLoop_spec b 16 (p + 1) (by omega) (by omega)
  by_contra hne
  have hlt : findEmptyPosLoop b 16 (p + 1) < 16 := by omega
  have h1 := g4 hlt
  have h2 := hocc _ (by omega) hlt
  rw [h1] at h2; cases h2

theorem rightmostEmptyLoop_spec (b : Board) :
    ∀ k, (rightmostEmptyLoop b k = -1 ∧ ∀ j, j ≤ k → isEmpty b j = false) ∨
      ∃ r : Nat, r ≤ k ∧ rightmostEmptyLoop b k = (r : Int) ∧ isEmpty b r = true ∧
        ∀ j, r < j → j ≤ k → isEmpty b j = false := by
  intro k
  induction k with
  | zero =>
    rw [rightmostEmptyLoop]
    cases h : isEmpty b 0
    · left
      refine ⟨by simp, ?_⟩
      intro j hj
      have : j = 0 := by omega
      rw [this]; exact h
    · right
      exact ⟨0, le_refl _, by simp, h, fun j h1 h2 => by omega⟩
  | succ n ih =>
    rw [rightmostEmptyLoop]
    cases h : isEmpty b (n + 1)
    · simp only [Bool.not_false, if_true]
      rcases ih with ⟨h1, h2⟩ | ⟨r, h1, h2, h3, h4⟩
      · left
        refine ⟨h1, ?_⟩
        intro j hj
        by_cases e : j = n + 1
        · rw [e]; exact h
        · exact h2 j (by omega)
      · right
        refine ⟨r, by omega, h2, h3, ?_⟩
        intro j hj1 hj2
        by_cases e : j = n + 1
        · rw [e]; exact h
        · exact h4 j hj1 (by omega)
    · right
      exact ⟨n + 1, le_refl _, by simp, h, fun j h1 h2 => by omega⟩

/-! ## The board pushed for one piece -/

theorem processWhitePieceMoves_eq (b : Board) (p : Nat) (k : Bool) (moves : List Board) :
    processWhitePieceMoves b p k moves = moves ++ [pushedBoard b p k] := by
  unfold pushedBoard processWhitePieceMoves
  cases k <;> simp only [Bool.false_eq_true, if_false, if_true] <;> split_ifs <;> rfl

theorem and_two_pow_bne_zero (x i : Nat) : (x &&& 2 ^ i != 0) = x.testBit i := by
  rw [bne, and_two_pow_beq_zero]; simp

theorem pushedBoard_exit (b : Board) {p : Nat} (hp : p < 16) (k : Bool)
    (hocc : ∀ j, p < j → j < 16 → isEmpty b j = false) :
    pushedBoard b p k = removeWhite b p k := by
  unfold pushedBoard processWhitePieceMoves removeWhite
  simp only [bit16_eq hp]
  by_cases h15 : p = 15
  · simp [h15]
  · have h1 : isEmpty b (p + 1) = false := hocc _ (by omega) (by omega)
    have h2 := findEmptyPosLoop_none b hp hocc
    simp [h15, h1, h2]

theorem pushedBoard_move (b : Board) {p e : Nat} (hpe : p < e) (he : e < 16) (k : Bool)
    (hempty : isEmpty b e = true) (hocc : ∀ j, p < j → j < e → isEmpty b j = false)
    (hnocap : ¬ (e = p + 2 ∧
      (b.black_pawns.testBit (p + 1) = true ∨ b.black_king.testBit (p + 1) = true))) :
    pushedBoard b p k = placeWhite (removeWhite b p k) e k := by
  have hp : p < 16 := by omega
  have h15 : ¬ p = 15 := by omega
  unfold pushedBoard processWhitePieceMoves removeWhite placeWhite
  simp only [bit16_eq hp, h15, if_false]
  by_cases he1 : e = p + 1
  · subst he1
    simp only [hempty, if_true, bit16_eq he]
    cases k <;> simp
  · have h1 : isEmpty b (p + 1) = false := hocc _ (by omega) (by omega)
    have h2 := findEmptyPosLoop_eq b hpe he hempty hocc
    have h3 : ¬ e ≥ 16 := by omega
    simp only [h1, h2, h3, if_false, bit16_eq he, bit16_eq (show p + 1 < 16 by omega),
      and_two_pow_bne_zero]
    by_cases he2 : e = p + 2
    · have hb : (b.black_pawns.testBit (p + 1) || b.black_king.testBit (p + 1)) = false := by
        cases h4 : b.black_pawns.testBit (p + 1) <;> cases h5 : b.black_king.testBit (p + 1) <;>
          simp_all
      simp only [hb]
      cases k <;> simp
    · have : ¬ ((e : Int) - (p : Int) = 2) := by omega
      simp only [this, if_false]
      cases k <;> simp

theorem pushedBoard_capture (b : Board) {p : Nat} (hp : p + 2 < 16) (k bk : Bool)
    (hmid : (b.blackSet bk).testBit (p + 1) = true)
    (hother : (b.blackSet (!bk)).testBit (p + 1) = false)
    (hempty : isEmpty b (p + 2) = true) {r : Nat}
    (hr : rightmostEmptyLoop (placeWhite (removeWhite b p k) (p + 2) k) 15 = (r : Int))
    (hr16 : r < 16) :
    pushedBoard b p k =
      relocateBlack (placeWhite (removeWhite b p k) (p + 2) k) (p + 1) r bk := by
  have hp16 : p < 16 := by omega
  have h15 : ¬ p = 15 := by omega
  have hocc1 : isEmpty b (p + 1) = false := by
    rw [isEmpty_eq b (by omega)]
    unfold occupied
    cases bk <;> simp only [Board.blackSet] at hmid <;> simp_all
  have h2 : findEmptyPosLoop b 16 (p + 1) = p + 2 :=
    findEmptyPosLoop_eq b (by omega) hp hempty (fun j h1 h2 => by
      have : j = p + 1 := by omega
      rw [this]; exact hocc1)
  unfold pushedBoard processWhitePieceMoves
  simp only [bit16_eq hp16, h15, if_false, hocc1, h2, bit16_eq hp,
    bit16_eq (show p + 1 < 16 by omega), and_two_pow_bne_zero]
  have h3 : ¬ p + 2 ≥ 16 := by omega
  have h4 : ((p + 2 : Nat) : Int) - (p : Int) = 2 := by omega
  simp only [h3, h4, if_false, if_true]
  unfold removeWhite placeWhite at hr
  unfold removeWhite placeWhite relocateBlack
  cases k <;> cases bk <;>
    simp only [Board.blackSet, Bool.not_true, Bool.not_false, Bool.false_eq_true, if_false,
      if_true] at hmid hother hr ⊢ <;>
    simp [hr, hmid, hother, bit16_eq hr16]

theorem occupied_removeWhite {b : Board} (hw : b.wf) (hd : b.disjoint) {p : Nat} (hp : p < 16)
    (k : Bool) (hpiece : (b.whiteSet k).testBit p = true) (j : Nat) :
    occupied (removeWhite b p k) j = (occupied b j && !decide (j = p)) := by
  obtain ⟨d1, d2, d3, d4, d5, d6⟩ := disjoint_bits hd p
  obtain ⟨w1, w2, w3, w4⟩ := hw
  by_cases hj : j = p
  · subst hj
    cases k <;> simp only [Board.whiteSet, Bool.false_eq_true, if_false, if_true] at hpiece <;>
      simp only [occupied, removeWhite, Bool.false_eq_true, if_false, if_true,
        testBit_clearSq w1 hp, testBit_clearSq w2 hp] <;>
      simp_all
  · cases k <;>
      simp only [occupied, removeWhite, Bool.false_eq_true, if_false, if_true,
        testBit_clearSq w1 hp, testBit_clearSq w2 hp] <;>
      simp [hj]

theorem occupied_placeWhite (b : Board) (e : Nat) (k : Bool) (j : Nat) :
    occupied (placeWhite b e k) j = (occupied b j || decide (j = e)) := by
  cases k <;>
    simp only [occupied, placeWhite, Bool.false_eq_true, if_false, if_true, testBit_setSq] <;>
    cases b.white_pawns.testBit j <;> cases b.white_king.testBit j <;>
    cases b.black_pawns.testBit j <;> cases b.black_king.testBit j <;> simp

/-- Emptiness on the board after the jump, in terms of the input board. -/
theorem isEmpty_afterJump {b : Board} (hw : b.wf) (hd : b.disjoint) {p : Nat} (hp : p < 16)
    (k : Bool) (hpiece : (b.whiteSet k).testBit p = true) {j : Nat} (hj : j < 16) :
    isEmpty (placeWhite (removeWhite b p k) (p + 2) k) j = emptyAfterJump b p j := by
  rw [isEmpty_eq _ hj, occupied_placeWhite, occupied_removeWhite hw hd hp k hpiece]
  unfold emptyAfterJump
  by_cases h1 : j = p
  · have : ¬ j = p + 2 := by omega
    simp [h1]
  · by_cases h2 : j = p + 2 <;> simp [h1, h2]

/-- After a jump from `p` the backward scan from 15 finds the highest empty square. -/
theorem rightmostEmpty_afterJump {b : Board} (hw : b.wf) (hd : b.disjoint) {p : Nat}
    (hp : p < 16) (k : Bool) (hpiece : (b.whiteSet k).testBit p = true) :
    ∃ r : Nat, r < 16 ∧
      rightmostEmptyLoop (placeWhite (removeWhite b p k) (p + 2) k) 15 = (r : Int) ∧
      emptyAfterJump b p r = true ∧ ∀ j, r < j → j < 16 → emptyAfterJump b p j = false := by
  rcases rightmostEmptyLoop_spec (placeWhite (removeWhite b p k) (p + 2) k) 15 with
    ⟨_, h2⟩ | ⟨r, h1, h2, h3, h4⟩
  · have h := h2 p (by omega)
    rw [isEmpty_afterJump hw hd hp k hpiece hp] at h
    simp [emptyAfterJump] at h
  · refine ⟨r, by omega, h2, ?_, ?_⟩
    · rw [← isEmpty_afterJump hw hd hp k hpiece (by omega)]; exact h3
    · intro j hj1 hj2
      rw [← isEmpty_afterJump hw hd hp k hpiece hj2]
      exact h4 j hj1 (by omega)

theorem blackSet_other {b : Board} (hd : b.disjoint) {bk : Bool} {m : Nat}
    (h : (b.blackSet bk).testBit m = true) : (b.blackSet (!bk)).testBit m = false := by
  have := (disjoint_bits hd m).2.2.2.2.2
  cases bk <;> simp only [Board.blackSet, Bool.false_eq_true, if_false, if_true, Bool.not_true,
    Bool.not_false] at h ⊢ <;> simp_all

/-- The three shapes of the board pushed for a White piece standing on `p`: the piece
leaves the board, it moves to the least empty square above `p`, or it jumps over a Black
piece that is then put on the highest square left empty. -/
theorem pushedBoard_cases {b : Board} (hw : b.wf) (hd : b.disjoint) {p : Nat} (hp : p < 16)
    (k : Bool) (hpiece : (b.whiteSet k).testBit p = true) :
    ((∀ j, p < j → j < 16 → isEmpty b j = false) ∧ pushedBoard b p k = removeWhite b p k) ∨
    (∃ e, p < e ∧ e < 16 ∧ isEmpty b e = true ∧ (∀ j, p < j → j < e → isEmpty b j = false) ∧
      ¬ (e = p + 2 ∧
        (b.black_pawns.testBit (p + 1) = true ∨ b.black_king.testBit (p + 1) = true)) ∧
      pushedBoard b p k = placeWhite (removeWhite b p k) e k) ∨
    (∃ bk r, p + 2 < 16 ∧ (b.blackSet bk).testBit (p + 1) = true ∧ isEmpty b (p + 2) = true ∧
      r < 16 ∧ emptyAfterJump b p r = true ∧
      (∀ j, r < j → j < 16 → emptyAfterJump b p j = false) ∧
      pushedBoard b p k = relocateBlack (placeWhite (removeWhite b p k) (p + 2) k) (p + 1) r bk) := by
  obtain ⟨g1, g2, g3, g4⟩ := findEmptyPosLoop_spec b 16 (p + 1) (by omega) (by omega)
  generalize findEmptyPosLoop b 16 (p + 1) = e at g1 g2 g3 g4
  by_cases he : e < 16
  · have hocc : ∀ j, p < j → j < e → isEmpty b j = false := fun j h1 h2 => g3 j (by omega) h2
    by_cases hcap : e = p + 2 ∧
        (b.black_pawns.testBit (p + 1) = true ∨ b.black_king.testBit (p + 1) = true)
    · right; right
      obtain ⟨he2, hblack⟩ := hcap
      subst he2
      obtain ⟨r, hr16, hr, hr1, hr2⟩ := rightmostEmpty_afterJump hw hd hp k hpiece
      have hbk : ∃ bk, (b.blackSet bk).testBit (p + 1) = true := by
        rcases hblack with h | h
        · exact ⟨false, by simpa [Board.blackSet] using h⟩
        · exact ⟨true, by simpa [Board.blackSet] using h⟩
      obtain ⟨bk, hbk⟩ := hbk
      exact ⟨bk, r, he, hbk, g4 he, hr16, hr1, hr2,
        pushedBoard_capture b he k bk hbk (blackSet_other hd hbk) (g4 he) hr hr16⟩
    · right; left
      exact ⟨e, by omega, he, g4 he, hocc, hcap, pushedBoard_move b (by omega) he k (g4 he) hocc hcap⟩
  · left
    have hocc : ∀ j, p < j → j < 16 → isEmpty b j = false := fun j h1 h2 => g3 j (by omega) (by omega)
    exact ⟨hocc, pushedBoard_exit b hp k hocc⟩

theorem isEmpty_bits {b : Board} {e : Nat} (he : e < 16) (h : isEmpty b e = true) :
    b.white_pawns.testBit e = false ∧ b.white_king.testBit e = false ∧
    b.black_pawns.testBit e = false ∧ b.black_king.testBit e = false := by
  rw [isEmpty_eq b he] at h
  unfold occupied at h
  cases h1 : b.white_pawns.testBit e <;> cases h2 : b.white_king.testBit e <;>
    cases h3 : b.black_pawns.testBit e <;> cases h4 : b.black_king.testBit e <;> simp_all

theorem removeWhite_wf {b : Board} (hw : b.wf) (p : Nat) (k : Bool) : (removeWhite b p k).wf := by
  obtain ⟨w1, w2, w3, w4⟩ := hw
  cases k <;> simp only [removeWhite, Bool.false_eq_true, if_false, if_true]
  · exact ⟨clearSq_lt w1 _, w2, w3, w4⟩
  · exact ⟨w1, clearSq_lt w2 _, w3, w4⟩

theorem placeWhite_wf {b : Board} (hw : b.wf) {e : Nat} (he : e < 16) (k : Bool) :
    (placeWhite b e k).wf := by
  obtain ⟨w1, w2, w3, w4⟩ := hw
  cases k <;> simp only [placeWhite, Bool.false_eq_true, if_false, if_true]
  · exact ⟨setSq_lt w1 he, w2, w3, w4⟩
  · exact ⟨w1, setSq_lt w2 he, w3, w4⟩

theorem relocateBlack_wf {b : Board} (hw : b.wf) (m : Nat) {r : Nat} (hr : r < 16) (k : Bool) :
    (relocateBlack b m r k).wf := by
  obtain ⟨w1, w2, w3, w4⟩ := hw
  cases k <;> simp only [relocateBlack, Bool.false_eq_true, if_false, if_true]
  · exact ⟨w1, w2, setSq_lt (clearSq_lt w3 _) hr, w4⟩
  · exact ⟨w1, w2, w3, setSq_lt (clearSq_lt w4 _) hr⟩

theorem removeWhite_disjoint {b : Board} (hw : b.wf) (hd : b.disjoint) {p : Nat} (hp : p < 16)
    (k : Bool) : (removeWhite b p k).disjoint := by
  obtain ⟨w1, w2, w3, w4⟩ := hw
  apply disjoint_of_bits
  intro j
  obtain ⟨d1, d2, d3, d4, d5, d6⟩ := disjoint_bits hd j
  cases k <;> simp only [removeWhite, Bool.false_eq_true, if_false, if_true,
    testBit_clearSq w1 hp, testBit_clearSq w2 hp] <;>
    cases h1 : b.white_pawns.testBit j <;> cases h2 : b.white_king.testBit j <;>
    cases h3 : b.black_pawns.testBit j <;> cases h4 : b.black_king.testBit j <;> simp_all

theorem placeWhite_disjoint {b : Board} (hd : b.disjoint) {e : Nat}
    (hocc : occupied b e = false) (k : Bool) : (placeWhite b e k).disjoint := by
  apply disjoint_of_bits
  intro j
  obtain ⟨d1, d2, d3, d4, d5, d6⟩ := disjoint_bits hd j
  unfold occupied at hocc
  by_cases hj : j = e
  · subst hj
    cases k <;> simp only [placeWhite, Bool.false_eq_true, if_false, if_true, testBit_setSq] <;>
      cases h1 : b.white_pawns.testBit j <;> cases h2 : b.white_king.testBit j <;>
      cases h3 : b.black_pawns.testBit j <;> cases h4 : b.black_king.testBit j <;> simp_all
  · cases k <;> simp only [placeWhite, Bool.false_eq_true, if_false, if_true, testBit_setSq] <;>
      simp [hj, d1, d2, d3, d4, d5, d6]

theorem relocateBlack_disjoint {b : Board} (hw : b.wf) (hd : b.disjoint) {m r : Nat}
    (hm : m < 16) (hocc : occupied b r = false) (k : Bool) : (relocateBlack b m r k).disjoint := by
  obtain ⟨w1, w2, w3, w4⟩ := hw
  apply disjoint_of_bits
  intro j
  obtain ⟨d1, d2, d3, d4, d5, d6⟩ := disjoint_bits hd j
  unfold occupied at hocc
  by_cases hj : j = r
  · subst hj
    cases k <;> simp only [relocateBlack, Bool.false_eq_true, if_false, if_true, testBit_setSq,
      testBit_clearSq w3 hm, testBit_clearSq w4 hm] <;>
      cases h1 : b.white_pawns.testBit j <;> cases h2 : b.white_king.testBit j <;>
      cases h3 : b.black_pawns.testBit j <;> cases h4 : b.black_king.testBit j <;> simp_all
  · cases k <;> simp only [relocateBlack, Bool.false_eq_true, if_false, if_true, testBit_setSq,
      testBit_clearSq w3 hm, testBit_clearSq w4 hm] <;>
      cases h1 : b.white_pawns.testBit j <;> cases h2 : b.white_king.testBit j <;>
      cases h3 : b.black_pawns.testBit j <;> cases h4 : b.black_king.testBit j <;> simp_all

/-- The board pushed for a White piece of a disjoint 16-bit board is a disjoint 16-bit
board. -/
theorem pushedBoard_wf_disjoint {b : Board} (hw : b.wf) (hd : b.disjoint) {p : Nat} (hp : p < 16)
    (k : Bool) (hpiece : (b.whiteSet k).testBit p = true) :
    (pushedBoard b p k).wf ∧ (pushedBoard b p k).disjoint := by
  have hrw := removeWhite_wf hw p k
  have hrd := removeWhite_disjoint hw hd hp k
  rcases pushedBoard_cases hw hd hp k hpiece with ⟨_, h⟩ | ⟨e, h1, h2, h3, _, _, h⟩ |
    ⟨bk, r, h1, h2, h3, h4, h5, _, h⟩
  · rw [h]; exact ⟨hrw, hrd⟩
  · rw [h]
    refine ⟨placeWhite_wf hrw h2 k, placeWhite_disjoint hrd ?_ k⟩
    rw [occupied_removeWhite hw hd hp k hpiece]
    rw [isEmpty_eq b h2] at h3
    simp at h3
    simp [h3]
  · rw [h]
    have hjw := placeWhite_wf hrw h1 k
    have hjd : (placeWhite (removeWhite b p k) (p + 2) k).disjoint := by
      apply placeWhite_disjoint hrd
      rw [occupied_removeWhite hw hd hp k hpiece]
      rw [isEmpty_eq b h1] at h3
      simp at h3
      simp [h3]
    refine ⟨relocateBlack_wf hjw _ h4 bk, relocateBlack_disjoint hjw hjd (by omega) ?_ bk⟩
    have := isEmpty_afterJump hw hd hp k hpiece h4
    rw [h5, isEmpty_eq _ h4] at this
    simpa using this

/-! ## The loop over the regular pieces -/

/-- The operation `x & (x - 1)` clears the lowest set bit of `x` and nothing else. -/
theorem testBit_clearLowest :
    ∀ (k x : Nat), IsLowestSq x k →
      ∀ j, (x &&& (x - 1)).testBit j = (x.testBit j && !decide (j = k)) := by
  intro k
  induction k with
  | zero =>
    intro x h j
    have hodd : x % 2 = 1 := by
      have := h.1
      rw [Nat.testBit_zero] at this
      simpa using this
    cases j with
    | zero =>
      rw [Nat.testBit_and, Nat.testBit_zero, Nat.testBit_zero]
      have : (x - 1) % 2 = 0 := by omega
      simp [this]
    | succ j =>
      rw [Nat.testBit_and, Nat.testBit_succ, Nat.testBit_succ]
      have : (x - 1) / 2 = x / 2 := by omega
      simp [this]
  | succ k ih =>
    intro x h j
    have heven : x % 2 = 0 := by
      have := h.2 0 (Nat.succ_pos k)
      rw [Nat.testBit_zero] at this
      simpa using this
    have hpos : x ≠ 0 := by
      intro e
      have := h.1
      rw [e] at this
      simp at this
    have hy : IsLowestSq (x / 2) k := by
      refine ⟨?_, ?_⟩
      · rw [← Nat.testBit_succ]; exact h.1
      · intro i hi
        rw [← Nat.testBit_succ]
        exact h.2 (i + 1) (by omega)
    cases j with
    | zero =>
      rw [Nat.testBit_and, Nat.testBit_zero]
      simp [heven]
    | succ j =>
      have h2 : (x - 1) / 2 = x / 2 - 1 := by omega
      have h3 := ih (x / 2) hy j
      rw [Nat.testBit_and] at h3
      rw [Nat.testBit_and, Nat.testBit_succ, Nat.testBit_succ, h2, h3]
      simp

theorem filter_range_lowest (q q2 : Nat → Bool) (k : Nat) (hlow : ∀ j, j < k → q j = false)
    (hqk : q k = true) (hq2 : ∀ j, q2 j = (q j && !decide (j = k))) :
    ∀ n, k < n → (List.range n).filter q = k :: (List.range n).filter q2 := by
  have hbelow : ∀ m, m ≤ k → (List.range m).filter q = [] ∧ (List.range m).filter q2 = [] := by
    intro m hm
    constructor
    · rw [List.filter_eq_nil_iff]
      intro a ha
      rw [List.mem_range] at ha
      simp [hlow a (by omega)]
    · rw [List.filter_eq_nil_iff]
      intro a ha
      rw [List.mem_range] at ha
      simp [hq2, hlow a (by omega)]
  intro n
  induction n with
  | zero => intro h; omega
  | succ n ih =>
    intro hn
    rw [List.range_succ, List.filter_append, List.filter_append]
    by_cases hkn : k = n
    · subst hkn
      obtain ⟨e1, e2⟩ := hbelow k (le_refl _)
      rw [e1, e2]
      simp [hqk, hq2]
    · rw [ih (by omega)]
      have : q2 n = q n := by
        rw [hq2]
        have : ¬ n = k := fun e => hkn e.symm
        simp [this]
      simp [List.filter_cons, this]

theorem squaresOf_lowest {x k : Nat} (hk : k < 16) (hlow : IsLowestSq x k) :
    squaresOf x = k :: squaresOf (x &&& (x - 1)) := by
  unfold squaresOf
  exact filter_range_lowest _ _ k hlow.2 hlow.1 (testBit_clearLowest k x hlow) 16 hk

theorem squaresOf_zero : squaresOf 0 = [] := by
  unfold squaresOf
  rw [List.filter_eq_nil_iff]
  intro a _
  simp

theorem popcount16_le (x : Nat) : popcount16 x ≤ 16 := by
  unfold popcount16 squaresOf
  calc ((List.range 16).filter fun i => x.testBit i).length ≤ (List.range 16).length :=
        List.length_filter_le _ _
    _ = 16 := List.length_range 16

/-- The loop over the regular pieces pushes one board per square of `pawns`, in ascending
order of the squares. -/
theorem whitePawnsLoop_eq (b : Board) :
    ∀ (fuel pawns : Nat) (moves : List Board), pawns < 65536 → popcount16 pawns ≤ fuel →
      whitePawnsLoop b fuel pawns moves =
        moves ++ (squaresOf pawns).map (fun i => pushedBoard b i false) := by
  intro fuel
  induction fuel with
  | zero =>
    intro pawns moves _ hc
    have : squaresOf pawns = [] := by
      unfold popcount16 at hc
      exact List.length_eq_zero.1 (by omega)
    simp [whitePawnsLoop, this]
  | succ n ih =>
    intro pawns moves hx hc
    rw [whitePawnsLoop]
    by_cases h0 : pawns = 0
    · subst h0
      simp [squaresOf_zero]
    · obtain ⟨k, hk, hlow⟩ := exists_lowestSq hx h0
      have hsq := squaresOf_lowest hk hlow
      have hmod : (pawns - 1) % 65536 = pawns - 1 := Nat.mod_eq_of_lt (by omega)
      have hc2 : popcount16 (pawns &&& (pawns - 1)) ≤ n := by
        unfold popcount16 at hc ⊢
        rw [hsq] at hc
        simpa using hc
      simp only [h0, ne_eq, not_false_eq_true, if_true, findLowestSetBit_eq hk hlow,
        Int.toNat_ofNat, hmod, processWhitePieceMoves_eq]
      rw [ih _ _ (clearSq_lt hx _) hc2, hsq]
      simp

/-! ## The flip -/

/-- The list returned by `generateWhiteMoves`: the board pushed for the king on the lowest
square of the king set, when that set is not empty, then one board per regular piece in
ascending order of the squares. -/
theorem generateWhiteMoves_eq {b : Board} (hw : b.wf) :
    generateWhiteMoves b =
      (if b.white_king ≠ 0 then [pushedBoard b (findKing b.white_king).toNat true] else []) ++
        (squaresOf b.white_pawns).map (fun i => pushedBoard b i false) := by
  unfold generateWhiteMoves
  simp only [processWhitePieceMoves_eq, List.nil_append]
  rw [whitePawnsLoop_eq b 16 _ _ hw.1 (popcount16_le _)]

theorem and_bit16_ne_zero (x i : Nat) :
    x &&& ((1 <<< i) % 65536) ≠ 0 ↔ (i < 16 ∧ x.testBit i = true) := by
  by_cases h : i < 16
  · rw [bit16_eq h, and_two_pow_ne_zero]; simp [h]
  · rw [bit16_ge (by omega)]; simp [h]

theorem flipBoardStep_field (b f : Board) (i : Nat) (k : PieceSet) :
    (flipBoardStep b f i).field k =
      if b.field k.mirror &&& ((1 <<< i) % 65536) ≠ 0 then
        f.field k ||| ((1 <<< (15 - i)) % 65536)
      else f.field k := by
  unfold flipBoardStep
  cases k <;> simp only [Board.field, PieceSet.mirror] <;> split_ifs <;> rfl

theorem flipBoard_fold_testBit (b : Board) (k : PieceSet) :
    ∀ (l : List Nat) (f : Board) (j : Nat),
      ((l.foldl (flipBoardStep b) f).field k).testBit j =
        ((f.field k).testBit j ||
          l.any (fun i => decide (i < 16) && (b.field k.mirror).testBit i && decide (15 - i = j))) := by
  intro l
  induction l with
  | nil => intro f j; simp
  | cons i l ih =>
    intro f j
    rw [List.foldl_cons, ih, flipBoardStep_field, List.any_cons]
    by_cases hc : b.field k.mirror &&& ((1 <<< i) % 65536) ≠ 0
    · rw [if_pos hc, testBit_or_bit16]
      obtain ⟨h1, h2⟩ := (and_bit16_ne_zero _ _).1 hc
      have h3 : 15 - i < 16 := by omega
      simp only [h1, h2, h3, decide_True, Bool.and_true, Bool.true_and]
      by_cases hj : j = 15 - i
      · have : 15 - i = j := hj.symm
        simp [hj]
      · have : ¬ 15 - i = j := fun e => hj e.symm
        simp [hj, this]
    · rw [if_neg hc]
      have : (decide (i < 16) && (b.field k.mirror).testBit i) = false := by
        rw [and_bit16_ne_zero] at hc
        cases h : (b.field k.mirror).testBit i <;> simp_all
      simp [this]

/-- Bit `j` of a set of the flipped board is bit `15 - j` of the set of the other colour. -/
theorem flipBoard_testBit (b : Board) (k : PieceSet) (j : Nat) :
    ((flipBoard b).field k).testBit j =
      (decide (j < 16) && (b.field k.mirror).testBit (15 - j)) := by
  unfold flipBoard
  rw [flipBoard_fold_testBit]
  have h0 : ((⟨0, 0, 0, 0⟩ : Board).field k).testBit j = false := by
    cases k <;> simp [Board.field]
  rw [h0, Bool.false_or]
  by_cases hj : j < 16
  · cases hb : (b.field k.mirror).testBit (15 - j)
    · simp only [hj, decide_True, Bool.and_false]
      rw [List.any_eq_false]
      intro i hi
      by_cases e : 15 - i = j
      · by_cases hi16 : i < 16
        · have : i = 15 - j := by omega
          rw [this, hb]; simp
        · simp [hi16]
      · simp [e]
    · simp only [hj, decide_True, Bool.and_true]
      rw [List.any_eq_true]
      refine ⟨15 - j, List.mem_range.2 (by omega), ?_⟩
      have h1 : 15 - j < 16 := by omega
      have h2 : 15 - (15 - j) = j := by omega
      simp [h1, h2, hb]
  · simp only [hj, decide_False, Bool.false_and]
    rw [List.any_eq_false]
    intro i hi
    have : ¬ 15 - i = j := by omega
    simp [this]

theorem flipBoard_wf (b : Board) : (flipBoard b).wf := by
  have h : ∀ k, (flipBoard b).field k < 65536 := by
    intro k
    have : (flipBoard b).field k < 2 ^ 16 := by
      apply Nat.lt_pow_two_of_testBit
      intro i hi
      rw [flipBoard_testBit]
      have : ¬ i < 16 := by omega
      simp [this]
    simpa using this
  exact ⟨h .wp, h .wk, h .bp, h .bk⟩

theorem flipBoard_disjoint {b : Board} (hd : b.disjoint) : (flipBoard b).disjoint := by
  apply disjoint_of_bits
  intro j
  obtain ⟨d1, d2, d3, d4, d5, d6⟩ := disjoint_bits hd (15 - j)
  have h1 := flipBoard_testBit b .wp j
  have h2 := flipBoard_testBit b .wk j
  have h3 := flipBoard_testBit b .bp j
  have h4 := flipBoard_testBit b .bk j
  simp only [Board.field, PieceSet.mirror] at h1 h2 h3 h4
  rw [h1, h2, h3, h4]
  cases decide (j < 16) <;>
    cases e1 : b.white_pawns.testBit (15 - j) <;> cases e2 : b.white_king.testBit (15 - j) <;>
    cases e3 : b.black_pawns.testBit (15 - j) <;> cases e4 : b.black_king.testBit (15 - j) <;>
    simp_all

/-! ## The lists returned by the two generators -/

theorem range16_mirror : (List.range 16) = ((List.range 16).reverse).map (fun i => 15 - i) := by
  decide

/-- The squares of a mirrored set are the mirrored squares, in reverse order. -/
theorem squaresOf_mirror {x y : Nat}
    (h : ∀ j, y.testBit j = (decide (j < 16) && x.testBit (15 - j))) :
    squaresOf y = ((squaresOf x).reverse).map (fun i => 15 - i) := by
  unfold squaresOf
  have h1 : (List.range 16).filter (fun j => y.testBit j) =
      (List.range 16).filter (fun j => x.testBit (15 - j)) := by
    apply List.filter_congr
    intro j hj
    rw [List.mem_range] at hj
    simp [h, hj]
  have h2 : (List.range 16).filter (fun i => x.testBit i) =
      (List.range 16).filter ((fun j => x.testBit (15 - j)) ∘ (fun i => 15 - i)) := by
    apply List.filter_congr
    intro j hj
    rw [List.mem_range] at hj
    have : 15 - (15 - j) = j := by omega
    simp [this]
  rw [h1, h2]
  conv_lhs => rw [range16_mirror]
  rw [List.filter_map, List.filter_reverse]

theorem kingPart_eq {α : Type} (f : Nat → α) {x : Nat} (hx : x < 65536) :
    (if x ≠ 0 then [f (findKing x).toNat] else []) = ((squaresOf x).take 1).map f := by
  by_cases h0 : x = 0
  · subst h0; simp [squaresOf_zero]
  · obtain ⟨k, hk, hlow⟩ := exists_lowestSq hx h0
    rw [squaresOf_lowest hk hlow]
    simp [h0, findKing, findLowestSetBit_eq hk hlow]

/-- The list of `generateWhiteMoves` in terms of the squares of the two White sets. -/
theorem generateWhiteMoves_squares {b : Board} (hw : b.wf) :
    generateWhiteMoves b =
      ((squaresOf b.white_king).take 1).map (fun i => pushedBoard b i true) ++
        (squaresOf b.white_pawns).map (fun i => pushedBoard b i false) := by
  rw [generateWhiteMoves_eq hw, kingPart_eq (fun i => pushedBoard b i true) hw.2.1]

/-- The list of `generateBlackMoves` in terms of the squares of the two Black sets of the
given board: the flip reverses the order of the squares. -/
theorem generateBlackMoves_squares (b : Board) :
    generateBlackMoves b =
      (((squaresOf b.black_king).reverse).take 1).map (fun i => blackMoveOf b i true) ++
        ((squaresOf b.black_pawns).reverse).map (fun i => blackMoveOf b i false) := by
  unfold generateBlackMoves
  simp only []
  rw [generateWhiteMoves_squares (flipBoard_wf b)]
  have hk : squaresOf (flipBoard b).white_king =
      ((squaresOf b.black_king).reverse).map (fun i => 15 - i) :=
    squaresOf_mirror (flipBoard_testBit b .wk)
  have hp : squaresOf (flipBoard b).white_pawns =
      ((squaresOf b.black_pawns).reverse).map (fun i => 15 - i) :=
    squaresOf_mirror (flipBoard_testBit b .wp)
  rw [hk, hp]
  simp only [List.map_append, List.map_map, List.map_take]
  rfl

/-- C5, as the code has it: the move generator returns one board for the king set when it is
not empty (one board, however many bits the set has) and one board per bit of the
regular-piece set, for White (`generateWhiteMoves`) and for Black (`generateBlackMoves`);
when the king set has at most one bit this is the number of set bits of the two sets. -/
theorem generateMoves_length (b : Board) (hw : b.wf) :
    ((generateWhiteMoves b).length = min (popcount16 b.white_king) 1 + popcount16 b.white_pawns ∧
      (generateBlackMoves b).length = min (popcount16 b.black_king) 1 + popcount16 b.black_pawns) ∧
    (popcount16 b.white_king ≤ 1 →
      (generateWhiteMoves b).length = popcount16 b.white_king + popcount16 b.white_pawns) ∧
    (popcount16 b.black_king ≤ 1 →
      (generateBlackMoves b).length = popcount16 b.black_king + popcount16 b.black_pawns) := by
  have h1 : (generateWhiteMoves b).length =
      min (popcount16 b.white_king) 1 + popcount16 b.white_pawns := by
    rw [generateWhiteMoves_squares hw]
    simp [popcount16, Nat.min_comm]
  have h2 : (generateBlackMoves b).length =
      min (popcount16 b.black_king) 1 + popcount16 b.black_pawns := by
    rw [generateBlackMoves_squares b]
    simp [popcount16, Nat.min_comm]
  refine ⟨⟨h1, h2⟩, ?_, ?_⟩
  · intro h; rw [h1]; omega
  · intro h; rw [h2]; omega

/-- Instance of the amended C5 on `WwxxxbxxxxxxxbxB`: two boards for each side. -/
theorem generateMoves_length_witness :
    (⟨2, 1, 8224, 32768⟩ : Board).wf ∧
    (generateWhiteMoves ⟨2, 1, 8224, 32768⟩).length = popcount16 1 + popcount16 2 ∧
    (generateBlackMoves ⟨2, 1, 8224, 32768⟩).length = popcount16 32768 + popcount16 8224 :=
  ⟨by decide,
    (generateMoves_length ⟨2, 1, 8224, 32768⟩ (by decide)).2.1 (by decide),
    (generateMoves_length ⟨2, 1, 8224, 32768⟩ (by decide)).2.2 (by decide)⟩

/-- C5 as stated fails: the disjoint board `WWxxxxxxxxxxxxxx` has two bits in the white-king
set and none in the regular set, and `generateWhiteMoves` returns one board. -/
theorem generateMoves_length_counterexample :
    stringToBoard "WWxxxxxxxxxxxxxx" = ⟨0, 3, 0, 0⟩ ∧
    (⟨0, 3, 0, 0⟩ : Board).wf ∧ (⟨0, 3, 0, 0⟩ : Board).disjoint ∧
    (generateWhiteMoves ⟨0, 3, 0, 0⟩).length = 1 ∧
    popcount16 (⟨0, 3, 0, 0⟩ : Board).white_king + popcount16 (⟨0, 3, 0, 0⟩ : Board).white_pawns = 2 := by
  decide

/-- C10, as the code has it: `generateWhiteMoves` lists the board of the king on the lowest
square of the king set first (when the set is not empty) and then the boards of the regular
pieces in ascending order of their squares; `generateBlackMoves` lists the board of the king
on the highest square of the king set first and then the boards of the regular pieces in
descending order of their squares on the given board (ascending on the flipped board). -/
theorem generateMoves_order (b : Board) (hw : b.wf) :
    generateWhiteMoves b =
      ((squaresOf b.white_king).take 1).map (fun i => pushedBoard b i true) ++
        (squaresOf b.white_pawns).map (fun i => pushedBoard b i false) ∧
    generateBlackMoves b =
      (((squaresOf b.black_king).reverse).take 1).map (fun i => blackMoveOf b i true) ++
        ((squaresOf b.black_pawns).reverse).map (fun i => blackMoveOf b i false) :=
  ⟨generateWhiteMoves_squares hw, generateBlackMoves_squares b⟩

/-- Instance of the amended C10 on `WwxxxbxxxxxxxbxB`. -/
theorem generateMoves_order_witness :
    (⟨2, 1, 8224, 32768⟩ : Board).wf ∧
    generateWhiteMoves ⟨2, 1, 8224, 32768⟩ =
      ((squaresOf 1).take 1).map (fun i => pushedBoard ⟨2, 1, 8224, 32768⟩ i true) ++
        (squaresOf 2).map (fun i => pushedBoard ⟨2, 1, 8224, 32768⟩ i false) ∧
    generateBlackMoves ⟨2, 1, 8224, 32768⟩ =
      (((squaresOf 32768).reverse).take 1).map (fun i => blackMoveOf ⟨2, 1, 8224, 32768⟩ i true) ++
        ((squaresOf 8224).reverse).map (fun i => blackMoveOf ⟨2, 1, 8224, 32768⟩ i false) :=
  ⟨by decide, generateMoves_order ⟨2, 1, 8224, 32768⟩ (by decide)⟩

/-! ## Disjointness of the generated boards -/

/-- C10 as stated fails for Black: on `xbxbxxxxxxxxxxxx` the first board returned by
`generateBlackMoves` is the move of the piece on square 3 and the second the move of the
piece on square 1, the reverse of the ascending order of the source squares. -/
theorem generateMoves_order_counterexample :
    stringToBoard "xbxbxxxxxxxxxxxx" = ⟨0, 0, 10, 0⟩ ∧
    (⟨0, 0, 10, 0⟩ : Board).disjoint ∧
    squaresOf (⟨0, 0, 10, 0⟩ : Board).black_pawns = [1, 3] ∧
    generateBlackMoves ⟨0, 0, 10, 0⟩ =
      [blackMoveOf ⟨0, 0, 10, 0⟩ 3 false, blackMoveOf ⟨0, 0, 10, 0⟩ 1 false] ∧
    generateBlackMoves ⟨0, 0, 10, 0⟩ ≠
      (squaresOf (⟨0, 0, 10, 0⟩ : Board).black_pawns).map
        (fun i => blackMoveOf ⟨0, 0, 10, 0⟩ i false) := by
  decide

theorem mem_squaresOf {x i : Nat} : i ∈ squaresOf x ↔ i < 16 ∧ x.testBit i = true := by
  unfold squaresOf
  simp [List.mem_filter]

theorem stringToBoard_disjoint (s : String) : (stringToBoard s).disjoint := by
  apply disjoint_of_bits
  intro j
  have h1 := stringToBoard_testBit s .wp j
  have h2 := stringToBoard_testBit s .wk j
  have h3 := stringToBoard_testBit s .bp j
  have h4 := stringToBoard_testBit s .bk j
  simp only [Board.field, PieceSet.char] at h1 h2 h3 h4
  rw [h1, h2, h3, h4]
  cases hj : s.data[j]? with
  | none => simp
  | some c =>
    by_cases c1 : c = 'w'
    · subst c1; simp
    · by_cases c2 : c = 'W'
      · subst c2; simp
      · by_cases c3 : c = 'b'
        · subst c3; simp
        · simp [c1, c2, c3]

theorem mem_generateWhiteMoves {b : Board} (hw : b.wf) {m : Board}
    (hm : m ∈ generateWhiteMoves b) :
    ∃ i k, i < 16 ∧ (b.whiteSet k).testBit i = true ∧ m = pushedBoard b i k := by
  rw [generateWhiteMoves_squares hw, List.mem_append, List.mem_map, List.mem_map] at hm
  rcases hm with ⟨i, hi, e⟩ | ⟨i, hi, e⟩
  · obtain ⟨h1, h2⟩ := mem_squaresOf.1 (List.mem_of_mem_take hi)
    exact ⟨i, true, h1, by simpa [Board.whiteSet] using h2, e.symm⟩
  · obtain ⟨h1, h2⟩ := mem_squaresOf.1 hi
    exact ⟨i, false, h1, by simpa [Board.whiteSet] using h2, e.symm⟩

theorem flipBoard_whiteSet_testBit (b : Board) (k : Bool) {i : Nat} (hi : i < 16) :
    ((flipBoard b).whiteSet k).testBit (15 - i) = (b.blackSet k).testBit i := by
  have h1 : 15 - i < 16 := by omega
  have h2 : 15 - (15 - i) = i := by omega
  cases k
  · have := flipBoard_testBit b .wp (15 - i)
    simpa [Board.field, PieceSet.mirror, Board.whiteSet, Board.blackSet, h1, h2] using this
  · have := flipBoard_testBit b .wk (15 - i)
    simpa [Board.field, PieceSet.mirror, Board.whiteSet, Board.blackSet, h1, h2] using this

theorem mem_generateBlackMoves {b : Board} {m : Board} (hm : m ∈ generateBlackMoves b) :
    ∃ i k, i < 16 ∧ (b.blackSet k).testBit i = true ∧ m = blackMoveOf b i k := by
  rw [generateBlackMoves_squares b, List.mem_append, List.mem_map, List.mem_map] at hm
  rcases hm with ⟨i, hi, e⟩ | ⟨i, hi, e⟩
  · obtain ⟨h1, h2⟩ := mem_squaresOf.1 (List.mem_reverse.1 (List.mem_of_mem_take hi))
    exact ⟨i, true, h1, by simpa [Board.blackSet] using h2, e.symm⟩
  · obtain ⟨h1, h2⟩ := mem_squaresOf.1 (List.mem_reverse.1 hi)
    exact ⟨i, false, h1, by simpa [Board.blackSet] using h2, e.symm⟩

/-- Every board returned by either generator on a disjoint 16-bit board is a disjoint
16-bit board. -/
theorem generated_wf_disjoint {b : Board} (hw : b.wf) (hd : b.disjoint) :
    (∀ m ∈ generateWhiteMoves b, m.wf ∧ m.disjoint) ∧
    (∀ m ∈ generateBlackMoves b, m.wf ∧ m.disjoint) := by
  constructor
  · intro m hm
    obtain ⟨i, k, hi, hpiece, rfl⟩ := mem_generateWhiteMoves hw hm
    exact pushedBoard_wf_disjoint hw hd hi k hpiece
  · intro m hm
    obtain ⟨i, k, hi, hpiece, rfl⟩ := mem_generateBlackMoves hm
    have hpiece2 : ((flipBoard b).whiteSet k).testBit (15 - i) = true := by
      rw [flipBoard_whiteSet_testBit b k hi]; exact hpiece
    have := pushedBoard_wf_disjoint (flipBoard_wf b) (flipBoard_disjoint hd)
      (show 15 - i < 16 by omega) k hpiece2
    exact ⟨flipBoard_wf _, flipBoard_disjoint this.2⟩

/-- C6. Pairwise disjointness of the four piece sets is an invariant: `stringToBoard` yields
a disjoint board for every string of at most 16 characters, and every board returned by
`generateWhiteMoves` or by `generateBlackMoves` on a disjoint board is disjoint (and keeps
its four fields within 16 bits). -/
theorem disjoint_invariant :
    (∀ s : String, s.length ≤ 16 → (stringToBoard s).disjoint) ∧
    (∀ b : Board, b.wf → b.disjoint →
      (∀ m ∈ generateWhiteMoves b, m.wf ∧ m.disjoint) ∧
      (∀ m ∈ generateBlackMoves b, m.wf ∧ m.disjoint)) := by
  exact ⟨fun s _ => stringToBoard_disjoint s, fun b hw hd => generated_wf_disjoint hw hd⟩

/-- Instance of C6: the board decoded from `WbxwBxxxxxxxxxxx` and the boards generated from
it for either side are disjoint. -/
theorem disjoint_invariant_witness :
    "WbxwBxxxxxxxxxxx".length ≤ 16 ∧ (stringToBoard "WbxwBxxxxxxxxxxx").disjoint ∧
    (⟨8, 1, 2, 16⟩ : Board).wf ∧ (⟨8, 1, 2, 16⟩ : Board).disjoint ∧
    (∀ m ∈ generateWhiteMoves ⟨8, 1, 2, 16⟩, m.wf ∧ m.disjoint) ∧
    (∀ m ∈ generateBlackMoves ⟨8, 1, 2, 16⟩, m.wf ∧ m.disjoint) :=
  ⟨by decide, disjoint_invariant.1 "WbxwBxxxxxxxxxxx" (by decide), by decide, by decide,
    (disjoint_invariant.2 ⟨8, 1, 2, 16⟩ (by decide) (by decide)).1,
    (disjoint_invariant.2 ⟨8, 1, 2, 16⟩ (by decide) (by decide)).2⟩

/-! ## Piece counts -/

theorem filter_length_flip (q q2 : Nat → Bool) (i : Nat) (hq : q i = false) (hq2 : q2 i = true)
    (hsame : ∀ j, j ≠ i → q2 j = q j) :
    ∀ n, i < n → ((List.range n).filter q2).length = ((List.range n).filter q).length + 1 := by
  intro n
  induction n with
  | zero => intro h; omega
  | succ n ih =>
    intro hn
    rw [List.range_succ, List.filter_append, List.filter_append, List.length_append,
      List.length_append]
    by_cases hin : i = n
    · subst hin
      have : (List.range i).filter q2 = (List.range i).filter q := by
        apply List.filter_congr
        intro j hj
        rw [List.mem_range] at hj
        exact hsame j (by omega)
      rw [this]
      simp [hq, hq2]
    · rw [ih (by omega)]
      have : q2 n = q n := hsame n (fun e => hin e.symm)
      simp [List.filter_cons, this]
      omega

theorem popcount16_setSq {x e : Nat} (he : e < 16) (h : x.testBit e = false) :
    popcount16 (x ||| 2 ^ e) = popcount16 x + 1 := by
  unfold popcount16 squaresOf
  apply filter_length_flip _ _ e h _ _ 16 he
  · simp only [testBit_setSq]; simp
  · intro j hj
    simp only [testBit_setSq]; simp [hj]

theorem popcount16_clearSq {x p : Nat} (hx : x < 65536) (hp : p < 16) (h : x.testBit p = true) :
    popcount16 (x &&& (65535 - 2 ^ p)) + 1 = popcount16 x := by
  unfold popcount16 squaresOf
  symm
  apply filter_length_flip _ _ p _ h _ 16 hp
  · simp only [testBit_clearSq hx hp]; simp
  · intro j hj
    simp only [testBit_clearSq hx hp]; simp [hj]

theorem pieceCount_removeWhite {b : Board} (hw : b.wf) {p : Nat} (hp : p < 16) (k : Bool)
    (hpiece : (b.whiteSet k).testBit p = true) :
    pieceCount (removeWhite b p k) + 1 = pieceCount b := by
  obtain ⟨w1, w2, w3, w4⟩ := hw
  cases k <;> simp only [Board.whiteSet, Bool.false_eq_true, if_false, if_true] at hpiece <;>
    simp only [pieceCount, removeWhite, Bool.false_eq_true, if_false, if_true]
  · have := popcount16_clearSq w1 hp hpiece
    omega
  · have := popcount16_clearSq w2 hp hpiece
    omega

theorem pieceCount_placeWhite (b : Board) {e : Nat} (he : e < 16) (k : Bool)
    (hfree : (b.whiteSet k).testBit e = false) :
    pieceCount (placeWhite b e k) = pieceCount b + 1 := by
  cases k <;> simp only [Board.whiteSet, Bool.false_eq_true, if_false, if_true] at hfree <;>
    simp only [pieceCount, placeWhite, Bool.false_eq_true, if_false, if_true]
  · have := popcount16_setSq he hfree
    omega
  · have := popcount16_setSq he hfree
    omega

theorem pieceCount_relocateBlack {b : Board} (hw : b.wf) {m r : Nat} (hm : m < 16) (hr : r < 16)
    (k : Bool) (hpiece : (b.blackSet k).testBit m = true)
    (hfree : (b.blackSet k).testBit r = false) :
    pieceCount (relocateBlack b m r k) = pieceCount b := by
  obtain ⟨w1, w2, w3, w4⟩ := hw
  cases k <;> simp only [Board.blackSet, Bool.false_eq_true, if_false, if_true] at hpiece hfree <;>
    simp only [pieceCount, relocateBlack, Bool.false_eq_true, if_false, if_true]
  · have h1 := popcount16_clearSq w3 hm hpiece
    have h2 : popcount16 (b.black_pawns &&& (65535 - 2 ^ m) ||| 2 ^ r) =
        popcount16 (b.black_pawns &&& (65535 - 2 ^ m)) + 1 :=
      popcount16_setSq hr (by rw [testBit_clearSq w3 hm, hfree]; rfl)
    omega
  · have h1 := popcount16_clearSq w4 hm hpiece
    have h2 : popcount16 (b.black_king &&& (65535 - 2 ^ m) ||| 2 ^ r) =
        popcount16 (b.black_king &&& (65535 - 2 ^ m)) + 1 :=
      popcount16_setSq hr (by rw [testBit_clearSq w4 hm, hfree]; rfl)
    omega

theorem whiteSet_removeWhite_free {b : Board} (hw : b.wf) {p e : Nat} (hp : p < 16) (k : Bool)
    (hfree : (b.whiteSet k).testBit e = false) :
    ((removeWhite b p k).whiteSet k).testBit e = false := by
  obtain ⟨w1, w2, w3, w4⟩ := hw
  cases k <;> simp only [Board.whiteSet, Bool.false_eq_true, if_false, if_true] at hfree <;>
    simp only [Board.whiteSet, removeWhite, Bool.false_eq_true, if_false, if_true,
      testBit_clearSq w1 hp, testBit_clearSq w2 hp, hfree] <;> rfl

theorem whiteSet_free_of_isEmpty {b : Board} {e : Nat} (he : e < 16) (h : isEmpty b e = true)
    (k : Bool) : (b.whiteSet k).testBit e = false := by
  obtain ⟨h1, h2, _, _⟩ := isEmpty_bits he h
  cases k <;> simp [Board.whiteSet, h1, h2]

theorem blackSet_jump (b : Board) (p e : Nat) (k bk : Bool) :
    (placeWhite (removeWhite b p k) e k).blackSet bk = b.blackSet bk := by
  cases k <;> cases bk <;> rfl

theorem blackSet_free_of_not_occupied {b : Board} {r : Nat} (h : occupied b r = false)
    (bk : Bool) : (b.blackSet bk).testBit r = false := by
  unfold occupied at h
  cases bk <;> simp only [Board.blackSet, Bool.false_eq_true, if_false, if_true] <;>
    cases h1 : b.white_pawns.testBit r <;> cases h2 : b.white_king.testBit r <;>
    cases h3 : b.black_pawns.testBit r <;> cases h4 : b.black_king.testBit r <;> simp_all

/-- Piece count of the board pushed for a White piece on `p`: one less than the input when
no square above `p` is empty, the same otherwise. -/
theorem pieceCount_pushedBoard {b : Board} (hw : b.wf) (hd : b.disjoint) {p : Nat} (hp : p < 16)
    (k : Bool) (hpiece : (b.whiteSet k).testBit p = true) :
    ((p = 15 ∨ ∀ j, p < j → j < 16 → isEmpty b j = false) →
      pieceCount (pushedBoard b p k) + 1 = pieceCount b) ∧
    (¬ (p = 15 ∨ ∀ j, p < j → j < 16 → isEmpty b j = false) →
      pieceCount (pushedBoard b p k) = pieceCount b) := by
  have hrem := pieceCount_removeWhite hw hp k hpiece
  have hrw := removeWhite_wf hw p k
  rcases pushedBoard_cases hw hd hp k hpiece with ⟨h0, h⟩ | ⟨e, h1, h2, h3, _, _, h⟩ |
    ⟨bk, r, h1, h2, h3, h4, h5, _, h⟩
  · constructor
    · intro _; rw [h]; exact hrem
    · intro hn; exact absurd (Or.inr h0) hn
  · have hcount : pieceCount (pushedBoard b p k) = pieceCount b := by
      rw [h, pieceCount_placeWhite _ h2 k
        (whiteSet_removeWhite_free hw hp k (whiteSet_free_of_isEmpty h2 h3 k))]
      omega
    constructor
    · intro hc
      rcases hc with hc | hc
      · omega
      · have := hc e h1 h2
        rw [h3] at this; cases this
    · intro _; exact hcount
  · have hjw := placeWhite_wf hrw h1 k
    have hfree : occupied (placeWhite (removeWhite b p k) (p + 2) k) r = false := by
      have := isEmpty_afterJump hw hd hp k hpiece h4
      rw [h5, isEmpty_eq _ h4] at this
      simpa using this
    have hcount : pieceCount (pushedBoard b p k) = pieceCount b := by
      rw [h, pieceCount_relocateBlack hjw (by omega) h4 bk
        (by rw [blackSet_jump]; exact h2) (blackSet_free_of_not_occupied hfree bk),
        pieceCount_placeWhite _ h1 k
        (whiteSet_removeWhite_free hw hp k (whiteSet_free_of_isEmpty h1 h3 k))]
      omega
    constructor
    · intro hc
      rcases hc with hc | hc
      · omega
      · have := hc (p + 2) (by omega) h1
        rw [h3] at this; cases this
    · intro _; exact hcount

theorem popcount16_mirror {x y : Nat}
    (h : ∀ j, y.testBit j = (decide (j < 16) && x.testBit (15 - j))) :
    popcount16 y = popcount16 x := by
  unfold popcount16
  rw [squaresOf_mirror h]
  simp

theorem pieceCount_flipBoard (b : Board) : pieceCount (flipBoard b) = pieceCount b := by
  have h1 := popcount16_mirror (flipBoard_testBit b .wp)
  have h2 := popcount16_mirror (flipBoard_testBit b .wk)
  have h3 := popcount16_mirror (flipBoard_testBit b .bp)
  have h4 := popcount16_mirror (flipBoard_testBit b .bk)
  simp only [Board.field, PieceSet.mirror] at h1 h2 h3 h4
  unfold pieceCount
  omega

theorem occupied_flipBoard (b : Board) {j : Nat} (hj : j < 16) :
    occupied (flipBoard b) j = occupied b (15 - j) := by
  have h1 := flipBoard_testBit b .wp j
  have h2 := flipBoard_testBit b .wk j
  have h3 := flipBoard_testBit b .bp j
  have h4 := flipBoard_testBit b .bk j
  simp only [Board.field, PieceSet.mirror, hj, decide_True, Bool.true_and] at h1 h2 h3 h4
  unfold occupied
  rw [h1, h2, h3, h4]
  cases b.white_pawns.testBit (15 - j) <;> cases b.white_king.testBit (15 - j) <;>
    cases b.black_pawns.testBit (15 - j) <;> cases b.black_king.testBit (15 - j) <;> rfl

theorem isEmpty_flipBoard (b : Board) {j : Nat} (hj : j < 16) :
    isEmpty (flipBoard b) j = isEmpty b (15 - j) := by
  rw [isEmpty_eq _ hj, isEmpty_eq _ (show 15 - j < 16 by omega), occupied_flipBoard b hj]

/-- C7. Piece conservation. For a disjoint board and a piece of the mover on source square
`p` (counted in the direction of travel of the mover: `processWhitePieceMoves` sees a White piece
on the board itself and a Black piece on the flipped board), the board generated for that
piece has one piece less than the input when `p = 15` or no square above `p` is empty, and
as many pieces as the input otherwise, captures included. For a Black piece on square `q`
of the given board this reads: one less when `q = 0` or no square below `q` is empty. -/
theorem piece_conservation (b : Board) (hw : b.wf) (hd : b.disjoint) (k : Bool) :
    (∀ p, p < 16 → (b.whiteSet k).testBit p = true →
      ((p = 15 ∨ ∀ j, p < j → j < 16 → isEmpty b j = false) →
        pieceCount (pushedBoard b p k) + 1 = pieceCount b) ∧
      (¬ (p = 15 ∨ ∀ j, p < j → j < 16 → isEmpty b j = false) →
        pieceCount (pushedBoard b p k) = pieceCount b)) ∧
    (∀ q, q < 16 → (b.blackSet k).testBit q = true →
      ((q = 0 ∨ ∀ j, j < q → isEmpty b j = false) →
        pieceCount (blackMoveOf b q k) + 1 = pieceCount b) ∧
      (¬ (q = 0 ∨ ∀ j, j < q → isEmpty b j = false) →
        pieceCount (blackMoveOf b q k) = pieceCount b)) := by
  constructor
  · intro p hp hpiece
    exact pieceCount_pushedBoard hw hd hp k hpiece
  · intro q hq hpiece
    have hpiece2 : ((flipBoard b).whiteSet k).testBit (15 - q) = true := by
      rw [flipBoard_whiteSet_testBit b k hq]; exact hpiece
    obtain ⟨h1, h2⟩ := pieceCount_pushedBoard (flipBoard_wf b) (flipBoard_disjoint hd)
      (show 15 - q < 16 by omega) k hpiece2
    rw [pieceCount_flipBoard] at h1 h2
    have hiff : (15 - q = 15 ∨ ∀ j, 15 - q < j → j < 16 → isEmpty (flipBoard b) j = false) ↔
        (q = 0 ∨ ∀ j, j < q → isEmpty b j = false) := by
      constructor
      · rintro (h | h)
        · left; omega
        · right
          intro j hj
          have := h (15 - j) (by omega) (by omega)
          rw [isEmpty_flipBoard b (by omega)] at this
          have e : 15 - (15 - j) = j := by omega
          rw [e] at this
          exact this
      · rintro (h | h)
        · left; omega
        · right
          intro j hj1 hj2
          rw [isEmpty_flipBoard b hj2]
          exact h (15 - j) (by omega)
    unfold blackMoveOf
    rw [pieceCount_flipBoard]
    constructor
    · intro hc; exact h1 (hiff.2 hc)
    · intro hc; exact h2 (fun h => hc (hiff.1 h))

/-! ## The rules of a White move, set by set -/

/-- Instance of C7 on `WbxwBxxxxxxxxxxw`: the white regular piece on square 15 leaves the
board, the white king on square 0 captures and the count is kept; the black king on square 4
moves and the count is kept. -/
theorem piece_conservation_witness :
    (⟨32776, 1, 2, 16⟩ : Board).wf ∧ (⟨32776, 1, 2, 16⟩ : Board).disjoint ∧
    pieceCount (pushedBoard ⟨32776, 1, 2, 16⟩ 15 false) + 1 = pieceCount ⟨32776, 1, 2, 16⟩ ∧
    pieceCount (pushedBoard ⟨32776, 1, 2, 16⟩ 0 true) = pieceCount ⟨32776, 1, 2, 16⟩ ∧
    pieceCount (blackMoveOf ⟨32776, 1, 2, 16⟩ 4 true) = pieceCount ⟨32776, 1, 2, 16⟩ :=
  ⟨by decide, by decide,
    ((piece_conservation ⟨32776, 1, 2, 16⟩ (by decide) (by decide) false).1 15 (by decide)
      (by decide)).1 (Or.inl rfl),
    ((piece_conservation ⟨32776, 1, 2, 16⟩ (by decide) (by decide) true).1 0 (by decide)
      (by decide)).2
      (fun h => h.elim (by decide) (fun h2 => absurd (h2 2 (by decide) (by decide)) (by decide))),
    ((piece_conservation ⟨32776, 1, 2, 16⟩ (by decide) (by decide) true).2 4 (by decide)
      (by decide)).2
      (fun h => h.elim (by decide) (fun h2 => absurd (h2 2 (by decide)) (by decide)))⟩

theorem removeWhite_sets {b : Board} (hw : b.wf) {p : Nat} (hp : p < 16) (k : Bool) :
    (∀ i, ((removeWhite b p k).whiteSet k).testBit i =
      ((b.whiteSet k).testBit i && !decide (i = p))) ∧
    (removeWhite b p k).whiteSet (!k) = b.whiteSet (!k) ∧
    (removeWhite b p k).black_pawns = b.black_pawns ∧
    (removeWhite b p k).black_king = b.black_king := by
  obtain ⟨w1, w2, w3, w4⟩ := hw
  cases k
  · exact ⟨fun i => testBit_clearSq w1 hp i, rfl, rfl, rfl⟩
  · exact ⟨fun i => testBit_clearSq w2 hp i, rfl, rfl, rfl⟩

theorem placeWhite_sets (b : Board) (e : Nat) (k : Bool) :
    (∀ i, ((placeWhite b e k).whiteSet k).testBit i =
      (decide (i = e) || (b.whiteSet k).testBit i)) ∧
    (placeWhite b e k).whiteSet (!k) = b.whiteSet (!k) ∧
    (placeWhite b e k).black_pawns = b.black_pawns ∧
    (placeWhite b e k).black_king = b.black_king := by
  cases k
  · exact ⟨fun i => by
      simp only [placeWhite, Board.whiteSet, Bool.false_eq_true, if_false, testBit_setSq,
        Bool.or_comm], rfl, rfl, rfl⟩
  · exact ⟨fun i => by
      simp only [placeWhite, Board.whiteSet, if_true, testBit_setSq, Bool.or_comm], rfl, rfl, rfl⟩

theorem relocateBlack_sets {b : Board} (hw : b.wf) {m : Nat} (hm : m < 16) (r : Nat) (bk : Bool) :
    (∀ i, ((relocateBlack b m r bk).blackSet bk).testBit i =
      (decide (i = r) || ((b.blackSet bk).testBit i && !decide (i = m)))) ∧
    (relocateBlack b m r bk).blackSet (!bk) = b.blackSet (!bk) ∧
    (relocateBlack b m r bk).white_pawns = b.white_pawns ∧
    (relocateBlack b m r bk).white_king = b.white_king := by
  obtain ⟨w1, w2, w3, w4⟩ := hw
  cases bk
  · exact ⟨fun i => by
      simp only [relocateBlack, Board.blackSet, Bool.false_eq_true, if_false, testBit_setSq,
        testBit_clearSq w3 hm, Bool.or_comm], rfl, rfl, rfl⟩
  · exact ⟨fun i => by
      simp only [relocateBlack, Board.blackSet, if_true, testBit_setSq,
        testBit_clearSq w4 hm, Bool.or_comm], rfl, rfl, rfl⟩

/-- C8. For a White piece (king or regular) on square `p`, let `e` be the least empty
square above `p`. When there is none (in particular when `p = 15`) the board generated for
the piece is the input with bit `p` cleared in the set of the piece and nothing else
changed. When `e` exists and it is not the case that `e = p + 2` with a Black piece on
`p + 1`, the generated board is the input with the piece moved from `p` to `e` within its
set and the other three sets unchanged (a slide when `e = p + 1`, a jump otherwise). The
statement holds on every 16-bit board, so on every disjoint board with a White piece on
`p`. -/
theorem white_move_without_capture (b : Board) (hw : b.wf) (p : Nat) (hp : p < 16) (k : Bool) :
    ((∀ j, p < j → j < 16 → isEmpty b j = false) →
      (∀ i, ((pushedBoard b p k).whiteSet k).testBit i =
        ((b.whiteSet k).testBit i && !decide (i = p))) ∧
      (pushedBoard b p k).whiteSet (!k) = b.whiteSet (!k) ∧
      (pushedBoard b p k).black_pawns = b.black_pawns ∧
      (pushedBoard b p k).black_king = b.black_king) ∧
    (∀ e, p < e → e < 16 → isEmpty b e = true → (∀ j, p < j → j < e → isEmpty b j = false) →
      ¬ (e = p + 2 ∧
        (b.black_pawns.testBit (p + 1) = true ∨ b.black_king.testBit (p + 1) = true)) →
      (∀ i, ((pushedBoard b p k).whiteSet k).testBit i =
        (decide (i = e) || ((b.whiteSet k).testBit i && !decide (i = p)))) ∧
      (pushedBoard b p k).whiteSet (!k) = b.whiteSet (!k) ∧
      (pushedBoard b p k).black_pawns = b.black_pawns ∧
      (pushedBoard b p k).black_king = b.black_king) := by
  obtain ⟨r1, r2, r3, r4⟩ := removeWhite_sets hw hp k
  constructor
  · intro hocc
    rw [pushedBoard_exit b hp k hocc]
    exact ⟨r1, r2, r3, r4⟩
  · intro e hpe he hempty hocc hnocap
    rw [pushedBoard_move b hpe he k hempty hocc hnocap]
    obtain ⟨p1, p2, p3, p4⟩ := placeWhite_sets (removeWhite b p k) e k
    refine ⟨fun i => ?_, ?_, ?_, ?_⟩
    · rw [p1, r1]
    · rw [p2, r2]
    · rw [p3, r3]
    · rw [p4, r4]

/-- Instance of C8 on `wWbbxxxxxxxxxxxw`: the regular piece on square 15 leaves the board
and the king on square 1 jumps over two pieces to square 4. -/
theorem white_move_without_capture_witness :
    (⟨32769, 2, 12, 0⟩ : Board).wf ∧
    pushedBoard ⟨32769, 2, 12, 0⟩ 15 false = ⟨1, 2, 12, 0⟩ ∧
    (∀ i, ((pushedBoard ⟨32769, 2, 12, 0⟩ 1 true).whiteSet true).testBit i =
        (decide (i = 4) || (((⟨32769, 2, 12, 0⟩ : Board).whiteSet true).testBit i &&
          !decide (i = 1)))) ∧
    (pushedBoard ⟨32769, 2, 12, 0⟩ 15 false).black_pawns = 12 ∧
    (pushedBoard ⟨32769, 2, 12, 0⟩ 1 true).black_pawns = 12 :=
  ⟨by decide, by decide,
    ((white_move_without_capture ⟨32769, 2, 12, 0⟩ (by decide) 1 (by decide) true).2 4
      (by decide) (by decide) (by decide)
      (by intro j h1 h2; interval_cases j <;> decide) (by decide)).1,
    ((white_move_without_capture ⟨32769, 2, 12, 0⟩ (by decide) 15 (by decide) false).1
      (fun j h1 h2 => absurd h2 (by omega))).2.2.1,
    ((white_move_without_capture ⟨32769, 2, 12, 0⟩ (by decide) 1 (by decide) true).2 4
      (by decide) (by decide) (by decide)
      (by intro j h1 h2; interval_cases j <;> decide) (by decide)).2.2.1⟩

/-- C9. On a disjoint board, for a White piece on `p` with a Black piece (regular or king)
on `p + 1` and `p + 2` empty, the generated board has the mover on `p + 2` and no longer on
`p`, and the Black piece taken from `p + 1` and put, within its own set, on the highest
square `r` that is empty once the mover has left `p` and stands on `p + 2`; every other bit
of the board is unchanged. -/
theorem white_move_capture (b : Board) (hw : b.wf) (hd : b.disjoint) (p : Nat) (hp : p + 2 < 16)
    (k bk : Bool) (hpiece : (b.whiteSet k).testBit p = true)
    (hblack : (b.blackSet bk).testBit (p + 1) = true) (hempty : isEmpty b (p + 2) = true) :
    ∃ r, r < 16 ∧ emptyAfterJump b p r = true ∧
      (∀ j, r < j → j < 16 → emptyAfterJump b p j = false) ∧
      (∀ i, ((pushedBoard b p k).whiteSet k).testBit i =
        (decide (i = p + 2) || ((b.whiteSet k).testBit i && !decide (i = p)))) ∧
      (pushedBoard b p k).whiteSet (!k) = b.whiteSet (!k) ∧
      (∀ i, ((pushedBoard b p k).blackSet bk).testBit i =
        (decide (i = r) || ((b.blackSet bk).testBit i && !decide (i = p + 1)))) ∧
      (pushedBoard b p k).blackSet (!bk) = b.blackSet (!bk) := by
  have hp16 : p < 16 := by omega
  obtain ⟨r, hr16, hr, hr1, hr2⟩ := rightmostEmpty_afterJump hw hd hp16 k hpiece
  refine ⟨r, hr16, hr1, hr2, ?_⟩
  rw [pushedBoard_capture b hp k bk hblack (blackSet_other hd hblack) hempty hr hr16]
  obtain ⟨r1, r2, r3, r4⟩ := removeWhite_sets hw hp16 k
  obtain ⟨p1, p2, p3, p4⟩ := placeWhite_sets (removeWhite b p k) (p + 2) k
  have hjw := placeWhite_wf (removeWhite_wf hw p k) hp k
  obtain ⟨c1, c2, c3, c4⟩ :=
    relocateBlack_sets hjw (show p + 1 < 16 by omega) r bk
  have hws : ∀ k2, (relocateBlack (placeWhite (removeWhite b p k) (p + 2) k) (p + 1) r bk).whiteSet k2
      = (placeWhite (removeWhite b p k) (p + 2) k).whiteSet k2 := by
    intro k2; cases k2
    · exact c3
    · exact c4
  refine ⟨fun i => ?_, ?_, fun i => ?_, ?_⟩
  · rw [hws, p1, r1]
  · rw [hws, p2, r2]
  · rw [c1, blackSet_jump]
  · rw [c2, blackSet_jump]

/-- Instance of C9 on `WbxwBxxxxxxxxxxx`: the king jumps from 0 to 2 over the black piece of
square 1, which is put on square 15. -/
theorem white_move_capture_witness :
    (⟨8, 1, 2, 16⟩ : Board).wf ∧ (⟨8, 1, 2, 16⟩ : Board).disjoint ∧
    pushedBoard ⟨8, 1, 2, 16⟩ 0 true = ⟨8, 4, 32768, 16⟩ ∧
    ∃ r, r < 16 ∧ emptyAfterJump ⟨8, 1, 2, 16⟩ 0 r = true ∧
      (∀ j, r < j → j < 16 → emptyAfterJump ⟨8, 1, 2, 16⟩ 0 j = false) ∧
      (∀ i, ((pushedBoard ⟨8, 1, 2, 16⟩ 0 true).whiteSet true).testBit i =
        (decide (i = 0 + 2) || (((⟨8, 1, 2, 16⟩ : Board).whiteSet true).testBit i &&
          !decide (i = 0)))) ∧
      (pushedBoard ⟨8, 1, 2, 16⟩ 0 true).whiteSet (!true) =
        (⟨8, 1, 2, 16⟩ : Board).whiteSet (!true) ∧
      (∀ i, ((pushedBoard ⟨8, 1, 2, 16⟩ 0 true).blackSet false).testBit i =
        (decide (i = r) || (((⟨8, 1, 2, 16⟩ : Board).blackSet false).testBit i &&
          !decide (i = 0 + 1)))) ∧
      (pushedBoard ⟨8, 1, 2, 16⟩ 0 true).blackSet (!false) =
        (⟨8, 1, 2, 16⟩ : Board).blackSet (!false) :=
  ⟨by decide, by decide, by decide,
    white_move_capture ⟨8, 1, 2, 16⟩ (by decide) (by decide) 0 (by decide) true false
      (by decide) (by decide) (by decide)⟩

/-! ## The opening position of the specification -/

/-- C11. The opening position `wwwwwwwwbbbbbbbx` decodes to white regular pieces on exactly
the squares 0 to 7, black regular pieces on exactly the squares 8 to 14 and no king;
`generateWhiteMoves` returns exactly 8 boards on it, and each of them keeps the two Black
sets and the white-king set of the input and has a white regular set of 8 pieces that
differs from the one of the input by one piece having gone from a square `p` to a square
`e` (every piece jumps to square 15). -/
theorem opening_position_moves :
    stringToBoard "wwwwwwwwbbbbbbbx" = ⟨255, 0, 32512, 0⟩ ∧
    squaresOf 255 = [0, 1, 2, 3, 4, 5, 6, 7] ∧ squaresOf 32512 = [8, 9, 10, 11, 12, 13, 14] ∧
    (generateWhiteMoves ⟨255, 0, 32512, 0⟩).length = 8 ∧
    (generateWhiteMoves ⟨255, 0, 32512, 0⟩).map boardToString =
      ["xwwwwwwwbbbbbbbw", "wxwwwwwwbbbbbbbw", "wwxwwwwwbbbbbbbw", "wwwxwwwwbbbbbbbw",
       "wwwwxwwwbbbbbbbw", "wwwwwxwwbbbbbbbw", "wwwwwwxwbbbbbbbw", "wwwwwwwxbbbbbbbw"] ∧
    ∀ m ∈ generateWhiteMoves ⟨255, 0, 32512, 0⟩,
      m.black_pawns = 32512 ∧ m.black_king = 0 ∧ m.white_king = 0 ∧
      popcount16 m.white_pawns = 8 ∧
      ∃ p, p < 16 ∧ ∃ e, e < 16 ∧ p ≠ e ∧
        Nat.testBit 255 p = true ∧ Nat.testBit 255 e = false ∧
        ∀ i, i < 16 → m.white_pawns.testBit i =
          (decide (i = e) || (Nat.testBit 255 i && !decide (i = p))) := by
  decide

/-! ## The flip is an involution; the capture scan never fails -/

theorem flipBoard_flipBoard {b : Board} (hw : b.wf) : flipBoard (flipBoard b) = b := by
  apply Board.ext_field
  intro f
  apply Nat.eq_of_testBit_eq
  intro j
  rw [flipBoard_testBit, flipBoard_testBit]
  have hm : f.mirror.mirror = f := by cases f <;> rfl
  rw [hm]
  by_cases hj : j < 16
  · have h1 : 15 - j < 16 := by omega
    have h2 : 15 - (15 - j) = j := by omega
    simp [hj, h1, h2]
  · rw [testBit_high (field_lt hw f) (show 16 ≤ j by omega)]
    simp [hj]

/-- C20. `flipBoard` is an involution on all boards with 16-bit fields, disjoint or not:
`flipBoard (flipBoard b) = b`, where the flipped board has 16-bit fields and bit `15 - i` of
its `black_pawns` / `black_king` / `white_pawns` / `white_king` is set exactly when bit `i`
of `white_pawns` / `white_king` / `black_pawns` / `black_king` of `b` is set. -/
theorem flipBoard_involution (b : Board) (hw : b.wf) :
    flipBoard (flipBoard b) = b ∧ (flipBoard b).wf ∧
    ∀ i, i < 16 →
      (flipBoard b).black_pawns.testBit (15 - i) = b.white_pawns.testBit i ∧
      (flipBoard b).black_king.testBit (15 - i) = b.white_king.testBit i ∧
      (flipBoard b).white_pawns.testBit (15 - i) = b.black_pawns.testBit i ∧
      (flipBoard b).white_king.testBit (15 - i) = b.black_king.testBit i := by
  refine ⟨flipBoard_flipBoard hw, flipBoard_wf b, ?_⟩
  · intro i hi
    have h1 : 15 - i < 16 := by omega
    have h2 : 15 - (15 - i) = i := by omega
    have e1 := flipBoard_testBit b .bp (15 - i)
    have e2 := flipBoard_testBit b .bk (15 - i)
    have e3 := flipBoard_testBit b .wp (15 - i)
    have e4 := flipBoard_testBit b .wk (15 - i)
    simp only [Board.field, PieceSet.mirror, h1, h2, decide_True, Bool.true_and] at e1 e2 e3 e4
    exact ⟨e1, e2, e3, e4⟩

/-- Instance of C20 on `WbxwBxxxxxxxxxxx`. -/
theorem flipBoard_involution_witness :
    (⟨8, 1, 2, 16⟩ : Board).wf ∧ flipBoard (flipBoard ⟨8, 1, 2, 16⟩) = ⟨8, 1, 2, 16⟩ :=
  ⟨by decide, (flipBoard_involution ⟨8, 1, 2, 16⟩ (by decide)).1⟩

/-- C19. On a disjoint board, when `processWhitePieceMoves` reaches the capture branch for
the White piece on `p` (a Black piece on `p + 1`, `p + 2` empty), the backward scan for the
rightmost empty square of the post-move board (the piece taken from `p` and put on `p + 2`)
returns an index `r` with `p ≤ r < 16`, the vacated square `p` being empty; so the branch
`rightmost_empty < 0` is not taken, the Black piece is put on `r`, and square `p + 1` is
empty in the generated board. -/
theorem capture_relocation_succeeds (b : Board) (hw : b.wf) (hd : b.disjoint) (p : Nat)
    (hp : p + 2 < 16) (k bk : Bool) (hpiece : (b.whiteSet k).testBit p = true)
    (hblack : (b.blackSet bk).testBit (p + 1) = true) (hempty : isEmpty b (p + 2) = true) :
    ∃ r : Nat, rightmostEmptyLoop (placeWhite (removeWhite b p k) (p + 2) k) 15 = (r : Int) ∧
      p ≤ r ∧ r < 16 ∧
      pushedBoard b p k =
        relocateBlack (placeWhite (removeWhite b p k) (p + 2) k) (p + 1) r bk ∧
      isEmpty (pushedBoard b p k) (p + 1) = true := by
  have hp16 : p < 16 := by omega
  obtain ⟨r, hr16, hr, hr1, hr2⟩ := rightmostEmpty_afterJump hw hd hp16 k hpiece
  have hpr : p ≤ r := by
    by_contra hlt
    have := hr2 p (by omega) hp16
    simp [emptyAfterJump] at this
  have hocc1 : occupied b (p + 1) = true := by
    unfold occupied
    cases bk <;> simp only [Board.blackSet, Bool.false_eq_true, if_false, if_true] at hblack <;>
      simp [hblack]
  have hr_ne : r ≠ p + 1 := by
    intro e
    rw [e] at hr1
    simp [emptyAfterJump, hocc1] at hr1
  have hpush := pushedBoard_capture b hp k bk hblack (blackSet_other hd hblack) hempty hr hr16
  refine ⟨r, hr, hpr, hr16, hpush, ?_⟩
  rw [hpush, isEmpty_eq _ (show p + 1 < 16 by omega)]
  obtain ⟨w1, w2, w3, w4⟩ := hw
  obtain ⟨d1, d2, d3, d4, d5, d6⟩ := disjoint_bits hd (p + 1)
  have hne1 : ¬ p + 1 = p + 2 := by omega
  have hne2 : ¬ p + 1 = r := fun e => hr_ne e.symm
  cases k <;> cases bk <;>
    simp only [Board.blackSet, Bool.false_eq_true, if_false, if_true] at hblack <;>
    simp only [occupied, relocateBlack, placeWhite, removeWhite, Bool.false_eq_true, if_false,
      if_true, testBit_setSq, testBit_clearSq w1 hp16, testBit_clearSq w2 hp16,
      testBit_clearSq w3 (show p + 1 < 16 by omega),
      testBit_clearSq w4 (show p + 1 < 16 by omega)] <;>
    simp_all

/-- Instance of C19 on `WbxwBxxxxxxxxxxx`: the king on 0 jumps over the piece on 1, the scan
returns 15 and square 1 is empty afterwards. -/
theorem capture_relocation_succeeds_witness :
    (⟨8, 1, 2, 16⟩ : Board).wf ∧ (⟨8, 1, 2, 16⟩ : Board).disjoint ∧
    ∃ r : Nat, rightmostEmptyLoop (placeWhite (removeWhite ⟨8, 1, 2, 16⟩ 0 true) (0 + 2) true) 15
        = (r : Int) ∧ 0 ≤ r ∧ r < 16 ∧
      pushedBoard ⟨8, 1, 2, 16⟩ 0 true =
        relocateBlack (placeWhite (removeWhite ⟨8, 1, 2, 16⟩ 0 true) (0 + 2) true) (0 + 1) r
          false ∧
      isEmpty (pushedBoard ⟨8, 1, 2, 16⟩ 0 true) (0 + 1) = true :=
  ⟨by decide, by decide,
    capture_relocation_succeeds ⟨8, 1, 2, 16⟩ (by decide) (by decide) 0 (by decide) true false
      (by decide) (by decide) (by decide)⟩

/-! ## The rule of a Black move on the unflipped board -/

theorem clearSq_field_testBit {b : Board} (hw : b.wf) (f : PieceSet) {p : Nat} (hp : p < 16)
    (g : PieceSet) (j : Nat) :
    ((b.clearSq f p).field g).testBit j =
      ((b.field g).testBit j && !(decide (g = f) && decide (j = p))) := by
  obtain ⟨w1, w2, w3, w4⟩ := hw
  cases f <;> cases g <;>
    simp only [Board.clearSq, Board.field, testBit_clearSq w1 hp, testBit_clearSq w2 hp,
      testBit_clearSq w3 hp, testBit_clearSq w4 hp] <;> simp

theorem setSq_field_testBit (b : Board) (f : PieceSet) (e : Nat) (g : PieceSet) (j : Nat) :
    ((b.setSq f e).field g).testBit j =
      ((b.field g).testBit j || (decide (g = f) && decide (j = e))) := by
  cases f <;> cases g <;> simp only [Board.setSq, Board.field, testBit_setSq] <;> simp

theorem clearSq_wf {b : Board} (hw : b.wf) (f : PieceSet) (p : Nat) : (b.clearSq f p).wf := by
  obtain ⟨w1, w2, w3, w4⟩ := hw
  cases f <;> simp only [Board.clearSq]
  · exact ⟨clearSq_lt w1 _, w2, w3, w4⟩
  · exact ⟨w1, clearSq_lt w2 _, w3, w4⟩
  · exact ⟨w1, w2, clearSq_lt w3 _, w4⟩
  · exact ⟨w1, w2, w3, clearSq_lt w4 _⟩

theorem mirror_eq_iff (g f : PieceSet) : g.mirror = f ↔ g = f.mirror := by
  cases g <;> cases f <;> simp [PieceSet.mirror]

theorem flipBoard_clearSq {b : Board} (hw : b.wf) (f : PieceSet) {p : Nat} (hp : p < 16) :
    flipBoard (b.clearSq f p) = (flipBoard b).clearSq f.mirror (15 - p) := by
  apply Board.ext_field
  intro g
  apply Nat.eq_of_testBit_eq
  intro j
  rw [flipBoard_testBit, clearSq_field_testBit hw f hp,
    clearSq_field_testBit (flipBoard_wf b) f.mirror (show 15 - p < 16 by omega),
    flipBoard_testBit]
  by_cases hj : j < 16
  · by_cases hg : g = f.mirror
    · subst hg
      have hm : f.mirror.mirror = f := by cases f <;> rfl
      by_cases hjp : j = 15 - p
      · subst hjp
        have h2 : 15 - (15 - p) = p := by omega
        simp [hm, h2, hj]
      · have : ¬ 15 - j = p := by omega
        simp [hj, hm, hjp, this]
    · have hg2 : ¬ g.mirror = f := fun e => hg ((mirror_eq_iff g f).1 e)
      simp [hj, hg, hg2]
  · simp [hj]

theorem flipBoard_setSq (b : Board) (f : PieceSet) {e : Nat} (he : e < 16) :
    flipBoard (b.setSq f e) = (flipBoard b).setSq f.mirror (15 - e) := by
  apply Board.ext_field
  intro g
  apply Nat.eq_of_testBit_eq
  intro j
  rw [flipBoard_testBit, setSq_field_testBit, setSq_field_testBit, flipBoard_testBit]
  by_cases hj : j < 16
  · by_cases hg : g = f.mirror
    · subst hg
      have hm : f.mirror.mirror = f := by cases f <;> rfl
      by_cases hjp : j = 15 - e
      · subst hjp
        have h2 : 15 - (15 - e) = e := by omega
        simp [hm, h2, hj]
      · have : ¬ 15 - j = e := by omega
        simp [hj, hm, hjp, this]
    · have hg2 : ¬ g.mirror = f := fun e => hg ((mirror_eq_iff g f).1 e)
      simp [hj, hg, hg2]
  · have : ¬ j = 15 - e := by omega
    simp [hj, this]

theorem removeWhite_eq_clearSq (b : Board) (p : Nat) (k : Bool) :
    removeWhite b p k = b.clearSq (PieceSet.white k) p := by
  cases k <;> rfl

theorem placeWhite_eq_setSq (b : Board) (e : Nat) (k : Bool) :
    placeWhite b e k = b.setSq (PieceSet.white k) e := by
  cases k <;> rfl

theorem relocateBlack_eq (b : Board) (m r : Nat) (bk : Bool) :
    relocateBlack b m r bk = (b.clearSq (PieceSet.black bk) m).setSq (PieceSet.black bk) r := by
  cases bk <;> rfl

theorem mirror_white (k : Bool) : (PieceSet.white k).mirror = PieceSet.black k := by
  cases k <;> rfl

theorem mirror_black (k : Bool) : (PieceSet.black k).mirror = PieceSet.white k := by
  cases k <;> rfl

theorem find?_range_lowest (f : Nat → Bool) {r : Nat} (hf : f r = true)
    (hlow : ∀ j, j < r → f j = false) : ∀ n, r < n → (List.range n).find? f = some r := by
  intro n
  induction n with
  | zero => intro h; omega
  | succ n ih =>
    intro hn
    rw [List.range_succ, List.find?_append]
    by_cases hrn : r = n
    · subst hrn
      have : (List.range r).find? f = none := by
        rw [List.find?_eq_none]
        intro x hx
        rw [List.mem_range] at hx
        simp [hlow x hx]
      simp [this, hf]
    · rw [ih (by omega)]
      rfl

theorem find?_reverse_range_none (f : Nat → Bool) (n : Nat) (h : ∀ j, j < n → f j = false) :
    ((List.range n).reverse).find? f = none := by
  rw [List.find?_eq_none]
  intro x hx
  rw [List.mem_reverse, List.mem_range] at hx
  simp [h x hx]

theorem find?_reverse_range_greatest (f : Nat → Bool) {e : Nat} (hf : f e = true) :
    ∀ n, e < n → (∀ j, e < j → j < n → f j = false) →
      ((List.range n).reverse).find? f = some e := by
  intro n
  induction n with
  | zero => intro h; omega
  | succ n ih =>
    intro hn hhigh
    rw [List.range_succ, List.reverse_append]
    simp only [List.reverse_cons, List.reverse_nil, List.nil_append, List.singleton_append,
      List.find?_cons]
    by_cases hen : e = n
    · subst hen
      simp [hf]
    · have : f n = false := hhigh n (by omega) (by omega)
      rw [this]
      exact ih (by omega) (fun j h1 h2 => hhigh j h1 (by omega))

theorem isEmpty_flipBoard_mirror (b : Board) {i : Nat} (hi : i < 16) :
    isEmpty (flipBoard b) (15 - i) = !occupied b i := by
  rw [isEmpty_flipBoard b (show 15 - i < 16 by omega), isEmpty_eq b (show 15 - (15 - i) < 16 by omega)]
  have : 15 - (15 - i) = i := by omega
  rw [this]

theorem flipBoard_blackSet_testBit (b : Board) (k : Bool) {i : Nat} (hi : i < 16) :
    ((flipBoard b).blackSet k).testBit (15 - i) = (b.whiteSet k).testBit i := by
  have h1 : 15 - i < 16 := by omega
  have h2 : 15 - (15 - i) = i := by omega
  cases k
  · have := flipBoard_testBit b .bp (15 - i)
    simpa [Board.field, PieceSet.mirror, Board.whiteSet, Board.blackSet, h1, h2] using this
  · have := flipBoard_testBit b .bk (15 - i)
    simpa [Board.field, PieceSet.mirror, Board.whiteSet, Board.blackSet, h1, h2] using this

/-- The board returned for a Black piece is the one of the rule stated on the unflipped
board. -/
theorem blackMoveOf_eq_mirrored {b : Board} (hw : b.wf) (hd : b.disjoint) {p : Nat} (hp : p < 16)
    (k : Bool) (hpiece : (b.blackSet k).testBit p = true) :
    blackMoveOf b p k = mirroredBlackMove b p k := by
  have hq : 15 - p < 16 := by omega
  have h15 : 15 - (15 - p) = p := by omega
  have hfw := flipBoard_wf b
  have hfd := flipBoard_disjoint hd
  have hff := flipBoard_flipBoard hw
  have hpiece2 : ((flipBoard b).whiteSet k).testBit (15 - p) = true := by
    rw [flipBoard_whiteSet_testBit b k hp]; exact hpiece
  unfold blackMoveOf
  rcases pushedBoard_cases hfw hfd hq k hpiece2 with ⟨hocc, h⟩ | ⟨e2, h1, h2, h3, h4, h5, h⟩ |
    ⟨bk, r, h1, h2, h3, h4, h5, h6, h⟩
  · rw [h, removeWhite_eq_clearSq, flipBoard_clearSq hfw _ hq, hff, mirror_white, h15]
    have hfind : ((List.range p).reverse).find? (fun j => !occupied b j) = none := by
      apply find?_reverse_range_none
      intro j hj
      have := hocc (15 - j) (by omega) (by omega)
      rw [isEmpty_flipBoard_mirror b (show j < 16 by omega)] at this
      exact this
    simp only [mirroredBlackMove, hfind]
  · rw [h, placeWhite_eq_setSq, removeWhite_eq_clearSq, flipBoard_setSq _ _ h2,
      flipBoard_clearSq hfw _ hq, hff, mirror_white, h15]
    have he : 15 - e2 < p := by omega
    have hfind : ((List.range p).reverse).find? (fun j => !occupied b j) = some (15 - e2) := by
      apply find?_reverse_range_greatest _ _ p he
      · intro j hj1 hj2
        have := h4 (15 - j) (by omega) (by omega)
        rw [isEmpty_flipBoard_mirror b (show j < 16 by omega)] at this
        exact this
      · have := h3
        have e : e2 = 15 - (15 - e2) := by omega
        rw [e, isEmpty_flipBoard_mirror b (show 15 - e2 < 16 by omega)] at this
        exact this
    have hcond : ¬ (15 - e2 + 2 = p ∧
        (b.white_pawns.testBit (p - 1) = true ∨ b.white_king.testBit (p - 1) = true)) := by
      rintro ⟨c1, c2⟩
      apply h5
      refine ⟨by omega, ?_⟩
      have hp1 : p - 1 < 16 := by omega
      have e : 15 - p + 1 = 15 - (p - 1) := by omega
      rcases c2 with c2 | c2
      · left
        have := flipBoard_blackSet_testBit b false hp1
        simp only [Board.blackSet, Board.whiteSet, Bool.false_eq_true, if_false] at this
        rw [e, this]; exact c2
      · right
        have := flipBoard_blackSet_testBit b true hp1
        simp only [Board.blackSet, Board.whiteSet, if_true] at this
        rw [e, this]; exact c2
    simp only [mirroredBlackMove, hfind, hcond, if_false]
  · have hjw : (placeWhite (removeWhite (flipBoard b) (15 - p) k) (15 - p + 2) k).wf :=
      placeWhite_wf (removeWhite_wf hfw _ k) h1 k
    have hmoved : flipBoard (placeWhite (removeWhite (flipBoard b) (15 - p) k) (15 - p + 2) k) =
        (b.clearSq (PieceSet.black k) p).setSq (PieceSet.black k) (p - 2) := by
      rw [placeWhite_eq_setSq, removeWhite_eq_clearSq, flipBoard_setSq _ _ h1,
        flipBoard_clearSq hfw _ hq, hff, mirror_white, h15]
      have : 15 - (15 - p + 2) = p - 2 := by omega
      rw [this]
    have hp2 : 2 ≤ p := by omega
    rw [h, relocateBlack_eq, flipBoard_setSq _ _ h4,
      flipBoard_clearSq hjw _ (show 15 - p + 1 < 16 by omega), hmoved, mirror_black]
    have e1 : 15 - (15 - p + 1) = p - 1 := by omega
    rw [e1]
    have hfind : ((List.range p).reverse).find? (fun j => !occupied b j) = some (p - 2) := by
      apply find?_reverse_range_greatest _ _ p (by omega)
      · intro j hj1 hj2
        have hj : j = p - 1 := by omega
        subst hj
        have hwh := flipBoard_blackSet_testBit b bk (show p - 1 < 16 by omega)
        have e : 15 - (p - 1) = 15 - p + 1 := by omega
        rw [e, h2] at hwh
        unfold occupied
        cases bk <;> simp only [Board.whiteSet, Bool.false_eq_true, if_false, if_true] at hwh <;>
          simp [← hwh]
      · have := h3
        have e : 15 - p + 2 = 15 - (p - 2) := by omega
        rw [e, isEmpty_flipBoard_mirror b (show p - 2 < 16 by omega)] at this
        exact this
    have hwh := flipBoard_blackSet_testBit b bk (show p - 1 < 16 by omega)
    have e : 15 - (p - 1) = 15 - p + 1 := by omega
    rw [e, h2] at hwh
    have hcond : (p - 2 + 2 = p ∧
        (b.white_pawns.testBit (p - 1) = true ∨ b.white_king.testBit (p - 1) = true)) := by
      refine ⟨by omega, ?_⟩
      cases bk <;> simp only [Board.whiteSet, Bool.false_eq_true, if_false, if_true] at hwh
      · left; exact hwh.symm
      · right; exact hwh.symm
    have hking : b.white_king.testBit (p - 1) = bk := by
      have d := (disjoint_bits hd (p - 1)).1
      cases bk <;> simp only [Board.whiteSet, Bool.false_eq_true, if_false, if_true] at hwh
      · rw [← hwh] at d; simpa using d
      · exact hwh.symm
    have hfind2 : (List.range 16).find?
        (fun j => !occupied ((b.clearSq (PieceSet.black k) p).setSq (PieceSet.black k) (p - 2)) j)
        = some (15 - r) := by
      rw [← hmoved]
      apply find?_range_lowest _ _ _ 16 (by omega)
      · rw [occupied_flipBoard _ (show 15 - r < 16 by omega)]
        have e : 15 - (15 - r) = r := by omega
        rw [e, ← isEmpty_eq _ h4, isEmpty_afterJump hfw hfd hq k hpiece2 h4]
        exact h5
      · intro j hj
        rw [occupied_flipBoard _ (show j < 16 by omega),
          ← isEmpty_eq _ (show 15 - j < 16 by omega),
          isEmpty_afterJump hfw hfd hq k hpiece2 (show 15 - j < 16 by omega)]
        exact h6 (15 - j) (by omega) (by omega)
    simp only [mirroredBlackMove, hfind, hking, hfind2]
    rw [if_pos]
    refine ⟨by omega, ?_⟩
    rcases hcond.2 with c | c
    · left; exact c
    · right; rw [← hking]; exact c

/-- C17. `generateBlackMoves` equals the mirrored rule stated on the unflipped board: on a
disjoint board the board generated for the Black piece on `p` is `mirroredBlackMove b p`,
which moves the piece to the greatest empty square `e` below `p`, or removes it when there
is none, and when `e = p - 2` with a White piece on `p - 1` puts that White piece, within
its set, on the lowest square that is empty after the move; the list returned is made of
these boards. -/
theorem generateBlackMoves_mirrored_rule (b : Board) (hw : b.wf) (hd : b.disjoint) :
    (∀ p k, p < 16 → (b.blackSet k).testBit p = true →
      flipBoard (pushedBoard (flipBoard b) (15 - p) k) = mirroredBlackMove b p k) ∧
    generateBlackMoves b =
      (((squaresOf b.black_king).reverse).take 1).map (fun i => mirroredBlackMove b i true) ++
        ((squaresOf b.black_pawns).reverse).map (fun i => mirroredBlackMove b i false) := by
  constructor
  · intro p k hp hpiece
    exact blackMoveOf_eq_mirrored hw hd hp k hpiece
  · rw [generateBlackMoves_squares b]
    congr 1
    · apply List.map_congr_left
      intro i hi
      obtain ⟨h1, h2⟩ := mem_squaresOf.1 (List.mem_reverse.1 (List.mem_of_mem_take hi))
      exact blackMoveOf_eq_mirrored hw hd h1 true (by simpa [Board.blackSet] using h2)
    · apply List.map_congr_left
      intro i hi
      obtain ⟨h1, h2⟩ := mem_squaresOf.1 (List.mem_reverse.1 hi)
      exact blackMoveOf_eq_mirrored hw hd h1 false (by simpa [Board.blackSet] using h2)

/-- Instance of C17 on `bWbxxxxxwWbxxwbB`: the regular piece on 14 jumps to 12 over the
white piece of 13, which is put on square 3. -/
theorem generateBlackMoves_mirrored_rule_witness :
    (⟨8448, 514, 17413, 32768⟩ : Board).wf ∧ (⟨8448, 514, 17413, 32768⟩ : Board).disjoint ∧
    boardToString ⟨8448, 514, 17413, 32768⟩ = "bWbxxxxxwWbxxwbB" ∧
    flipBoard (pushedBoard (flipBoard ⟨8448, 514, 17413, 32768⟩) (15 - 14) false) =
      mirroredBlackMove ⟨8448, 514, 17413, 32768⟩ 14 false ∧
    boardToString (mirroredBlackMove ⟨8448, 514, 17413, 32768⟩ 14 false) = "bWbwxxxxwWbxbxxB" ∧
    generateBlackMoves ⟨8448, 514, 17413, 32768⟩ =
      (((squaresOf 32768).reverse).take 1).map
          (fun i => mirroredBlackMove ⟨8448, 514, 17413, 32768⟩ i true) ++
        ((squaresOf 17413).reverse).map
          (fun i => mirroredBlackMove ⟨8448, 514, 17413, 32768⟩ i false) :=
  ⟨by decide, by decide, by decide,
    (generateBlackMoves_mirrored_rule ⟨8448, 514, 17413, 32768⟩ (by decide) (by decide)).1 14
      false (by decide) (by decide),
    by decide,
    (generateBlackMoves_mirrored_rule ⟨8448, 514, 17413, 32768⟩ (by decide) (by decide)).2⟩

/-! ## The search: unfolding of `minimax` -/

theorem estimatePosition_value (self : Jumpy3) (board : Board) :
    (Jumpy3.estimatePosition self board).1 = staticScore board := by
  unfold staticScore Jumpy3.estimatePosition
  simp only []
  split_ifs <;> rfl

theorem estimatePosition_flag (self : Jumpy3) (board : Board) :
    (Jumpy3.estimatePosition self board).2.time_limit_reached = self.time_limit_reached := by
  unfold Jumpy3.estimatePosition
  simp only []
  split_ifs <;> rfl

theorem run_estimatePosition_value (r : Run) (board : Board) :
    (r.estimatePosition board).1 = staticScore board := by
  unfold Run.estimatePosition
  exact estimatePosition_value _ _

theorem run_estimatePosition_flag (r : Run) (board : Board) :
    (r.estimatePosition board).2.self.time_limit_reached = r.self.time_limit_reached := by
  unfold Run.estimatePosition
  exact estimatePosition_flag _ _

theorem run_estimatePosition_clock (r : Run) (board : Board) :
    (r.estimatePosition board).2.clock = r.clock := rfl

theorem run_estimatePosition_trace (r : Run) (board : Board) :
    (r.estimatePosition board).2.trace = r.trace ++ [Event.evaluate] := rfl

theorem minimax_tripped (expired : Nat → Bool) (depth : Nat) (r : Run) (board : Board)
    (m : Bool) (cur : Int) (h : expired r.clock = true) :
    minimax expired depth r board m cur = r.tripped.estimatePosition board := by
  unfold minimax checkTimeLimit
  simp only [h, if_true, Run.tripped]

theorem minimax_leaf (expired : Nat → Bool) (depth : Nat) (r : Run) (board : Board)
    (m : Bool) (cur : Int) (h : expired r.clock = false)
    (hleaf : depth = 0 ∨ isWhiteWin board = true ∨ isBlackWin board = true) :
    minimax expired depth r board m cur = (r.entered cur).estimatePosition board := by
  unfold minimax checkTimeLimit
  simp only [h, Bool.false_eq_true, if_false, Run.entered]
  cases depth with
  | zero => rfl
  | succ d =>
    have : (isWhiteWin board || isBlackWin board) = true := by
      rcases hleaf with h0 | h1 | h2
      · cases h0
      · simp [h1]
      · simp [h2]
    simp only [this, if_true]

theorem minimax_max (expired : Nat → Bool) (d : Nat) (r : Run) (board : Board) (cur : Int)
    (h : expired r.clock = false) (hw : isWhiteWin board = false) (hb : isBlackWin board = false) :
    minimax expired (d + 1) r board true cur =
      maxLoop (fun r3 move => minimax expired d r3 move false (cur + 1))
        (generateWhiteMoves board) intMin (r.entered cur).generated := by
  rw [minimax]
  simp only [checkTimeLimit, h, Bool.false_eq_true, if_false, hw, hb, Bool.or_self, if_true]
  rfl

theorem minimax_min (expired : Nat → Bool) (d : Nat) (r : Run) (board : Board) (cur : Int)
    (h : expired r.clock = false) (hw : isWhiteWin board = false) (hb : isBlackWin board = false) :
    minimax expired (d + 1) r board false cur =
      minLoop (fun r3 move => minimax expired d r3 move true (cur + 1))
        (generateBlackMoves board) intMax (r.entered cur).generated := by
  rw [minimax]
  simp only [checkTimeLimit, h, Bool.false_eq_true, if_false, hw, hb, Bool.or_self]
  rfl

/-- The four ways in which an invocation of `minimax` proceeds. -/
theorem minimax_cases (expired : Nat → Bool) (depth : Nat) (r : Run) (board : Board)
    (m : Bool) (cur : Int) :
    (expired r.clock = true ∧
      minimax expired depth r board m cur = r.tripped.estimatePosition board) ∨
    (expired r.clock = false ∧
      minimax expired depth r board m cur = (r.entered cur).estimatePosition board) ∨
    (expired r.clock = false ∧ isWhiteWin board = false ∧ isBlackWin board = false ∧
      ∃ d, depth = d + 1 ∧ m = true ∧
        minimax expired depth r board m cur =
          maxLoop (fun r3 move => minimax expired d r3 move false (cur + 1))
            (generateWhiteMoves board) intMin (r.entered cur).generated) ∨
    (expired r.clock = false ∧ isWhiteWin board = false ∧ isBlackWin board = false ∧
      ∃ d, depth = d + 1 ∧ m = false ∧
        minimax expired depth r board m cur =
          minLoop (fun r3 move => minimax expired d r3 move true (cur + 1))
            (generateBlackMoves board) intMax (r.entered cur).generated) := by
  cases he : expired r.clock
  · right
    cases depth with
    | zero => left; exact ⟨rfl, minimax_leaf expired 0 r board m cur he (Or.inl rfl)⟩
    | succ d =>
      cases hw : isWhiteWin board
      · cases hb : isBlackWin board
        · right
          cases m
          · right; exact ⟨rfl, rfl, rfl, d, rfl, rfl, minimax_min expired d r board cur he hw hb⟩
          · left; exact ⟨rfl, rfl, rfl, d, rfl, rfl, minimax_max expired d r board cur he hw hb⟩
        · left; exact ⟨rfl, minimax_leaf expired _ r board m cur he (Or.inr (Or.inr hb))⟩
      · left; exact ⟨rfl, minimax_leaf expired _ r board m cur he (Or.inr (Or.inl hw))⟩
  · left; exact ⟨rfl, minimax_tripped expired depth r board m cur he⟩

theorem consistent_tripped (expired : Nat → Bool) (r : Run) (h : expired r.clock = true) :
    r.tripped.consistent expired :=
  fun _ => ⟨r.clock, Nat.lt_succ_self _, h⟩

theorem consistent_entered (expired : Nat → Bool) {r : Run} (hc : r.consistent expired)
    (cur : Int) : (r.entered cur).consistent expired := by
  intro hf
  obtain ⟨n, hn, he⟩ := hc hf
  exact ⟨n, Nat.lt_succ_of_lt hn, he⟩

theorem consistent_generated (expired : Nat → Bool) {r : Run} (hc : r.consistent expired) :
    r.generated.consistent expired := hc

theorem consistent_estimatePosition (expired : Nat → Bool) {r : Run} (hc : r.consistent expired)
    (board : Board) : (r.estimatePosition board).2.consistent expired := by
  intro hf
  rw [run_estimatePosition_flag] at hf
  exact hc hf

/-- With a monotone governor, a check that reports no expiry is made with the flag down. -/
theorem flag_false_of_check_false {expired : Nat → Bool} (hmono : MonotoneGovernor expired)
    {r : Run} (hc : r.consistent expired) (he : expired r.clock = false) :
    r.self.time_limit_reached = false := by
  cases hf : r.self.time_limit_reached
  · rfl
  · obtain ⟨n, hn, hen⟩ := hc hf
    have := hmono n r.clock (Nat.le_of_lt hn) hen
    rw [he] at this
    cases this

theorem maxLoop_inv (expired : Nat → Bool) (P : Int → Prop)
    (hPmax : ∀ a b, P a → P b → P (max a b)) (hPlow : ∀ a, P a → intMin ≤ a)
    (child : Run → Board → Int × Run) :
    ∀ (l : List Board),
      (∀ r m, m ∈ l → r.consistent expired →
        P (child r m).1 ∧ (child r m).2.consistent expired) →
      ∀ best r, r.consistent expired →
        (P best ∨ (best = intMin ∧ l ≠ [] ∧ r.self.time_limit_reached = false)) →
        P (maxLoop child l best r).1 ∧ (maxLoop child l best r).2.consistent expired := by
  intro l
  induction l with
  | nil =>
    intro _ best r hc hb
    rcases hb with hb | ⟨_, hne, _⟩
    · exact ⟨hb, hc⟩
    · exact absurd rfl hne
  | cons m rest ih =>
    intro hchild best r hc hb
    rw [maxLoop]
    by_cases hf : r.self.time_limit_reached = true
    · rw [if_pos hf]
      rcases hb with hb | ⟨_, _, hff⟩
      · exact ⟨hb, hc⟩
      · rw [hff] at hf; cases hf
    · rw [if_neg hf]
      obtain ⟨hv, hc2⟩ := hchild r m (List.mem_cons_self _ _) hc
      apply ih (fun r2 m2 hm2 => hchild r2 m2 (List.mem_cons_of_mem _ hm2)) _ _ hc2
      left
      rcases hb with hb | ⟨hmin, _, _⟩
      · exact hPmax _ _ hb hv
      · have h1 := hPlow _ hv
        have : max best (child r m).1 = (child r m).1 := by rw [hmin]; exact max_eq_right h1
        rw [this]; exact hv

theorem minLoop_inv (expired : Nat → Bool) (P : Int → Prop)
    (hPmin : ∀ a b, P a → P b → P (min a b)) (hPhigh : ∀ a, P a → a ≤ intMax)
    (child : Run → Board → Int × Run) :
    ∀ (l : List Board),
      (∀ r m, m ∈ l → r.consistent expired →
        P (child r m).1 ∧ (child r m).2.consistent expired) →
      ∀ best r, r.consistent expired →
        (P best ∨ (best = intMax ∧ l ≠ [] ∧ r.self.time_limit_reached = false)) →
        P (minLoop child l best r).1 ∧ (minLoop child l best r).2.consistent expired := by
  intro l
  induction l with
  | nil =>
    intro _ best r hc hb
    rcases hb with hb | ⟨_, hne, _⟩
    · exact ⟨hb, hc⟩
    · exact absurd rfl hne
  | cons m rest ih =>
    intro hchild best r hc hb
    rw [minLoop]
    by_cases hf : r.self.time_limit_reached = true
    · rw [if_pos hf]
      rcases hb with hb | ⟨_, _, hff⟩
      · exact ⟨hb, hc⟩
      · rw [hff] at hf; cases hf
    · rw [if_neg hf]
      obtain ⟨hv, hc2⟩ := hchild r m (List.mem_cons_self _ _) hc
      apply ih (fun r2 m2 hm2 => hchild r2 m2 (List.mem_cons_of_mem _ hm2)) _ _ hc2
      left
      rcases hb with hb | ⟨hmax, _, _⟩
      · exact hPmin _ _ hb hv
      · have h1 := hPhigh _ hv
        have : min best (child r m).1 = (child r m).1 := by rw [hmax]; exact min_eq_right h1
        rw [this]; exact hv

/-- Invariant of `minimax` under a monotone governor: when the static score of every board
of a class closed under the two generators has a property that `max` and `min` keep, and
every board of the class with both kings has a move (or the sentinel has the property), the
value returned has the property. -/
theorem minimax_inv {expired : Nat → Bool} (hmono : MonotoneGovernor expired)
    (P : Int → Prop) (Q : Board → Prop)
    (hPmax : ∀ a b, P a → P b → P (max a b)) (hPmin : ∀ a b, P a → P b → P (min a b))
    (hPlow : ∀ a, P a → intMin ≤ a) (hPhigh : ∀ a, P a → a ≤ intMax)
    (hest : ∀ b, Q b → P (staticScore b))
    (hW : ∀ b, Q b → isWhiteWin b = false → isBlackWin b = false →
      generateWhiteMoves b ≠ [] ∧ ∀ m ∈ generateWhiteMoves b, Q m)
    (hB : ∀ b, Q b → isWhiteWin b = false → isBlackWin b = false →
      (generateBlackMoves b ≠ [] ∨ P intMax) ∧ ∀ m ∈ generateBlackMoves b, Q m) :
    ∀ (depth : Nat) (r : Run) (board : Board) (m : Bool) (cur : Int),
      r.consistent expired → Q board →
      P (minimax expired depth r board m cur).1 ∧
        (minimax expired depth r board m cur).2.consistent expired := by
  intro depth
  induction depth with
  | zero =>
    intro r board m cur hc hq
    rcases minimax_cases expired 0 r board m cur with ⟨he, h⟩ | ⟨he, h⟩ |
      ⟨_, _, _, d, hd, _⟩ | ⟨_, _, _, d, hd, _⟩
    · rw [h, run_estimatePosition_value]
      exact ⟨hest _ hq, consistent_estimatePosition expired (consistent_tripped expired r he) _⟩
    · rw [h, run_estimatePosition_value]
      exact ⟨hest _ hq, consistent_estimatePosition expired (consistent_entered expired hc cur) _⟩
    · cases hd
    · cases hd
  | succ n ih =>
    intro r board m cur hc hq
    rcases minimax_cases expired (n + 1) r board m cur with ⟨he, h⟩ | ⟨he, h⟩ |
      ⟨he, hw, hb, d, hd, _, h⟩ | ⟨he, hw, hb, d, hd, _, h⟩
    · rw [h, run_estimatePosition_value]
      exact ⟨hest _ hq, consistent_estimatePosition expired (consistent_tripped expired r he) _⟩
    · rw [h, run_estimatePosition_value]
      exact ⟨hest _ hq, consistent_estimatePosition expired (consistent_entered expired hc cur) _⟩
    · have hd2 : d = n := by omega
      subst hd2
      rw [h]
      obtain ⟨hne, hclosed⟩ := hW board hq hw hb
      have hflag : (r.entered cur).generated.self.time_limit_reached = false := by
        have := flag_false_of_check_false hmono hc he
        exact this
      apply maxLoop_inv expired P hPmax hPlow _ _ _ _ _
        (consistent_generated expired (consistent_entered expired hc cur))
        (Or.inr ⟨rfl, hne, hflag⟩)
      intro r2 m2 hm2 hc2
      exact ih r2 m2 false (cur + 1) hc2 (hclosed m2 hm2)
    · have hd2 : d = n := by omega
      subst hd2
      rw [h]
      obtain ⟨hne, hclosed⟩ := hB board hq hw hb
      have hflag : (r.entered cur).generated.self.time_limit_reached = false := by
        have := flag_false_of_check_false hmono hc he
        exact this
      apply minLoop_inv expired P hPmin hPhigh _ _ _ _ _
        (consistent_generated expired (consistent_entered expired hc cur))
      · rcases hne with hne | hne
        · exact Or.inr ⟨rfl, hne, hflag⟩
        · exact Or.inl hne
      · intro r2 m2 hm2 hc2
        exact ih r2 m2 true (cur + 1) hc2 (hclosed m2 hm2)

/-! ## The values returned by `minimax` -/

theorem tripsAt_monotone (t : Nat) : MonotoneGovernor (tripsAt t) := by
  intro n m hnm h
  simp only [tripsAt, decide_eq_true_eq] at h ⊢
  omega

theorem whitePawnsLoop_append (b : Board) :
    ∀ (fuel pawns : Nat) (moves : List Board),
      ∃ l, whitePawnsLoop b fuel pawns moves = moves ++ l := by
  intro fuel
  induction fuel with
  | zero => intro pawns moves; exact ⟨[], by simp [whitePawnsLoop]⟩
  | succ n ih =>
    intro pawns moves
    rw [whitePawnsLoop]
    by_cases h0 : pawns ≠ 0
    · rw [if_pos h0]
      simp only [processWhitePieceMoves_eq]
      obtain ⟨l, hl⟩ := ih (pawns &&& ((pawns - 1) % 65536))
        (moves ++ [pushedBoard b (findLowestSetBit pawns).toNat false])
      exact ⟨pushedBoard b (findLowestSetBit pawns).toNat false :: l, by rw [hl]; simp⟩
    · rw [if_neg h0]
      exact ⟨[], by simp⟩

/-- White has a move as soon as it has a piece. -/
theorem generateWhiteMoves_ne_nil (b : Board) (h : b.white_king ≠ 0 ∨ b.white_pawns ≠ 0) :
    generateWhiteMoves b ≠ [] := by
  unfold generateWhiteMoves
  by_cases hk : b.white_king ≠ 0
  · simp only []
    rw [if_pos hk]
    simp only [processWhitePieceMoves_eq, List.nil_append]
    obtain ⟨l, hl⟩ := whitePawnsLoop_append b 16 b.white_pawns
      [pushedBoard b (findKing b.white_king).toNat true]
    rw [hl]; simp
  · have hp : b.white_pawns ≠ 0 := by
      rcases h with h | h
      · exact absurd h hk
      · exact h
    simp only []
    rw [if_neg hk, whitePawnsLoop, if_pos hp]
    simp only [processWhitePieceMoves_eq, List.nil_append]
    obtain ⟨l, hl⟩ := whitePawnsLoop_append b 15 (b.white_pawns &&& ((b.white_pawns - 1) % 65536))
      [pushedBoard b (findLowestSetBit b.white_pawns).toNat false]
    rw [hl]; simp

theorem flipBoard_white_king_ne_zero {b : Board} (hw : b.wf) (h : b.black_king ≠ 0) :
    (flipBoard b).white_king ≠ 0 := by
  obtain ⟨k, hk, hlow⟩ := exists_lowestSq hw.2.2.2 h
  intro e
  have h1 := flipBoard_testBit b .wk (15 - k)
  simp only [Board.field, PieceSet.mirror] at h1
  have h2 : 15 - (15 - k) = k := by omega
  have h3 : 15 - k < 16 := by omega
  rw [e, h2, hlow.1] at h1
  simp [h3] at h1

/-- Black has a move as soon as it has a king. -/
theorem generateBlackMoves_ne_nil {b : Board} (hw : b.wf) (h : b.black_king ≠ 0) :
    generateBlackMoves b ≠ [] := by
  unfold generateBlackMoves
  simp only [ne_eq, List.map_eq_nil_iff]
  exact generateWhiteMoves_ne_nil _ (Or.inl (flipBoard_white_king_ne_zero hw h))

theorem isWhiteWin_false_iff (b : Board) : isWhiteWin b = false ↔ b.white_king ≠ 0 := by
  simp [isWhiteWin]

theorem isBlackWin_false_iff (b : Board) : isBlackWin b = false ↔ b.black_king ≠ 0 := by
  simp [isBlackWin]

theorem staticScore_range {b : Board} (hw : b.wf) (hd : b.disjoint) :
    InScoreRange (staticScore b) := by
  unfold InScoreRange
  by_cases h1 : b.white_king = 0
  · left
    simp [staticScore, Jumpy3.estimatePosition, isWhiteWin, h1]
  · by_cases h2 : b.black_king = 0
    · right; left
      simp [staticScore, Jumpy3.estimatePosition, isWhiteWin, isBlackWin, h1, h2]
    · right; right
      obtain ⟨i, hi, hli, hfi⟩ := findKing_eq hw.2.1 h1
      obtain ⟨j, hj, hlj, hfj⟩ := findKing_eq hw.2.2.2 h2
      have hval : staticScore b = (i : Int) + (j : Int) - 15 := by
        simp [staticScore, Jumpy3.estimatePosition, isWhiteWin, isBlackWin, h1, h2, hfi, hfj]
      have hne : i ≠ j := by
        intro e
        subst e
        have := (disjoint_bits hd i).2.2.2.2.1
        rw [hli.1, hlj.1] at this
        cases this
      rw [hval]
      omega

theorem inScoreRange_bounds {v : Int} (h : InScoreRange v) : intMin < v ∧ v < intMax := by
  unfold InScoreRange at h
  unfold intMin intMax
  omega

/-- Under a monotone governor `minimax` returns the static score of a disjoint board. -/
theorem minimax_value_is_score {expired : Nat → Bool} (hmono : MonotoneGovernor expired)
    (depth : Nat) (r : Run) (board : Board) (m : Bool) (cur : Int)
    (hc : r.consistent expired) (hw : board.wf) (hd : board.disjoint) :
    (∃ b2 : Board, b2.wf ∧ b2.disjoint ∧
      (minimax expired depth r board m cur).1 = staticScore b2) ∧
    (minimax expired depth r board m cur).2.consistent expired := by
  apply minimax_inv hmono (fun v => ∃ b2 : Board, b2.wf ∧ b2.disjoint ∧ v = staticScore b2)
    (fun b => b.wf ∧ b.disjoint) _ _ _ _ _ _ _ depth r board m cur hc ⟨hw, hd⟩
  · intro a b ha hb
    rcases le_total a b with h | h
    · rw [max_eq_right h]; exact hb
    · rw [max_eq_left h]; exact ha
  · intro a b ha hb
    rcases le_total a b with h | h
    · rw [min_eq_left h]; exact ha
    · rw [min_eq_right h]; exact hb
  · rintro a ⟨b2, h1, h2, rfl⟩
    exact le_of_lt (inScoreRange_bounds (staticScore_range h1 h2)).1
  · rintro a ⟨b2, h1, h2, rfl⟩
    exact le_of_lt (inScoreRange_bounds (staticScore_range h1 h2)).2
  · intro b hb
    exact ⟨b, hb.1, hb.2, rfl⟩
  · intro b hb h1 _
    refine ⟨generateWhiteMoves_ne_nil b (Or.inl ((isWhiteWin_false_iff b).1 h1)), ?_⟩
    intro mv hmv
    exact (generated_wf_disjoint hb.1 hb.2).1 mv hmv
  · intro b hb _ h2
    refine ⟨Or.inl (generateBlackMoves_ne_nil hb.1 ((isBlackWin_false_iff b).1 h2)), ?_⟩
    intro mv hmv
    exact (generated_wf_disjoint hb.1 hb.2).2 mv hmv

/-- C18. For every disjoint board, every depth, either value of `is_maximizing` and every
monotone time governor, `minimax` never returns `numeric_limits<int>::min()` or
`numeric_limits<int>::max()`: the value returned is the static evaluation of some disjoint
board, so it is 100, -100 or lies in -14..14. A side whose king is on the board has a
move, and after a check that reports no expiry the flag `time_limit_reached` is down, so
the first child of a node is searched. The run is any run in which the flag is set only
after a check that reported expiry. -/
theorem minimax_never_sentinel (expired : Nat → Bool) (hmono : MonotoneGovernor expired)
    (r : Run) (hc : r.consistent expired) (board : Board) (hw : board.wf)
    (hd : board.disjoint) (depth : Nat) (is_maximizing : Bool) (current_depth : Int) :
    (minimax expired depth r board is_maximizing current_depth).1 ≠ intMin ∧
    (minimax expired depth r board is_maximizing current_depth).1 ≠ intMax ∧
    InScoreRange (minimax expired depth r board is_maximizing current_depth).1 ∧
    (∃ b2 : Board, b2.wf ∧ b2.disjoint ∧
      (minimax expired depth r board is_maximizing current_depth).1 = staticScore b2) ∧
    (board.white_king ≠ 0 → generateWhiteMoves board ≠ []) ∧
    (board.black_king ≠ 0 → generateBlackMoves board ≠ []) ∧
    (expired r.clock = false → r.self.time_limit_reached = false) := by
  obtain ⟨⟨b2, h1, h2, hv⟩, _⟩ :=
    minimax_value_is_score hmono depth r board is_maximizing current_depth hc hw hd
  have hr : InScoreRange (minimax expired depth r board is_maximizing current_depth).1 := by
    rw [hv]; exact staticScore_range h1 h2
  obtain ⟨hlo, hhi⟩ := inScoreRange_bounds hr
  exact ⟨ne_of_gt hlo, ne_of_lt hhi, hr, ⟨b2, h1, h2, hv⟩,
    fun h => generateWhiteMoves_ne_nil board (Or.inl h),
    fun h => generateBlackMoves_ne_nil hw h,
    fun he => flag_false_of_check_false hmono hc he⟩

/-- Instance of C18: on `WbxwBxxxxxxxxxxx`, to depth 2 with the governor tripping at its
fourth check, the value of `minimax` is no sentinel. -/
theorem minimax_never_sentinel_witness :
    MonotoneGovernor (tripsAt 3) ∧ (⟨8, 1, 2, 16⟩ : Board).wf ∧
    (⟨8, 1, 2, 16⟩ : Board).disjoint ∧
    (minimax (tripsAt 3) 2 ⟨⟨0, false, 15, 0⟩, 0, []⟩ ⟨8, 1, 2, 16⟩ true 0).1 ≠ intMin ∧
    (minimax (tripsAt 3) 2 ⟨⟨0, false, 15, 0⟩, 0, []⟩ ⟨8, 1, 2, 16⟩ true 0).1 ≠ intMax ∧
    InScoreRange (minimax (tripsAt 3) 2 ⟨⟨0, false, 15, 0⟩, 0, []⟩ ⟨8, 1, 2, 16⟩ true 0).1 :=
  ⟨tripsAt_monotone 3, by decide, by decide,
    (minimax_never_sentinel (tripsAt 3) (tripsAt_monotone 3) ⟨⟨0, false, 15, 0⟩, 0, []⟩
      (fun h => Bool.noConfusion h) ⟨8, 1, 2, 16⟩ (by decide) (by decide) 2 true 0).1,
    (minimax_never_sentinel (tripsAt 3) (tripsAt_monotone 3) ⟨⟨0, false, 15, 0⟩, 0, []⟩
      (fun h => Bool.noConfusion h) ⟨8, 1, 2, 16⟩ (by decide) (by decide) 2 true 0).2.1,
    (minimax_never_sentinel (tripsAt 3) (tripsAt_monotone 3) ⟨⟨0, false, 15, 0⟩, 0, []⟩
      (fun h => Bool.noConfusion h) ⟨8, 1, 2, 16⟩ (by decide) (by decide) 2 true 0).2.2.1⟩

/-! ## A depth searched without a trip of the governor -/

theorem maxLoop_of_flag (child : Run → Board → Int × Run) (l : List Board) (best : Int)
    {r : Run} (h : r.self.time_limit_reached = true) : maxLoop child l best r = (best, r) := by
  cases l with
  | nil => rfl
  | cons m rest => rw [maxLoop, if_pos h]

theorem minLoop_of_flag (child : Run → Board → Int × Run) (l : List Board) (best : Int)
    {r : Run} (h : r.self.time_limit_reached = true) : minLoop child l best r = (best, r) := by
  cases l with
  | nil => rfl
  | cons m rest => rw [minLoop, if_pos h]

/-- The flag `time_limit_reached` is never cleared by `minimax`. -/
theorem minimax_flag_mono (expired : Nat → Bool) (depth : Nat) (r : Run) (board : Board)
    (m : Bool) (cur : Int) (h : r.self.time_limit_reached = true) :
    (minimax expired depth r board m cur).2.self.time_limit_reached = true := by
  rcases minimax_cases expired depth r board m cur with ⟨_, e⟩ | ⟨_, e⟩ |
    ⟨_, _, _, d, _, _, e⟩ | ⟨_, _, _, d, _, _, e⟩
  · rw [e, run_estimatePosition_flag]; rfl
  · rw [e, run_estimatePosition_flag]; exact h
  · rw [e, maxLoop_of_flag _ _ _ (show (r.entered cur).generated.self.time_limit_reached = true
      from h)]
    exact h
  · rw [e, minLoop_of_flag _ _ _ (show (r.entered cur).generated.self.time_limit_reached = true
      from h)]
    exact h

theorem maxLoop_untripped (child : Run → Board → Int × Run) (f : Board → Int)
    (hval : ∀ r m, (child r m).2.self.time_limit_reached = false → (child r m).1 = f m) :
    ∀ (l : List Board) (best : Int) (r : Run),
      (maxLoop child l best r).2.self.time_limit_reached = false →
      (maxLoop child l best r).1 = l.foldl (fun b m => max b (f m)) best := by
  intro l
  induction l with
  | nil => intro best r _; rfl
  | cons m rest ih =>
    intro best r h
    rw [maxLoop] at h ⊢
    by_cases hf : r.self.time_limit_reached = true
    · rw [if_pos hf] at h
      rw [hf] at h; cases h
    · rw [if_neg hf] at h ⊢
      have hc : (child r m).2.self.time_limit_reached = false := by
        cases hcf : (child r m).2.self.time_limit_reached
        · rfl
        · rw [maxLoop_of_flag _ _ _ hcf, hcf] at h; cases h
      rw [ih _ _ h, hval r m hc]
      rfl

theorem minLoop_untripped (child : Run → Board → Int × Run) (f : Board → Int)
    (hval : ∀ r m, (child r m).2.self.time_limit_reached = false → (child r m).1 = f m) :
    ∀ (l : List Board) (best : Int) (r : Run),
      (minLoop child l best r).2.self.time_limit_reached = false →
      (minLoop child l best r).1 = l.foldl (fun b m => min b (f m)) best := by
  intro l
  induction l with
  | nil => intro best r _; rfl
  | cons m rest ih =>
    intro best r h
    rw [minLoop] at h ⊢
    by_cases hf : r.self.time_limit_reached = true
    · rw [if_pos hf] at h
      rw [hf] at h; cases h
    · rw [if_neg hf] at h ⊢
      have hc : (child r m).2.self.time_limit_reached = false := by
        cases hcf : (child r m).2.self.time_limit_reached
        · rfl
        · rw [minLoop_of_flag _ _ _ hcf, hcf] at h; cases h
      rw [ih _ _ h, hval r m hc]
      rfl

/-- When no check reports expiry during an invocation of `minimax`, the value returned is
the plain minimax value. -/
theorem minimax_untripped (expired : Nat → Bool) :
    ∀ (depth : Nat) (r : Run) (board : Board) (m : Bool) (cur : Int),
      (minimax expired depth r board m cur).2.self.time_limit_reached = false →
      (minimax expired depth r board m cur).1 = minimaxValue depth board m := by
  intro depth
  induction depth with
  | zero =>
    intro r board m cur h
    cases he : expired r.clock
    · rw [minimax_leaf expired 0 r board m cur he (Or.inl rfl), run_estimatePosition_value]
      rfl
    · rw [minimax_tripped expired 0 r board m cur he, run_estimatePosition_flag] at h
      cases h
  | succ d ih =>
    intro r board m cur h
    cases he : expired r.clock
    · by_cases hleaf : isWhiteWin board = true ∨ isBlackWin board = true
      · rw [minimax_leaf expired _ r board m cur he (Or.inr hleaf), run_estimatePosition_value]
        have : (isWhiteWin board || isBlackWin board) = true := by
          rcases hleaf with h1 | h1 <;> simp [h1]
        rw [minimaxValue, if_pos this]
      · have hw : isWhiteWin board = false := by
          cases hh : isWhiteWin board
          · rfl
          · exact absurd (Or.inl hh) hleaf
        have hb : isBlackWin board = false := by
          cases hh : isBlackWin board
          · rfl
          · exact absurd (Or.inr hh) hleaf
        have hnot : ¬ ((isWhiteWin board || isBlackWin board) = true) := by simp [hw, hb]
        cases m
        · rw [minimax_min expired d r board cur he hw hb] at h ⊢
          rw [minLoop_untripped _ (fun mv => minimaxValue d mv true)
            (fun r2 m2 hf => ih r2 m2 true (cur + 1) hf) _ _ _ h]
          rw [minimaxValue, if_neg hnot]
          rfl
        · rw [minimax_max expired d r board cur he hw hb] at h ⊢
          rw [maxLoop_untripped _ (fun mv => minimaxValue d mv false)
            (fun r2 m2 hf => ih r2 m2 false (cur + 1) hf) _ _ _ h]
          rw [minimaxValue, if_neg hnot]
          rfl
    · rw [minimax_tripped expired _ r board m cur he, run_estimatePosition_flag] at h
      cases h

theorem checkTimeLimit_fst (expired : Nat → Bool) (r : Run) :
    (checkTimeLimit expired r).1 = expired r.clock := by
  unfold checkTimeLimit
  cases expired r.clock <;> rfl

theorem checkTimeLimit_flag (expired : Nat → Bool) (r : Run) :
    (checkTimeLimit expired r).2.self.time_limit_reached =
      (expired r.clock || r.self.time_limit_reached) := by
  unfold checkTimeLimit
  cases expired r.clock <;> rfl

theorem checkTimeLimit_clock (expired : Nat → Bool) (r : Run) :
    (checkTimeLimit expired r).2.clock = r.clock + 1 := by
  unfold checkTimeLimit
  cases expired r.clock <;> rfl

theorem checkTimeLimit_trace (expired : Nat → Bool) (r : Run) :
    (checkTimeLimit expired r).2.trace = r.trace ++ [Event.check (expired r.clock)] := by
  unfold checkTimeLimit
  cases expired r.clock <;> rfl

theorem rootLoop_cons_tripped (expired : Nat → Bool) (depth : Nat) (m : Board)
    (rest : List Board) (cur : Board × Int) (r : Run) (he : expired r.clock = true) :
    rootLoop expired depth (m :: rest) cur r = (cur, false, (checkTimeLimit expired r).2) := by
  rw [rootLoop]
  simp only [checkTimeLimit_fst, he, if_true]

theorem rootLoop_cons_step (expired : Nat → Bool) (depth : Nat) (m : Board)
    (rest : List Board) (cur : Board × Int) (r : Run) (he : expired r.clock = false) :
    rootLoop expired depth (m :: rest) cur r =
      rootLoop expired depth rest
        (if (minimax expired (depth - 1) (checkTimeLimit expired r).2 m false 1).1 > cur.2 then
          (m, (minimax expired (depth - 1) (checkTimeLimit expired r).2 m false 1).1)
        else cur)
        (minimax expired (depth - 1) (checkTimeLimit expired r).2 m false 1).2 := by
  rw [rootLoop]
  simp only [checkTimeLimit_fst, he, Bool.false_eq_true, if_false]

/-- The flag `time_limit_reached` is never cleared by the loop over the root moves. -/
theorem rootLoop_flag_mono (expired : Nat → Bool) (depth : Nat) :
    ∀ (l : List Board) (cur : Board × Int) (r : Run), r.self.time_limit_reached = true →
      (rootLoop expired depth l cur r).2.2.self.time_limit_reached = true := by
  intro l
  induction l with
  | nil => intro cur r h; exact h
  | cons m rest ih =>
    intro cur r h
    have hchk : (checkTimeLimit expired r).2.self.time_limit_reached = true := by
      rw [checkTimeLimit_flag, h]; simp
    cases he : expired r.clock
    · rw [rootLoop_cons_step expired depth m rest cur r he]
      exact ih _ _ (minimax_flag_mono expired _ _ _ _ _ hchk)
    · rw [rootLoop_cons_tripped expired depth m rest cur r he]
      exact hchk

/-- When no check reports expiry during the loop over the root moves, the loop completes
and selects with the plain minimax values. -/
theorem rootLoop_untripped (expired : Nat → Bool) (depth : Nat) :
    ∀ (l : List Board) (cur : Board × Int) (r : Run),
      (rootLoop expired depth l cur r).2.2.self.time_limit_reached = false →
      (rootLoop expired depth l cur r).1 =
        selectBest (fun mv => minimaxValue (depth - 1) mv false) l cur ∧
      (rootLoop expired depth l cur r).2.1 = true := by
  intro l
  induction l with
  | nil => intro cur r _; exact ⟨rfl, rfl⟩
  | cons m rest ih =>
    intro cur r h
    cases he : expired r.clock
    · rw [rootLoop_cons_step expired depth m rest cur r he] at h ⊢
      have hm : (minimax expired (depth - 1) (checkTimeLimit expired r).2 m false
          1).2.self.time_limit_reached = false := by
        cases hf : (minimax expired (depth - 1) (checkTimeLimit expired r).2 m false
          1).2.self.time_limit_reached
        · rfl
        · rw [rootLoop_flag_mono expired depth rest _ _ hf] at h; cases h
      obtain ⟨h1, h2⟩ := ih _ _ h
      rw [h1, h2, minimax_untripped expired _ _ _ _ _ hm]
      exact ⟨rfl, rfl⟩
    · rw [rootLoop_cons_tripped expired depth m rest cur r he, checkTimeLimit_flag, he] at h
      simp at h

/-- The selection keeps the earliest move of greatest value, among the moves whose value
exceeds the initial one. -/
theorem selectBest_spec (v : Board → Int) :
    ∀ (l : List Board) (start : Board × Int),
      (selectBest v l start = start ∧ ∀ x ∈ l, v x ≤ start.2) ∨
      ∃ pre m post, l = pre ++ m :: post ∧ selectBest v l start = (m, v m) ∧ start.2 < v m ∧
        (∀ x ∈ pre, v x < v m) ∧ (∀ x ∈ post, v x ≤ v m) := by
  intro l
  induction l with
  | nil => intro start; left; exact ⟨rfl, fun x hx => by simp at hx⟩
  | cons a rest ih =>
    intro start
    have hstep : selectBest v (a :: rest) start =
        selectBest v rest (if v a > start.2 then (a, v a) else start) := rfl
    rw [hstep]
    by_cases ha : v a > start.2
    · rw [if_pos ha]
      right
      rcases ih (a, v a) with ⟨h1, h2⟩ | ⟨pre, m, post, h1, h2, h3, h4, h5⟩
      · exact ⟨[], a, rest, rfl, h1, ha, fun x hx => by simp at hx, h2⟩
      · refine ⟨a :: pre, m, post, by rw [h1]; rfl, h2, lt_trans ha h3, ?_, h5⟩
        intro x hx
        rcases List.mem_cons.1 hx with e | e
        · rw [e]; exact h3
        · exact h4 x e
    · rw [if_neg ha]
      rcases ih start with ⟨h1, h2⟩ | ⟨pre, m, post, h1, h2, h3, h4, h5⟩
      · left
        refine ⟨h1, ?_⟩
        intro x hx
        rcases List.mem_cons.1 hx with e | e
        · rw [e]; exact not_lt.1 ha
        · exact h2 x e
      · right
        refine ⟨a :: pre, m, post, by rw [h1]; rfl, h2, h3, ?_, h5⟩
        intro x hx
        rcases List.mem_cons.1 hx with e | e
        · rw [e]; exact lt_of_le_of_lt (not_lt.1 ha) h3
        · exact h4 x e

theorem findLowestSetBitLoop_ge (x : Nat) :
    ∀ fuel pos, -1 ≤ findLowestSetBitLoop x fuel pos := by
  intro fuel
  induction fuel with
  | zero => intro pos; simp [findLowestSetBitLoop]
  | succ n ih =>
    intro pos
    rw [findLowestSetBitLoop]
    split_ifs
    · simp
    · exact ih _
    · omega

theorem findKing_ge (x : Nat) : -1 ≤ findKing x := by
  unfold findKing findLowestSetBit
  split_ifs
  · simp
  · exact findLowestSetBitLoop_ge x 16 0

theorem staticScore_gt_intMin (b : Board) : intMin < staticScore b := by
  unfold staticScore Jumpy3.estimatePosition intMin
  simp only []
  have h1 := findKing_ge b.white_king
  have h2 := findKing_ge b.black_king
  split_ifs <;> simp only [] <;> omega

theorem foldl_max_ge (f : Board → Int) :
    ∀ (l : List Board) (start : Int),
      start ≤ l.foldl (fun b m => max b (f m)) start ∧
      ∀ x ∈ l, f x ≤ l.foldl (fun b m => max b (f m)) start := by
  intro l
  induction l with
  | nil => intro start; exact ⟨le_refl _, fun x hx => by simp at hx⟩
  | cons a rest ih =>
    intro start
    obtain ⟨h1, h2⟩ := ih (max start (f a))
    simp only [List.foldl_cons]
    refine ⟨le_trans (le_max_left _ _) h1, ?_⟩
    intro x hx
    rcases List.mem_cons.1 hx with e | e
    · rw [e]; exact le_trans (le_max_right _ _) h1
    · exact h2 x e

theorem foldl_min_gt (f : Board → Int) (c : Int) :
    ∀ (l : List Board) (start : Int), c < start → (∀ x ∈ l, c < f x) →
      c < l.foldl (fun b m => min b (f m)) start := by
  intro l
  induction l with
  | nil => intro start h _; exact h
  | cons a rest ih =>
    intro start h hl
    simp only [List.foldl_cons]
    apply ih
    · exact lt_min h (hl a (List.mem_cons_self _ _))
    · intro x hx; exact hl x (List.mem_cons_of_mem _ hx)

/-- The plain minimax value is never `numeric_limits<int>::min()`. -/
theorem minimaxValue_gt_intMin : ∀ (depth : Nat) (b : Board) (m : Bool),
    intMin < minimaxValue depth b m := by
  intro depth
  induction depth with
  | zero => intro b m; rw [minimaxValue]; exact staticScore_gt_intMin b
  | succ d ih =>
    intro b m
    rw [minimaxValue]
    by_cases hleaf : (isWhiteWin b || isBlackWin b) = true
    · rw [if_pos hleaf]; exact staticScore_gt_intMin b
    · rw [if_neg hleaf]
      cases m
      · simp only [Bool.false_eq_true, if_false]
        apply foldl_min_gt
        · unfold intMin intMax; omega
        · intro x _; exact ih x true
      · simp only [if_true]
        have hw : b.white_king ≠ 0 := by
          intro e
          apply hleaf
          simp [isWhiteWin, e]
        have hne := generateWhiteMoves_ne_nil b (Or.inl hw)
        obtain ⟨a, rest, hl⟩ := List.exists_cons_of_ne_nil hne
        have := (foldl_max_ge (fun mv => minimaxValue d mv false) (generateWhiteMoves b) intMin).2
          a (by rw [hl]; exact List.mem_cons_self _ _)
        exact lt_of_lt_of_le (ih a false) this

/-- C13. On a board on which White has a piece, when the pass at depth `d + 1` (any depth
from 1 on) is searched without the time governor tripping (the flag `time_limit_reached` is
still down when the loop over the root moves ends), the pass completes and the move
selected is the earliest board `m` of `generateWhiteMoves board` whose plain minimax value
`minimaxValue d m false` is the greatest over all root moves: every earlier move has a
smaller value and every later move has at most that value; the score recorded is that
value, and the depth loop goes on with this pair as `(best_move, best_value)`. -/
theorem root_selection (expired : Nat → Bool) (board : Board)
    (hpiece : board.white_king ≠ 0 ∨ board.white_pawns ≠ 0) (d : Nat) (r : Run)
    (hno : (rootLoop expired (d + 1) (generateWhiteMoves board) (board, intMin)
      r.generated).2.2.self.time_limit_reached = false) :
    (rootLoop expired (d + 1) (generateWhiteMoves board) (board, intMin) r.generated).2.1 = true ∧
    (∃ pre m post, generateWhiteMoves board = pre ++ m :: post ∧
      (rootLoop expired (d + 1) (generateWhiteMoves board) (board, intMin) r.generated).1 =
        (m, minimaxValue d m false) ∧
      (∀ x ∈ pre, minimaxValue d x false < minimaxValue d m false) ∧
      (∀ x ∈ post, minimaxValue d x false ≤ minimaxValue d m false)) ∧
    (∀ fuel best, deepeningLoop expired board (fuel + 1) (d + 1) best r =
      deepeningLoop expired board fuel (d + 1 + 1)
        (rootLoop expired (d + 1) (generateWhiteMoves board) (board, intMin) r.generated).1
        (rootLoop expired (d + 1) (generateWhiteMoves board) (board, intMin) r.generated).2.2) := by
  obtain ⟨h1, h2⟩ := rootLoop_untripped expired (d + 1) _ _ _ hno
  have hd : d + 1 - 1 = d := by omega
  rw [hd] at h1
  refine ⟨h2, ?_, ?_⟩
  · rcases selectBest_spec (fun mv => minimaxValue d mv false) (generateWhiteMoves board)
      (board, intMin) with ⟨_, hall⟩ | ⟨pre, m, post, e1, e2, _, e4, e5⟩
    · obtain ⟨a, rest, hl⟩ := List.exists_cons_of_ne_nil (generateWhiteMoves_ne_nil board hpiece)
      have := hall a (by rw [hl]; exact List.mem_cons_self _ _)
      exact absurd this (not_le.2 (minimaxValue_gt_intMin d a false))
    · exact ⟨pre, m, post, e1, by rw [h1, e2], e4, e5⟩
  · intro fuel best
    have hflag : r.self.time_limit_reached = false := by
      cases hf : r.self.time_limit_reached
      · rfl
      · have := rootLoop_flag_mono expired (d + 1) (generateWhiteMoves board) (board, intMin)
          r.generated hf
        rw [this] at hno; cases hno
    rw [deepeningLoop]
    simp only [hflag, Bool.false_eq_true, if_false]
    have h3 : (rootLoop expired (d + 1) (generateWhiteMoves board) (board, intMin)
        { self := r.self, clock := r.clock, trace := r.trace ++ [Event.generate] }).2.1 = true := h2
    rw [if_pos h3]
    rfl

/-- Instance of C13 on `xxxxxWwxbBxxxxxx` at depth 2 with a governor that does not trip
during the pass. -/
theorem root_selection_witness :
    ((⟨64, 32, 256, 512⟩ : Board).white_king ≠ 0 ∨ (⟨64, 32, 256, 512⟩ : Board).white_pawns ≠ 0) ∧
    (rootLoop (tripsAt 100) (1 + 1) (generateWhiteMoves ⟨64, 32, 256, 512⟩)
      (⟨64, 32, 256, 512⟩, intMin)
      (Run.generated ⟨⟨0, false, 15, 0⟩, 0, []⟩)).2.2.self.time_limit_reached = false ∧
    (rootLoop (tripsAt 100) (1 + 1) (generateWhiteMoves ⟨64, 32, 256, 512⟩)
      (⟨64, 32, 256, 512⟩, intMin) (Run.generated ⟨⟨0, false, 15, 0⟩, 0, []⟩)).2.1 = true ∧
    ∃ pre m post, generateWhiteMoves ⟨64, 32, 256, 512⟩ = pre ++ m :: post ∧
      (rootLoop (tripsAt 100) (1 + 1) (generateWhiteMoves ⟨64, 32, 256, 512⟩)
        (⟨64, 32, 256, 512⟩, intMin) (Run.generated ⟨⟨0, false, 15, 0⟩, 0, []⟩)).1 =
        (m, minimaxValue 1 m false) ∧
      (∀ x ∈ pre, minimaxValue 1 x false < minimaxValue 1 m false) ∧
      (∀ x ∈ post, minimaxValue 1 x false ≤ minimaxValue 1 m false) :=
  ⟨by decide, by decide!,
    (root_selection (tripsAt 100) ⟨64, 32, 256, 512⟩ (by decide) 1 ⟨⟨0, false, 15, 0⟩, 0, []⟩
      (by decide!)).1,
    (root_selection (tripsAt 100) ⟨64, 32, 256, 512⟩ (by decide) 1 ⟨⟨0, false, 15, 0⟩, 0, []⟩
      (by decide!)).2.1⟩

/-! ## The search: bounds, clock and termination -/

theorem findLowestSetBitLoop_le (x : Nat) :
    ∀ fuel pos, pos ≤ 15 → findLowestSetBitLoop x fuel pos ≤ 15 := by
  intro fuel
  induction fuel with
  | zero => intro pos _; simp [findLowestSetBitLoop]
  | succ n ih =>
    intro pos hp
    rw [findLowestSetBitLoop]
    split_ifs with h1 h2
    · simp
    · exact ih _ (by omega)
    · omega

theorem findKing_le (x : Nat) : findKing x ≤ 15 := by
  unfold findKing findLowestSetBit
  split_ifs
  · simp
  · exact findLowestSetBitLoop_le x 16 0 (by omega)

theorem staticScore_le_intMax (b : Board) : staticScore b ≤ intMax := by
  unfold staticScore Jumpy3.estimatePosition intMax
  simp only []
  have h1 := findKing_le b.white_king
  have h2 := findKing_le b.black_king
  split_ifs <;> simp only [] <;> omega

/-- Under a monotone governor the value of `minimax` on any board exceeds
`numeric_limits<int>::min()`, and the flag stays consistent with the checks. -/
theorem minimax_bounds {expired : Nat → Bool} (hmono : MonotoneGovernor expired)
    (depth : Nat) (r : Run) (board : Board) (m : Bool) (cur : Int)
    (hc : r.consistent expired) :
    (intMin < (minimax expired depth r board m cur).1 ∧
      (minimax expired depth r board m cur).1 ≤ intMax) ∧
    (minimax expired depth r board m cur).2.consistent expired := by
  apply minimax_inv hmono (fun v => intMin < v ∧ v ≤ intMax) (fun _ => True) _ _ _ _ _ _ _
    depth r board m cur hc trivial
  · intro a b ha hb
    exact ⟨lt_of_lt_of_le ha.1 (le_max_left _ _), max_le ha.2 hb.2⟩
  · intro a b ha hb
    exact ⟨lt_min ha.1 hb.1, le_trans (min_le_left _ _) ha.2⟩
  · intro a ha; exact le_of_lt ha.1
  · intro a ha; exact ha.2
  · intro b _; exact ⟨staticScore_gt_intMin b, staticScore_le_intMax b⟩
  · intro b _ h1 _
    exact ⟨generateWhiteMoves_ne_nil b (Or.inl ((isWhiteWin_false_iff b).1 h1)),
      fun _ _ => trivial⟩
  · intro b _ _ _
    refine ⟨Or.inr ⟨?_, le_refl _⟩, fun _ _ => trivial⟩
    unfold intMin intMax; omega

theorem maxLoop_frame (expired : Nat → Bool) (child : Run → Board → Int × Run)
    (hchild : ∀ r m, r.alert expired →
      (child r m).2.alert expired ∧ r.clock ≤ (child r m).2.clock) :
    ∀ (l : List Board) (best : Int) (r : Run), r.alert expired →
      (maxLoop child l best r).2.alert expired ∧ r.clock ≤ (maxLoop child l best r).2.clock := by
  intro l
  induction l with
  | nil => intro best r h; exact ⟨h, le_refl _⟩
  | cons m rest ih =>
    intro best r h
    rw [maxLoop]
    split_ifs
    · exact ⟨h, le_refl _⟩
    · obtain ⟨h1, h2⟩ := hchild r m h
      obtain ⟨h3, h4⟩ := ih (max best (child r m).1) _ h1
      exact ⟨h3, le_trans h2 h4⟩

theorem minLoop_frame (expired : Nat → Bool) (child : Run → Board → Int × Run)
    (hchild : ∀ r m, r.alert expired →
      (child r m).2.alert expired ∧ r.clock ≤ (child r m).2.clock) :
    ∀ (l : List Board) (best : Int) (r : Run), r.alert expired →
      (minLoop child l best r).2.alert expired ∧ r.clock ≤ (minLoop child l best r).2.clock := by
  intro l
  induction l with
  | nil => intro best r h; exact ⟨h, le_refl _⟩
  | cons m rest ih =>
    intro best r h
    rw [minLoop]
    split_ifs
    · exact ⟨h, le_refl _⟩
    · obtain ⟨h1, h2⟩ := hchild r m h
      obtain ⟨h3, h4⟩ := ih (min best (child r m).1) _ h1
      exact ⟨h3, le_trans h2 h4⟩

theorem alert_tripped (expired : Nat → Bool) (r : Run) : r.tripped.alert expired :=
  fun _ _ _ => rfl

theorem alert_entered (expired : Nat → Bool) {r : Run} (h : r.alert expired)
    (he : expired r.clock = false) (cur : Int) : (r.entered cur).alert expired := by
  intro n hn hen
  have hn2 : n < r.clock + 1 := hn
  by_cases e : n = r.clock
  · rw [e, he] at hen; cases hen
  · exact h n (by omega) hen

theorem alert_estimatePosition (expired : Nat → Bool) {r : Run} (h : r.alert expired)
    (board : Board) : (r.estimatePosition board).2.alert expired := by
  intro n hn hen
  rw [run_estimatePosition_flag]
  exact h n hn hen

/-- An invocation of `minimax` makes at least one check, and keeps the flag set once a
check has reported expiry. -/
theorem minimax_frame (expired : Nat → Bool) :
    ∀ (depth : Nat) (r : Run) (board : Board) (m : Bool) (cur : Int), r.alert expired →
      (minimax expired depth r board m cur).2.alert expired ∧
        r.clock < (minimax expired depth r board m cur).2.clock := by
  intro depth
  induction depth with
  | zero =>
    intro r board m cur h
    rcases minimax_cases expired 0 r board m cur with ⟨he, e⟩ | ⟨he, e⟩ |
      ⟨_, _, _, d, hd, _⟩ | ⟨_, _, _, d, hd, _⟩
    · rw [e]
      exact ⟨alert_estimatePosition expired (alert_tripped expired r) _, Nat.lt_succ_self _⟩
    · rw [e]
      exact ⟨alert_estimatePosition expired (alert_entered expired h he cur) _,
        Nat.lt_succ_self _⟩
    · cases hd
    · cases hd
  | succ n ih =>
    intro r board m cur h
    rcases minimax_cases expired (n + 1) r board m cur with ⟨he, e⟩ | ⟨he, e⟩ |
      ⟨he, _, _, d, hd, _, e⟩ | ⟨he, _, _, d, hd, _, e⟩
    · rw [e]
      exact ⟨alert_estimatePosition expired (alert_tripped expired r) _, Nat.lt_succ_self _⟩
    · rw [e]
      exact ⟨alert_estimatePosition expired (alert_entered expired h he cur) _,
        Nat.lt_succ_self _⟩
    · have hd2 : d = n := by omega
      subst hd2
      rw [e]
      obtain ⟨h1, h2⟩ := maxLoop_frame expired _
        (fun r2 m2 ha => ⟨(ih r2 m2 false (cur + 1) ha).1,
          le_of_lt (ih r2 m2 false (cur + 1) ha).2⟩)
        (generateWhiteMoves board) intMin (r.entered cur).generated
        (alert_entered expired h he cur)
      exact ⟨h1, lt_of_lt_of_le (Nat.lt_succ_self _) h2⟩
    · have hd2 : d = n := by omega
      subst hd2
      rw [e]
      obtain ⟨h1, h2⟩ := minLoop_frame expired _
        (fun r2 m2 ha => ⟨(ih r2 m2 true (cur + 1) ha).1,
          le_of_lt (ih r2 m2 true (cur + 1) ha).2⟩)
        (generateBlackMoves board) intMax (r.entered cur).generated
        (alert_entered expired h he cur)
      exact ⟨h1, lt_of_lt_of_le (Nat.lt_succ_self _) h2⟩

theorem consistent_check (expired : Nat → Bool) {r : Run} (hc : r.consistent expired) :
    (checkTimeLimit expired r).2.consistent expired := by
  intro hf
  rw [checkTimeLimit_clock]
  rw [checkTimeLimit_flag] at hf
  cases he : expired r.clock
  · rw [he] at hf
    obtain ⟨n, hn, hen⟩ := hc (by simpa using hf)
    exact ⟨n, by omega, hen⟩
  · exact ⟨r.clock, Nat.lt_succ_self _, he⟩

theorem alert_check (expired : Nat → Bool) {r : Run} (h : r.alert expired) :
    (checkTimeLimit expired r).2.alert expired := by
  intro n hn hen
  rw [checkTimeLimit_clock] at hn
  rw [checkTimeLimit_flag]
  by_cases e : n = r.clock
  · rw [e] at hen; simp [hen]
  · simp [h n (by omega) hen]

/-- The loop over the root moves makes at least one check when there is a move, and keeps
the flag set once a check has reported expiry. -/
theorem rootLoop_frame (expired : Nat → Bool) (depth : Nat) :
    ∀ (l : List Board) (cur : Board × Int) (r : Run), r.alert expired →
      (rootLoop expired depth l cur r).2.2.alert expired ∧
      r.clock ≤ (rootLoop expired depth l cur r).2.2.clock ∧
      (l ≠ [] → r.clock < (rootLoop expired depth l cur r).2.2.clock) := by
  intro l
  induction l with
  | nil => intro cur r h; exact ⟨h, le_refl _, fun hne => absurd rfl hne⟩
  | cons m rest ih =>
    intro cur r h
    have hchk := alert_check expired h
    have hclk := checkTimeLimit_clock expired r
    cases he : expired r.clock
    · rw [rootLoop_cons_step expired depth m rest cur r he]
      obtain ⟨h1, h2⟩ := minimax_frame expired (depth - 1) _ m false 1 hchk
      obtain ⟨h3, h4, _⟩ := ih (if (minimax expired (depth - 1) (checkTimeLimit expired r).2 m
        false 1).1 > cur.2 then
          (m, (minimax expired (depth - 1) (checkTimeLimit expired r).2 m false 1).1)
        else cur) _ h1
      exact ⟨h3, by omega, fun _ => by omega⟩
    · rw [rootLoop_cons_tripped expired depth m rest cur r he]
      have e : (cur, false, (checkTimeLimit expired r).2).2.2.clock = r.clock + 1 := hclk
      exact ⟨hchk, by omega, fun _ => by omega⟩

theorem rootLoop_consistent {expired : Nat → Bool} (hmono : MonotoneGovernor expired)
    (depth : Nat) :
    ∀ (l : List Board) (cur : Board × Int) (r : Run), r.consistent expired →
      (rootLoop expired depth l cur r).2.2.consistent expired := by
  intro l
  induction l with
  | nil => intro cur r h; exact h
  | cons m rest ih =>
    intro cur r h
    have hchk := consistent_check expired h
    cases he : expired r.clock
    · rw [rootLoop_cons_step expired depth m rest cur r he]
      exact ih _ _ (minimax_bounds hmono (depth - 1) _ m false 1 hchk).2
    · rw [rootLoop_cons_tripped expired depth m rest cur r he]
      exact hchk

/-- The pair kept by the loop over the root moves is the initial one or a root move. -/
theorem rootLoop_result (expired : Nat → Bool) (depth : Nat) :
    ∀ (l : List Board) (cur : Board × Int) (r : Run),
      (rootLoop expired depth l cur r).1 = cur ∨ (rootLoop expired depth l cur r).1.1 ∈ l := by
  intro l
  induction l with
  | nil => intro cur r; left; rfl
  | cons m rest ih =>
    intro cur r
    cases he : expired r.clock
    · rw [rootLoop_cons_step expired depth m rest cur r he]
      rcases ih (if (minimax expired (depth - 1) (checkTimeLimit expired r).2 m
        false 1).1 > cur.2 then
          (m, (minimax expired (depth - 1) (checkTimeLimit expired r).2 m false 1).1)
        else cur) (minimax expired (depth - 1) (checkTimeLimit expired r).2 m false 1).2
        with h | h
      · rw [h]
        split_ifs
        · right; exact List.mem_cons_self _ _
        · left; rfl
      · right; exact List.mem_cons_of_mem _ h
    · rw [rootLoop_cons_tripped expired depth m rest cur r he]
      left; rfl

/-- A pass that is not completed leaves the flag set. -/
theorem rootLoop_incomplete (expired : Nat → Bool) (depth : Nat) :
    ∀ (l : List Board) (cur : Board × Int) (r : Run),
      (rootLoop expired depth l cur r).2.1 = false →
      (rootLoop expired depth l cur r).2.2.self.time_limit_reached = true := by
  intro l
  induction l with
  | nil => intro cur r h; cases h
  | cons m rest ih =>
    intro cur r h
    cases he : expired r.clock
    · rw [rootLoop_cons_step expired depth m rest cur r he] at h ⊢
      exact ih _ _ h
    · rw [rootLoop_cons_tripped expired depth m rest cur r he, checkTimeLimit_flag, he]
      rfl

/-- Under a monotone governor a completed pass over a non-empty list of root moves, started
from the sentinel, selects a root move. -/
theorem rootLoop_member {expired : Nat → Bool} (hmono : MonotoneGovernor expired)
    (depth : Nat) (l : List Board) (hne : l ≠ []) (b0 : Board) (r : Run)
    (hc : r.consistent expired)
    (hdone : (rootLoop expired depth l (b0, intMin) r).2.1 = true) :
    (rootLoop expired depth l (b0, intMin) r).1.1 ∈ l := by
  obtain ⟨m, rest, rfl⟩ := List.exists_cons_of_ne_nil hne
  cases he : expired r.clock
  · rw [rootLoop_cons_step expired depth m rest _ r he] at hdone ⊢
    have hv := (minimax_bounds hmono (depth - 1) (checkTimeLimit expired r).2 m false 1
      (consistent_check expired hc)).1.1
    have hgt : (minimax expired (depth - 1) (checkTimeLimit expired r).2 m false 1).1 >
        (b0, intMin).2 := hv
    rw [if_pos hgt]
    rcases rootLoop_result expired depth rest
      (m, (minimax expired (depth - 1) (checkTimeLimit expired r).2 m false 1).1)
      (minimax expired (depth - 1) (checkTimeLimit expired r).2 m false 1).2 with h | h
    · rw [h]; exact List.mem_cons_self _ _
    · exact List.mem_cons_of_mem _ h
  · rw [rootLoop_cons_tripped expired depth m rest _ r he] at hdone
    cases hdone

theorem deepeningLoop_succ (expired : Nat → Bool) (board : Board) (fuel depth : Nat)
    (best : Board × Int) (r : Run) :
    deepeningLoop expired board (fuel + 1) depth best r =
      if r.self.time_limit_reached = true then some (best, r)
      else if (rootLoop expired depth (generateWhiteMoves board) (board, intMin)
          r.generated).2.1 = true then
        deepeningLoop expired board fuel (depth + 1)
          (rootLoop expired depth (generateWhiteMoves board) (board, intMin) r.generated).1
          (rootLoop expired depth (generateWhiteMoves board) (board, intMin) r.generated).2.2
      else some (best,
        (rootLoop expired depth (generateWhiteMoves board) (board, intMin) r.generated).2.2) := by
  rw [deepeningLoop]
  rfl

/-- Once the pair `(best_move, best_value)` holds a root move, the move returned is a root
move. -/
theorem deepeningLoop_member {expired : Nat → Bool} (hmono : MonotoneGovernor expired)
    (board : Board) (hne : generateWhiteMoves board ≠ []) :
    ∀ (fuel depth : Nat) (best : Board × Int) (r : Run), r.consistent expired →
      best.1 ∈ generateWhiteMoves board →
      ∀ res, deepeningLoop expired board fuel depth best r = some res →
        res.1.1 ∈ generateWhiteMoves board := by
  intro fuel
  induction fuel with
  | zero => intro depth best r _ _ res h; simp [deepeningLoop] at h
  | succ n ih =>
    intro depth best r hc hb res h
    rw [deepeningLoop_succ] at h
    split_ifs at h with h1 h2
    · cases h; exact hb
    · exact ih _ _ _ (rootLoop_consistent hmono depth _ _ _ (consistent_generated expired hc))
        (rootLoop_member hmono depth _ hne board _ (consistent_generated expired hc) h2) res h
    · cases h; exact hb

/-- With a governor that reports expiry at check `T`, the depth loop is left within
`T + 2` iterations when White has a move. -/
theorem deepeningLoop_terminates (expired : Nat → Bool) (board : Board)
    (hne : generateWhiteMoves board ≠ []) (T : Nat) (hT : expired T = true) :
    ∀ (fuel depth : Nat) (best : Board × Int) (r : Run), r.alert expired → 1 ≤ fuel →
      (r.self.time_limit_reached = false → T + 2 ≤ fuel + r.clock) →
      (deepeningLoop expired board fuel depth best r).isSome = true := by
  intro fuel
  induction fuel with
  | zero => intro depth best r _ h; omega
  | succ n ih =>
    intro depth best r ha _ hfuel
    rw [deepeningLoop_succ]
    split_ifs with h1 h2
    · rfl
    · have hflag : r.self.time_limit_reached = false := by simpa using h1
      have hclock : r.clock ≤ T := by
        by_contra hlt
        have := ha T (by omega) hT
        rw [hflag] at this; cases this
      obtain ⟨f1, _, f3⟩ := rootLoop_frame expired depth (generateWhiteMoves board)
        (board, intMin) r.generated ha
      have f4 : r.clock < (rootLoop expired depth (generateWhiteMoves board) (board, intMin)
        r.generated).2.2.clock := f3 hne
      have hf := hfuel hflag
      apply ih _ _ _ f1 (by omega)
      intro _
      omega
    · rfl

/-! ## The board returned by `findBestMoveWithTimeLimit` -/

theorem consistent_start (expired : Nat → Bool) (self : Jumpy3) :
    (Run.start self).consistent expired :=
  fun h => Bool.noConfusion h

theorem alert_start (expired : Nat → Bool) (self : Jumpy3) : (Run.start self).alert expired :=
  fun n hn _ => absurd hn (Nat.not_lt_zero n)

/-- C14, as the code has it: for a board on which White has a piece and a monotone time
governor, `findBestMoveWithTimeLimit` returns as soon as the governor reports expiry at some
check; the board returned is a member of `generateWhiteMoves board` when the pass at depth 1
completes, and it is the unchanged input board, with the score
`numeric_limits<int>::min()`, when that pass does not complete, which is the case when the
limit has already expired at the first check. -/
theorem returned_board (expired : Nat → Bool) (hmono : MonotoneGovernor expired)
    (board : Board) (hpiece : board.white_king ≠ 0 ∨ board.white_pawns ≠ 0) (self : Jumpy3) :
    ((∃ T, expired T = true) → ∃ fuel0, ∀ fuel, fuel0 ≤ fuel →
      (findBestMoveWithTimeLimit expired fuel self board).isSome = true) ∧
    (∀ fuel mv sc r, findBestMoveWithTimeLimit expired fuel self board = some ((mv, sc), r) →
      ((rootLoop expired 1 (generateWhiteMoves board) (board, intMin)
          (Run.start self).generated).2.1 = true → mv ∈ generateWhiteMoves board) ∧
      ((rootLoop expired 1 (generateWhiteMoves board) (board, intMin)
          (Run.start self).generated).2.1 = false → mv = board ∧ sc = intMin)) ∧
    (expired 0 = true →
      (rootLoop expired 1 (generateWhiteMoves board) (board, intMin)
        (Run.start self).generated).2.1 = false) := by
  have hne := generateWhiteMoves_ne_nil board hpiece
  refine ⟨?_, ?_, ?_⟩
  · rintro ⟨T, hT⟩
    refine ⟨T + 2, fun fuel hf => ?_⟩
    unfold findBestMoveWithTimeLimit
    apply deepeningLoop_terminates expired board hne T hT fuel 1 _ _ (alert_start expired self)
      (by omega)
    intro _
    have : (Run.start self).clock = 0 := rfl
    omega
  · intro fuel mv sc r h
    unfold findBestMoveWithTimeLimit at h
    cases fuel with
    | zero => simp [deepeningLoop] at h
    | succ n =>
      rw [deepeningLoop_succ] at h
      have hflag : ¬ (Run.start self).self.time_limit_reached = true := by
        intro e; exact Bool.noConfusion e
      rw [if_neg hflag] at h
      have hcg := consistent_generated expired (consistent_start expired self)
      constructor
      · intro hdone
        rw [if_pos hdone] at h
        exact deepeningLoop_member hmono board hne n _ _ _
          (rootLoop_consistent hmono 1 _ _ _ hcg)
          (rootLoop_member hmono 1 _ hne board _ hcg hdone) _ h
      · intro hnot
        have hn2 : ¬ (rootLoop expired 1 (generateWhiteMoves board) (board, intMin)
            (Run.start self).generated).2.1 = true := by rw [hnot]; simp
        rw [if_neg hn2] at h
        cases h
        exact ⟨rfl, rfl⟩
  · intro h0
    obtain ⟨m, rest, hl⟩ := List.exists_cons_of_ne_nil hne
    rw [hl, rootLoop_cons_tripped expired 1 m rest _ _ h0]

/-- Instance of the amended C14 on `xxxxxWwxbBxxxxxx`: with the governor tripping at its
tenth check the search returns a generated board, with the governor tripping at its first
check it returns the input board. -/
theorem returned_board_witness :
    MonotoneGovernor (tripsAt 9) ∧
    ((⟨64, 32, 256, 512⟩ : Board).white_king ≠ 0 ∨ (⟨64, 32, 256, 512⟩ : Board).white_pawns ≠ 0) ∧
    (∃ fuel0, ∀ fuel, fuel0 ≤ fuel →
      (findBestMoveWithTimeLimit (tripsAt 9) fuel ⟨0, false, 15, 0⟩ ⟨64, 32, 256, 512⟩).isSome
        = true) ∧
    (∀ fuel mv sc r, findBestMoveWithTimeLimit (tripsAt 9) fuel ⟨0, false, 15, 0⟩
        ⟨64, 32, 256, 512⟩ = some ((mv, sc), r) → mv ∈ generateWhiteMoves ⟨64, 32, 256, 512⟩) ∧
    (∀ fuel mv sc r, findBestMoveWithTimeLimit (tripsAt 0) fuel ⟨0, false, 15, 0⟩
        ⟨64, 32, 256, 512⟩ = some ((mv, sc), r) → mv = ⟨64, 32, 256, 512⟩ ∧ sc = intMin) :=
  ⟨tripsAt_monotone 9, by decide,
    (returned_board (tripsAt 9) (tripsAt_monotone 9) ⟨64, 32, 256, 512⟩ (by decide)
      ⟨0, false, 15, 0⟩).1 ⟨9, by decide⟩,
    fun fuel mv sc r h =>
      ((returned_board (tripsAt 9) (tripsAt_monotone 9) ⟨64, 32, 256, 512⟩ (by decide)
        ⟨0, false, 15, 0⟩).2.1 fuel mv sc r h).1 (by decide!),
    fun fuel mv sc r h =>
      ((returned_board (tripsAt 0) (tripsAt_monotone 0) ⟨64, 32, 256, 512⟩ (by decide)
        ⟨0, false, 15, 0⟩).2.1 fuel mv sc r h).2
        ((returned_board (tripsAt 0) (tripsAt_monotone 0) ⟨64, 32, 256, 512⟩ (by decide)
          ⟨0, false, 15, 0⟩).2.2 (by decide))⟩

/-- C14 as stated fails: on `xxxxxWwxbBxxxxxx`, on which White has two pieces, with a time
limit that has already expired at the first check, `findBestMoveWithTimeLimit` returns the
input board itself with the score `numeric_limits<int>::min()`, and the input board is not
a member of `generateWhiteMoves`. -/
theorem returned_board_counterexample :
    stringToBoard "xxxxxWwxbBxxxxxx" = ⟨64, 32, 256, 512⟩ ∧
    ((⟨64, 32, 256, 512⟩ : Board).white_king ≠ 0 ∨ (⟨64, 32, 256, 512⟩ : Board).white_pawns ≠ 0) ∧
    (findBestMoveWithTimeLimit (tripsAt 0) 1 ⟨0, false, 0, 0⟩ ⟨64, 32, 256, 512⟩).map
        (fun x => x.1) = some (⟨64, 32, 256, 512⟩, intMin) ∧
    (⟨64, 32, 256, 512⟩ : Board) ∉ generateWhiteMoves ⟨64, 32, 256, 512⟩ := by
  decide!

/-! ## A board without a White piece -/

theorem generateWhiteMoves_nil (board : Board) (h1 : board.white_king = 0)
    (h2 : board.white_pawns = 0) : generateWhiteMoves board = [] := by
  unfold generateWhiteMoves
  simp [h1, h2, whitePawnsLoop]

/-- When White has no move, no iteration of the depth loop makes a check, and the loop is
not left however many iterations are allowed. -/
theorem deepeningLoop_no_moves (expired : Nat → Bool) (board : Board)
    (hnil : generateWhiteMoves board = []) :
    ∀ (fuel depth : Nat) (best : Board × Int) (r : Run), r.self.time_limit_reached = false →
      deepeningLoop expired board fuel depth best r = none := by
  intro fuel
  induction fuel with
  | zero => intro depth best r _; rfl
  | succ n ih =>
    intro depth best r h
    rw [deepeningLoop_succ, hnil]
    have h1 : ¬ r.self.time_limit_reached = true := by rw [h]; simp
    rw [if_neg h1]
    have h2 : (rootLoop expired depth [] (board, intMin) r.generated).2.1 = true := rfl
    rw [if_pos h2]
    exact ih _ _ _ h

/-- C15 fails on the code: on `xxxxxxxxxxxxxxxB`, a board on which White has no piece, the
root move list is empty, no call of `checkTimeLimit` is ever made, and for every time
governor and every bound on the number of iterations the depth loop of
`findBestMoveWithTimeLimit` has not been left: the function does not return. -/
theorem no_white_piece_never_returns :
    stringToBoard "xxxxxxxxxxxxxxxB" = ⟨0, 0, 0, 32768⟩ ∧
    generateWhiteMoves ⟨0, 0, 0, 32768⟩ = [] ∧
    ∀ (expired : Nat → Bool) (fuel : Nat) (self : Jumpy3),
      findBestMoveWithTimeLimit expired fuel self ⟨0, 0, 0, 32768⟩ = none :=
  ⟨by decide, by decide, fun expired fuel self =>
    deepeningLoop_no_moves expired ⟨0, 0, 0, 32768⟩ (by decide) fuel 1 _ (Run.start self) rfl⟩

/-! ## A trip of the governor inside the last root move -/

/-- C12 fails on the code. On `xxxxxWwxbBxxxxxx` White has two moves. With the (monotone)
governor that first reports expiry at its tenth check, the pass at depth 1 makes checks
0 to 3, none of which trips, and selects the first move with score 1. In the pass at depth 2
the trip occurs at check 9, inside the `minimax` call of the last root move: that call
returns the static score -1 of the move, the loop over the root moves ends with
`depth_completed` still true, and `findBestMoveWithTimeLimit` returns the second move with
score -1, a result of the interrupted depth 2, instead of the result of depth 1 (a complete
depth 2 would give the first move with score -3). -/
theorem partial_depth_leaks :
    MonotoneGovernor (tripsAt 9) ∧
    (stringToBoard "xxxxxWwxbBxxxxxx" = ⟨64, 32, 256, 512⟩ ∧
    generateWhiteMoves ⟨64, 32, 256, 512⟩ = [⟨64, 128, 256, 512⟩, ⟨128, 32, 256, 512⟩] ∧
    (rootLoop (tripsAt 9) 1 (generateWhiteMoves ⟨64, 32, 256, 512⟩) (⟨64, 32, 256, 512⟩, intMin)
      (Run.start ⟨0, false, 15, 0⟩).generated).1 = (⟨64, 128, 256, 512⟩, 1) ∧
    (rootLoop (tripsAt 9) 1 (generateWhiteMoves ⟨64, 32, 256, 512⟩) (⟨64, 32, 256, 512⟩, intMin)
      (Run.start ⟨0, false, 15, 0⟩).generated).2.1 = true ∧
    (rootLoop (tripsAt 9) 1 (generateWhiteMoves ⟨64, 32, 256, 512⟩) (⟨64, 32, 256, 512⟩, intMin)
      (Run.start ⟨0, false, 15, 0⟩).generated).2.2.clock = 4 ∧
    (rootLoop (tripsAt 9) 1 (generateWhiteMoves ⟨64, 32, 256, 512⟩) (⟨64, 32, 256, 512⟩, intMin)
      (Run.start ⟨0, false, 15, 0⟩).generated).2.2.self.time_limit_reached = false ∧
    (generateWhiteMoves ⟨64, 32, 256, 512⟩).map (fun m => minimaxValue 1 m false) = [-3, -4] ∧
    (findBestMoveWithTimeLimit (tripsAt 9) 3 ⟨0, false, 15, 0⟩ ⟨64, 32, 256, 512⟩).map
        (fun x => (x.1, x.2.trace)) =
      some ((⟨128, 32, 256, 512⟩, -1),
        [Event.generate,
         Event.check false, Event.minimax, Event.check false, Event.evaluate,
         Event.check false, Event.minimax, Event.check false, Event.evaluate,
         Event.generate,
         Event.check false, Event.minimax, Event.check false, Event.generate,
           Event.minimax, Event.check false, Event.evaluate,
           Event.minimax, Event.check false, Event.evaluate,
         Event.check false, Event.minimax, Event.check true, Event.evaluate])) :=
  ⟨tripsAt_monotone 9, by decide!⟩

/-! ## The order of the steps of a search that is stopped by the governor -/

theorem quiet_nil : Quiet [] := ⟨by simp, by simp⟩

theorem quiet_append {a b : List Event} (ha : Quiet a) (hb : Quiet b) : Quiet (a ++ b) := by
  refine ⟨?_, ?_⟩
  · intro h
    rcases List.mem_append.1 h with h1 | h1
    · exact ha.1 h1
    · exact hb.1 h1
  · rw [List.getLast?_append]
    cases hbl : b.getLast? with
    | none => simpa using ha.2
    | some e =>
      have := hb.2
      rw [hbl] at this
      simpa using this

theorem stoppedWith_after_quiet {tails : List (List Event)} {a t : List Event} (ha : Quiet a)
    (h : StoppedWith tails t) : StoppedWith tails (a ++ t) := by
  obtain ⟨t0, s, hq, hs, rfl⟩ := h
  exact ⟨a ++ t0, s, quiet_append ha hq, hs, (List.append_assoc _ _ _).symm⟩

theorem outcome_refl (tails : List (List Event)) {r : Run}
    (h : r.self.time_limit_reached = false) : Outcome tails r r :=
  ⟨[], (List.append_nil _).symm, Or.inl ⟨h, quiet_nil⟩⟩

theorem outcome_after_quiet {tails : List (List Event)} {r r1 r2 : Run} {a : List Event}
    (h1 : r1.trace = r.trace ++ a) (ha : Quiet a) (h : Outcome tails r1 r2) :
    Outcome tails r r2 := by
  obtain ⟨t, ht, hcase⟩ := h
  refine ⟨a ++ t, by rw [ht, h1, List.append_assoc], ?_⟩
  rcases hcase with ⟨hf, hq⟩ | ⟨hf, hs⟩
  · exact Or.inl ⟨hf, quiet_append ha hq⟩
  · exact Or.inr ⟨hf, stoppedWith_after_quiet ha hs⟩

theorem maxLoop_outcome (tails : List (List Event)) (child : Run → Board → Int × Run)
    (hchild : ∀ r m, r.self.time_limit_reached = false → Outcome tails r (child r m).2) :
    ∀ (l : List Board) (best : Int) (r : Run), r.self.time_limit_reached = false →
      Outcome tails r (maxLoop child l best r).2 := by
  intro l
  induction l with
  | nil => intro best r h; exact outcome_refl tails h
  | cons m rest ih =>
    intro best r h
    rw [maxLoop, if_neg (by rw [h]; simp)]
    obtain ⟨t, ht, hcase⟩ := hchild r m h
    rcases hcase with ⟨hf, hq⟩ | ⟨hf, hs⟩
    · exact outcome_after_quiet ht hq (ih _ _ hf)
    · rw [maxLoop_of_flag _ _ _ hf]
      exact ⟨t, ht, Or.inr ⟨hf, hs⟩⟩

theorem minLoop_outcome (tails : List (List Event)) (child : Run → Board → Int × Run)
    (hchild : ∀ r m, r.self.time_limit_reached = false → Outcome tails r (child r m).2) :
    ∀ (l : List Board) (best : Int) (r : Run), r.self.time_limit_reached = false →
      Outcome tails r (minLoop child l best r).2 := by
  intro l
  induction l with
  | nil => intro best r h; exact outcome_refl tails h
  | cons m rest ih =>
    intro best r h
    rw [minLoop, if_neg (by rw [h]; simp)]
    obtain ⟨t, ht, hcase⟩ := hchild r m h
    rcases hcase with ⟨hf, hq⟩ | ⟨hf, hs⟩
    · exact outcome_after_quiet ht hq (ih _ _ hf)
    · rw [minLoop_of_flag _ _ _ hf]
      exact ⟨t, ht, Or.inr ⟨hf, hs⟩⟩

theorem outcome_tripped (r : Run) (board : Board) :
    Outcome minimaxTails r (r.tripped.estimatePosition board).2 := by
  refine ⟨[Event.minimax, Event.check true, Event.evaluate], ?_, Or.inr ⟨?_, ?_⟩⟩
  · rw [run_estimatePosition_trace]
    simp [Run.tripped]
  · rw [run_estimatePosition_flag]; rfl
  · exact ⟨[], _, quiet_nil, List.mem_singleton.2 rfl, rfl⟩

theorem outcome_leaf (r : Run) (h : r.self.time_limit_reached = false) (cur : Int)
    (board : Board) :
    Outcome minimaxTails r ((r.entered cur).estimatePosition board).2 := by
  refine ⟨[Event.minimax, Event.check false, Event.evaluate], ?_, Or.inl ⟨?_, ?_⟩⟩
  · rw [run_estimatePosition_trace]
    simp [Run.entered]
  · rw [run_estimatePosition_flag]; exact h
  · constructor <;> decide

theorem entered_generated_trace (r : Run) (cur : Int) :
    (r.entered cur).generated.trace =
      r.trace ++ [Event.minimax, Event.check false, Event.generate] := by
  simp [Run.entered, Run.generated]

theorem quiet_entered_generated : Quiet [Event.minimax, Event.check false, Event.generate] := by
  constructor <;> decide

/-- The record of an invocation of `minimax` started with the flag down: either no check
reports expiry and the flag stays down, or the record ends with the start of the detecting
invocation, its check and one evaluation, and the flag is set. -/
theorem minimax_outcome (expired : Nat → Bool) :
    ∀ (depth : Nat) (r : Run) (board : Board) (m : Bool) (cur : Int),
      r.self.time_limit_reached = false →
      Outcome minimaxTails r (minimax expired depth r board m cur).2 := by
  intro depth
  induction depth with
  | zero =>
    intro r board m cur h
    rcases minimax_cases expired 0 r board m cur with ⟨_, e⟩ | ⟨_, e⟩ |
      ⟨_, _, _, d, hd, _⟩ | ⟨_, _, _, d, hd, _⟩
    · rw [e]; exact outcome_tripped r board
    · rw [e]; exact outcome_leaf r h cur board
    · cases hd
    · cases hd
  | succ n ih =>
    intro r board m cur h
    rcases minimax_cases expired (n + 1) r board m cur with ⟨_, e⟩ | ⟨_, e⟩ |
      ⟨_, _, _, d, hd, _, e⟩ | ⟨_, _, _, d, hd, _, e⟩
    · rw [e]; exact outcome_tripped r board
    · rw [e]; exact outcome_leaf r h cur board
    · have hd2 : d = n := by omega
      subst hd2
      rw [e]
      exact outcome_after_quiet (entered_generated_trace r cur) quiet_entered_generated
        (maxLoop_outcome minimaxTails _ (fun r2 m2 hf => ih r2 m2 false (cur + 1) hf)
          (generateWhiteMoves board) intMin (r.entered cur).generated h)
    · have hd2 : d = n := by omega
      subst hd2
      rw [e]
      exact outcome_after_quiet (entered_generated_trace r cur) quiet_entered_generated
        (minLoop_outcome minimaxTails _ (fun r2 m2 hf => ih r2 m2 true (cur + 1) hf)
          (generateBlackMoves board) intMax (r.entered cur).generated h)

/-- The record of a pass over the root moves started with the flag down, under a monotone
governor: either no check reports expiry, or the pass is stopped with one of the endings of
the list `rootTails`. -/
theorem rootLoop_outcome {expired : Nat → Bool} (hmono : MonotoneGovernor expired)
    (depth : Nat) :
    ∀ (l : List Board) (cur : Board × Int) (r : Run), r.self.time_limit_reached = false →
      r.consistent expired →
      Outcome rootTails r (rootLoop expired depth l cur r).2.2 := by
  intro l
  induction l with
  | nil => intro cur r h _; exact outcome_refl rootTails h
  | cons m rest ih =>
    intro cur r h hc
    have hchk := consistent_check expired hc
    cases he : expired r.clock
    · rw [rootLoop_cons_step expired depth m rest cur r he]
      have hct : (checkTimeLimit expired r).2.trace = r.trace ++ [Event.check false] := by
        rw [checkTimeLimit_trace, he]
      have hcf : (checkTimeLimit expired r).2.self.time_limit_reached = false := by
        rw [checkTimeLimit_flag, he, h]; rfl
      have hq1 : Quiet [Event.check false] := by constructor <;> decide
      have hmc := (minimax_bounds hmono (depth - 1) _ m false 1 hchk).2
      obtain ⟨t, ht, hcase⟩ := minimax_outcome expired (depth - 1) _ m false 1 hcf
      rcases hcase with ⟨hf, hq⟩ | ⟨hf, t0, s, hq0, hs, rfl⟩
      · exact outcome_after_quiet hct hq1 (outcome_after_quiet ht hq (ih _ _ hf hmc))
      · have hs2 : s = [Event.minimax, Event.check true, Event.evaluate] :=
          List.mem_singleton.1 hs
        subst hs2
        cases rest with
        | nil =>
          refine ⟨[Event.check false] ++ (t0 ++ [Event.minimax, Event.check true,
            Event.evaluate]), ?_, Or.inr ⟨hf, ?_⟩⟩
          · show (minimax expired (depth - 1) (checkTimeLimit expired r).2 m false 1).2.trace = _
            rw [ht, hct, List.append_assoc]
          · exact stoppedWith_after_quiet hq1 ⟨t0, _, hq0, by simp [rootTails], rfl⟩
        | cons m2 rest2 =>
          obtain ⟨n, hn, hen⟩ := hmc hf
          have he2 := hmono n _ (Nat.le_of_lt hn) hen
          rw [rootLoop_cons_tripped expired depth m2 rest2 _ _ he2]
          refine ⟨[Event.check false] ++ (t0 ++ [Event.minimax, Event.check true,
            Event.evaluate, Event.check true]), ?_, Or.inr ⟨?_, ?_⟩⟩
          · show (checkTimeLimit expired _).2.trace = _
            rw [checkTimeLimit_trace, he2, ht, hct]
            simp
          · show (checkTimeLimit expired _).2.self.time_limit_reached = true
            rw [checkTimeLimit_flag, he2]; rfl
          · exact stoppedWith_after_quiet hq1 ⟨t0, _, hq0, by simp [rootTails], rfl⟩
    · rw [rootLoop_cons_tripped expired depth m rest cur r he]
      refine ⟨[Event.check true], ?_, Or.inr ⟨?_, ?_⟩⟩
      · show (checkTimeLimit expired r).2.trace = _
        rw [checkTimeLimit_trace, he]
      · show (checkTimeLimit expired r).2.self.time_limit_reached = true
        rw [checkTimeLimit_flag, he]; rfl
      · exact ⟨[], _, quiet_nil, by simp [rootTails], rfl⟩

/-- The record of the depth loop started with the flag down, under a monotone governor: when
the loop is left, the flag is set and the record added is a stopped record. -/
theorem deepeningLoop_outcome {expired : Nat → Bool} (hmono : MonotoneGovernor expired)
    (board : Board) :
    ∀ (fuel depth : Nat) (best : Board × Int) (r : Run), r.self.time_limit_reached = false →
      r.consistent expired →
      ∀ res, deepeningLoop expired board fuel depth best r = some res →
        res.2.self.time_limit_reached = true ∧
        ∃ t, res.2.trace = r.trace ++ t ∧ StoppedWith rootTails t := by
  intro fuel
  induction fuel with
  | zero => intro depth best r _ _ res h; simp [deepeningLoop] at h
  | succ n ih =>
    intro depth best r hf hc res h
    rw [deepeningLoop_succ, if_neg (by rw [hf]; simp)] at h
    have hcg := consistent_generated expired hc
    have hgt : r.generated.trace = r.trace ++ [Event.generate] := rfl
    have hqg : Quiet [Event.generate] := by constructor <;> decide
    obtain ⟨t, ht, hcase⟩ := rootLoop_outcome hmono depth (generateWhiteMoves board)
      (board, intMin) r.generated hf hcg
    have hstop : ∀ t2, StoppedWith rootTails t2 →
        (rootLoop expired depth (generateWhiteMoves board) (board, intMin)
          r.generated).2.2.trace = r.generated.trace ++ t2 →
        ∃ t3, (rootLoop expired depth (generateWhiteMoves board) (board, intMin)
          r.generated).2.2.trace = r.trace ++ t3 ∧ StoppedWith rootTails t3 := by
      intro t2 hs2 ht2
      exact ⟨[Event.generate] ++ t2, by rw [ht2, hgt, List.append_assoc],
        stoppedWith_after_quiet hqg hs2⟩
    split_ifs at h with h2
    · rcases hcase with ⟨hf1, hq⟩ | ⟨hf1, hs⟩
      · obtain ⟨g1, t2, ht2, hs2⟩ := ih _ _ _ hf1 (rootLoop_consistent hmono depth _ _ _ hcg)
          res h
        refine ⟨g1, [Event.generate] ++ (t ++ t2), ?_, ?_⟩
        · rw [ht2, ht, hgt]; simp
        · exact stoppedWith_after_quiet hqg (stoppedWith_after_quiet hq hs2)
      · cases n with
        | zero => simp [deepeningLoop] at h
        | succ k =>
          rw [deepeningLoop_succ, if_pos hf1] at h
          cases h
          exact ⟨hf1, hstop t hs ht⟩
    · cases h
      have hf1 := rootLoop_incomplete expired depth _ _ _ (by simpa using h2)
      rcases hcase with ⟨hf2, _⟩ | ⟨_, hs⟩
      · rw [hf1] at hf2; cases hf2
      · exact ⟨hf1, hstop t hs ht⟩

/-- C16: with a monotone time governor, every run of `findBestMoveWithTimeLimit` that returns
has the flag `time_limit_reached` set at the return, and its record of steps splits at the
first check that reported expiry: no check before it reported expiry and, after it, no
invocation of `minimax` is started and no move list is generated. When that check was made
inside an invocation of `minimax` (the step before it is the start of the invocation), what
follows is the single static evaluation returned by the detecting invocation and at most one
further check of the root loop, which reports expiry too; when it was a check of the root
loop, nothing follows. Such a run does return when some check reports expiry and White has a
move. -/
theorem expiry_stops_search (expired : Nat → Bool) (hmono : MonotoneGovernor expired)
    (self : Jumpy3) (board : Board) :
    (∀ fuel res r, findBestMoveWithTimeLimit expired fuel self board = some (res, r) →
      r.self.time_limit_reached = true ∧
      ∃ before after, r.trace = before ++ [Event.check true] ++ after ∧
        Event.check true ∉ before ∧ Event.minimax ∉ after ∧ Event.generate ∉ after ∧
        ((before.getLast? = some Event.minimax ∧
            (after = [Event.evaluate] ∨ after = [Event.evaluate, Event.check true])) ∨
         (before.getLast? ≠ some Event.minimax ∧ after = []))) ∧
    ((∃ T, expired T = true) → generateWhiteMoves board ≠ [] →
      ∃ fuel, (findBestMoveWithTimeLimit expired fuel self board).isSome = true) := by
  constructor
  · intro fuel res r h
    unfold findBestMoveWithTimeLimit at h
    obtain ⟨hflag, t, ht, t0, s, hq, hs, rfl⟩ :=
      deepeningLoop_outcome hmono board fuel 1 _ (Run.start self) rfl
        (consistent_start expired self) (res, r) h
    have ht2 : r.trace = t0 ++ s := by
      have : r.trace = (Run.start self).trace ++ (t0 ++ s) := ht
      rw [this]; rfl
    refine ⟨hflag, ?_⟩
    have hnm : Event.check true ∉ t0 ++ [Event.minimax] := by
      intro hm
      rcases List.mem_append.1 hm with h1 | h1
      · exact hq.1 h1
      · simp at h1
    simp only [rootTails, List.mem_cons, List.mem_singleton, List.not_mem_nil, or_false] at hs
    rcases hs with rfl | rfl | rfl
    · exact ⟨t0, [], by rw [ht2]; simp, hq.1, by simp, by simp, Or.inr ⟨hq.2, rfl⟩⟩
    · exact ⟨t0 ++ [Event.minimax], [Event.evaluate], by rw [ht2]; simp, hnm, by simp, by simp,
        Or.inl ⟨List.getLast?_concat _, Or.inl rfl⟩⟩
    · exact ⟨t0 ++ [Event.minimax], [Event.evaluate, Event.check true], by rw [ht2]; simp, hnm,
        by simp, by simp, Or.inl ⟨List.getLast?_concat _, Or.inr rfl⟩⟩
  · rintro ⟨T, hT⟩ hne
    refine ⟨T + 2, ?_⟩
    unfold findBestMoveWithTimeLimit
    apply deepeningLoop_terminates expired board hne T hT (T + 2) 1 _ _ (alert_start expired self)
      (by omega)
    intro _
    have : (Run.start self).clock = 0 := rfl
    omega

/-- Instance of C16 on `xxxxxWwxbBxxxxxx` with the governor that first reports expiry at its
tenth check, which is made inside the `minimax` invocation of the last root move at depth 2:
the run returns with the flag set, and after that check its record holds one evaluation
only. -/
theorem expiry_stops_search_witness :
    MonotoneGovernor (tripsAt 9) ∧
    (∃ res r, findBestMoveWithTimeLimit (tripsAt 9) 3 ⟨0, false, 15, 0⟩ ⟨64, 32, 256, 512⟩ =
        some (res, r) ∧
      r.self.time_limit_reached = true ∧
      ∃ before after, r.trace = before ++ [Event.check true] ++ after ∧
        Event.check true ∉ before ∧ Event.minimax ∉ after ∧ Event.generate ∉ after ∧
        ((before.getLast? = some Event.minimax ∧
            (after = [Event.evaluate] ∨ after = [Event.evaluate, Event.check true])) ∨
         (before.getLast? ≠ some Event.minimax ∧ after = []))) ∧
    (∃ fuel, (findBestMoveWithTimeLimit (tripsAt 9) fuel ⟨0, false, 15, 0⟩
      ⟨64, 32, 256, 512⟩).isSome = true) :=
  ⟨tripsAt_monotone 9,
    Exists.intro (⟨128, 32, 256, 512⟩, -1) (Exists.intro
      ⟨⟨5, true, 15, 2⟩, 10,
        [Event.generate,
         Event.check false, Event.minimax, Event.check false, Event.evaluate,
         Event.check false, Event.minimax, Event.check false, Event.evaluate,
         Event.generate,
         Event.check false, Event.minimax, Event.check false, Event.generate,
           Event.minimax, Event.check false, Event.evaluate,
           Event.minimax, Event.check false, Event.evaluate,
         Event.check false, Event.minimax, Event.check true, Event.evaluate]⟩
      ⟨by decide!,
        (expiry_stops_search (tripsAt 9) (tripsAt_monotone 9) ⟨0, false, 15, 0⟩
          ⟨64, 32, 256, 512⟩).1 3 (⟨128, 32, 256, 512⟩, -1) _ (by decide!)⟩),
    (expiry_stops_search (tripsAt 9) (tripsAt_monotone 9) ⟨0, false, 15, 0⟩
      ⟨64, 32, 256, 512⟩).2 ⟨9, by decide⟩ (by decide)⟩

/-- A second run on the same board: the governor first reports expiry at its seventh check,
inside the `minimax` invocation of the first Black reply to the first root move at depth 2.
The record ends with that invocation, its check, its evaluation, and the check of the root
loop before the second root move; no other step follows. -/
theorem expiry_inside_first_root_move :
    (findBestMoveWithTimeLimit (tripsAt 6) 3 ⟨0, false, 15, 0⟩ ⟨64, 32, 256, 512⟩).map
        (fun x => (x.1, x.2.self.time_limit_reached, x.2.trace)) =
      some ((⟨64, 128, 256, 512⟩, 1), true,
        [Event.generate,
         Event.check false, Event.minimax, Event.check false, Event.evaluate,
         Event.check false, Event.minimax, Event.check false, Event.evaluate,
         Event.generate,
         Event.check false, Event.minimax, Event.check false, Event.generate,
           Event.minimax, Event.check true, Event.evaluate,
         Event.check true]) := by
  decide!

end Jumpy3
